import Mathlib

/-
Verification of the JsonCompare structural diff engine.

The definitions below are a shallow embedding of the core logic of
src/app/page.tsx (the JSON comparator): JSON values, object signatures,
structure analysis, key auto-selection, field-change calculation, and the
compareJsons classification algorithm with its deduplication pass.
JavaScript objects are modelled as association lists of (field name, value)
pairs; JavaScript Map objects keyed by strings are modelled as functions
String to Option; warnings and fatal errors, pushed as message strings by
the source, are modelled as structured values carrying the same data that
the source interpolates into the message.
-/

set_option maxHeartbeats 1000000

/-- A JSON value as produced by JSON.parse: strings, numbers, booleans,
null, arrays and objects. Numbers are modelled as integers; none of the
verified properties depends on floating point behaviour. -/
inductive JsonValue where
  | str (s : String)
  | num (n : Int)
  | bool (b : Bool)
  | null
  | arr (elems : List JsonValue)
  | obj (fields : List (String × JsonValue))
deriving Repr

mutual

/-- Structural (syntactic) equality test on JSON values. -/
def jbeq : JsonValue → JsonValue → Bool
  | .str a, .str b => a == b
  | .num a, .num b => a == b
  | .bool a, .bool b => a == b
  | .null, .null => true
  | .arr xs, .arr ys => jbeqArr xs ys
  | .obj fs, .obj gs => jbeqFields fs gs
  | _, _ => false
termination_by structural a => a

def jbeqArr : List JsonValue → List JsonValue → Bool
  | [], [] => true
  | x :: xs, y :: ys => jbeq x y && jbeqArr xs ys
  | _, _ => false
termination_by structural a => a

def jbeqFields : List (String × JsonValue) → List (String × JsonValue) → Bool
  | [], [] => true
  | (k, v) :: fs, (l, w) :: gs => k == l && jbeq v w && jbeqFields fs gs
  | _, _ => false
termination_by structural a => a

end

/-- Correctness of the structural equality test: jbeq and its two list
companions decide equality. Stated as a definition so that the decidable
equality instance below can be set up before the theorem sections. -/
def jbeq_spec :
    (∀ a b, jbeq a b = true ↔ a = b)
      ∧ (∀ fs gs : List (String × JsonValue), jbeqFields fs gs = true ↔ fs = gs)
      ∧ (∀ xs ys : List JsonValue, jbeqArr xs ys = true ↔ xs = ys) := by
  refine jbeq.mutual_induct
    (fun a b => jbeq a b = true ↔ a = b)
    (fun fs gs => jbeqFields fs gs = true ↔ fs = gs)
    (fun xs ys => jbeqArr xs ys = true ↔ xs = ys)
    ?_ ?_ ?_ ?_ ?_ ?_ ?_ ?_ ?_ ?_ ?_ ?_ ?_
  · intro a b; simp [jbeq]
  · intro a b; simp [jbeq]
  · intro a b; simp [jbeq]
  · simp [jbeq]
  · intro xs ys ih; simp [jbeq, ih]
  · intro fs gs ih; simp [jbeq, ih]
  · intro t x h1 h2 h3 h4 h5 h6
    cases t <;> cases x <;>
      first
      | exact (h1 _ _ rfl rfl).elim
      | exact (h2 _ _ rfl rfl).elim
      | exact (h3 _ _ rfl rfl).elim
      | exact (h4 rfl rfl).elim
      | exact (h5 _ _ rfl rfl).elim
      | exact (h6 _ _ rfl rfl).elim
      | simp [jbeq]
  · simp [jbeqArr]
  · intro x xs y ys ih1 ih2; simp [jbeqArr, ih1, ih2]
  · intro t x h1 h2
    cases t <;> cases x <;>
      first
      | exact (h1 rfl rfl).elim
      | exact (h2 _ _ _ _ rfl rfl).elim
      | simp [jbeqArr]
  · simp [jbeqFields]
  · intro k v fs l w gs ih1 ih2
    simp [jbeqFields, ih1, ih2, and_assoc]
  · intro t x h1 h2
    cases t <;> cases x <;>
      first
      | exact (h1 rfl rfl).elim
      | (rename_i p fs q gs; exact (h2 p.1 p.2 fs q.1 q.2 gs rfl rfl).elim)
      | simp [jbeqFields]

instance : DecidableEq JsonValue := fun a b =>
  decidable_of_iff (jbeq a b = true) (jbeq_spec.1 a b)

/-- Lexicographic comparison of character lists by code unit, as used by
the default JavaScript Array.prototype.sort on strings. -/
def charsLe : List Char → List Char → Bool
  | [], _ => true
  | _ :: _, [] => false
  | a :: as, b :: bs =>
    if a.toNat < b.toNat then true
    else if b.toNat < a.toNat then false
    else charsLe as bs

/-- String comparison by code units (JavaScript default sort order). -/
def jsStrLe (s t : String) : Bool := charsLe s.data t.data

/-- Insert a field into a list of fields sorted by field name. -/
def insertField (p : String × JsonValue) : List (String × JsonValue) → List (String × JsonValue)
  | [] => [p]
  | q :: qs => if jsStrLe p.1 q.1 then p :: q :: qs else q :: insertField p qs

/-- Sort a list of fields by field name (insertion sort). -/
def sortFields (l : List (String × JsonValue)) : List (String × JsonValue) :=
  l.foldr insertField []

mutual

/-- Canonical form of a JSON value: object fields are recursively
canonicalized and sorted by field name. Two values have the same canonical
form exactly when lodash isEqual (deep equality, key-order-insensitive for
objects, order-sensitive for arrays) holds on well-formed values. -/
def canon : JsonValue → JsonValue
  | .obj fs => .obj (sortFields (canonFields fs))
  | .arr xs => .arr (canonArr xs)
  | .str s => .str s
  | .num n => .num n
  | .bool b => .bool b
  | .null => .null
termination_by structural v => v

def canonFields : List (String × JsonValue) → List (String × JsonValue)
  | [] => []
  | (k, v) :: rest => (k, canon v) :: canonFields rest
termination_by structural l => l

def canonArr : List JsonValue → List JsonValue
  | [] => []
  | v :: rest => canon v :: canonArr rest
termination_by structural l => l

end

/-- Model of lodash isEqual as used by the source: deep structural equality
that ignores object key order and distinguishes arrays from objects. -/
def isEqual (a b : JsonValue) : Bool := jbeq (canon a) (canon b)

/-- Model of lodash isEqual applied to two possibly absent property reads,
as in isEqual(beforeEntry.item[keyField], afterEntry.item[keyField]):
undefined equals only undefined. -/
def isEqualOpt : Option JsonValue → Option JsonValue → Bool
  | some a, some b => isEqual a b
  | none, none => true
  | _, _ => false

/-- Characters stripped by String.prototype.trim (the common ASCII ones). -/
def isJsWhitespace (c : Char) : Bool :=
  c = ' ' || c = '\t' || c = '\n' || c = '\r'

def dropLeadingWs : List Char → List Char
  | [] => []
  | c :: cs => if isJsWhitespace c then dropLeadingWs cs else c :: cs

/-- Model of JavaScript String.prototype.trim. -/
def jsTrim (s : String) : String :=
  String.mk ((dropLeadingWs (dropLeadingWs s.data.reverse).reverse))

/-- The own enumerable string-keyed properties of a value, in insertion
order, for values satisfying the typeof item === "object" && item !== null
test of the source. JavaScript arrays pass that test; their properties are
their elements keyed by the decimal index strings "0", "1", ... -/
def jsFields : JsonValue → Option (List (String × JsonValue))
  | .obj fs => some fs
  | .arr xs => some ((List.range xs.length).zip xs |>.map (fun p => (toString p.1, p.2)))
  | _ => none

/-- Property read item[k]: the first field named k (JavaScript objects have
unique keys, so first and only). -/
def lookupField : List (String × JsonValue) → String → Option JsonValue
  | [], _ => none
  | (l, v) :: fs, k => if l = k then some v else lookupField fs k

def fieldKeys (fs : List (String × JsonValue)) : List String :=
  fs.map Prod.fst

/-- Insert a string into a sorted list of strings. -/
def insertString (s : String) : List String → List String
  | [] => [s]
  | t :: ts => if jsStrLe s t then s :: t :: ts else t :: insertString s ts

/-- Sort strings as Array.prototype.sort does (by code units). -/
def sortStrings (l : List String) : List String :=
  l.foldr insertString []

/-- getObjectSignature of the source, applied to the fields of an object:
the sorted field names joined by commas. -/
def getObjectSignature (fs : List (String × JsonValue)) : String :=
  String.intercalate "," (sortStrings (fieldKeys fs))

/-- The selected-key configuration: a map from object signature to chosen
key field name. Raw entries may hold the empty string. -/
def SelectedKeyConfig : Type := String → Option String

/-- Read a key configuration entry the way the source does with
selectedKeyConfig[signature] under a truthiness test: an absent entry and
an empty-string entry both count as no selection. -/
def getKey (cfg : SelectedKeyConfig) (sig : String) : Option String :=
  match cfg sig with
  | some v => if v = "" then none else some v
  | none => none

/-- The key-field validation applied to item[keyField]: the value must be
present, a string, and non-empty after trimming. Returns the validated key
string. -/
def validKeyString : Option JsonValue → Option String
  | some (.str s) => if jsTrim s = "" then none else some s
  | _ => none

/-- Append a string to a list unless already present (JavaScript Set add,
preserving first-insertion order). -/
def addKeyUnique (l : List String) (k : String) : List String :=
  if k ∈ l then l else l ++ [k]

/-- The distinct elements of a list in first-occurrence order, as obtained
by inserting them into a JavaScript Set. -/
def jsDedup (l : List String) : List String :=
  l.foldl addKeyUnique []

/-- Per-signature accumulator of analyzeJsonStructures: the set of keys
seen across instances (insertion order) and the instances themselves. -/
structure StructData where
  keys : List String
  instances : List (List (String × JsonValue))

/-- One step of grouping records by signature, mirroring the structureMap
loop of analyzeJsonStructures: ensure an entry for the signature exists,
push the record, and add its keys to the key set. -/
def groupStep (m : List (String × StructData)) (fs : List (String × JsonValue)) :
    List (String × StructData) :=
  let sig := getObjectSignature fs
  let m1 := if m.any (fun p => p.1 = sig) then m else m ++ [(sig, ⟨[], []⟩)]
  m1.map (fun p =>
    if p.1 = sig then
      (p.1, ⟨(fieldKeys fs).foldl addKeyUnique p.2.keys, p.2.instances ++ [fs]⟩)
    else p)

def groupBySignature (items : List (List (String × JsonValue))) : List (String × StructData) :=
  items.foldl groupStep []

/-- Potential key fields of a structure group: the fields of the first
instance whose value is a non-empty-after-trim string in every instance,
sorted alphabetically. -/
def potentialKeysOf (instances : List (List (String × JsonValue))) : List String :=
  match instances with
  | [] => []
  | f0 :: _ =>
    sortStrings ((fieldKeys f0).filter (fun k =>
      instances.all (fun inst => (validKeyString (lookupField inst k)).isSome)))

/-- A distinct object structure discovered in one input collection. -/
structure JsonObjectStructure where
  signature : String
  keys : List String
  count : Nat
  potentialKeyFields : List String
deriving Repr, DecidableEq

def insertStructBySig (s : JsonObjectStructure) :
    List JsonObjectStructure → List JsonObjectStructure
  | [] => [s]
  | t :: ts => if jsStrLe s.signature t.signature then s :: t :: ts else t :: insertStructBySig s ts

def sortStructures (l : List JsonObjectStructure) : List JsonObjectStructure :=
  l.foldr insertStructBySig []

/-- analyzeJsonStructures of the source, applied to an already parsed
array: fails when some element is not a non-null object (JavaScript
arrays count as objects), otherwise groups records by signature and
reports each structure with its key set, instance count and potential key
fields, ordered by signature. -/
def analyzeJsonStructures (data : List JsonValue) :
    Except String (List JsonObjectStructure) :=
  if data.any (fun item => (jsFields item).isNone) then
    Except.error "All items in the JSON array must be objects."
  else
    Except.ok (sortStructures ((groupBySignature (data.filterMap jsFields)).map (fun p =>
      ⟨p.1, sortStrings p.2.keys, p.2.instances.length, potentialKeysOf p.2.instances⟩)))

/-- The structure inventory held in component state for one input: the
analyzer output, or the empty list when analysis failed. -/
def structuresOf (data : List JsonValue) : List JsonObjectStructure :=
  match analyzeJsonStructures data with
  | Except.ok s => s
  | Except.error _ => []

/-- JavaScript Map.set keyed by signature: replace in place or append. -/
def setStructure (m : List JsonObjectStructure) (s : JsonObjectStructure) :
    List JsonObjectStructure :=
  if m.any (fun t => t.signature = s.signature) then
    m.map (fun t => if t.signature = s.signature then s else t)
  else m ++ [s]

/-- The allAnalyzedStructures map of the auto-select effect: all before
structures, then each after structure when no entry for its signature
exists yet or the existing entry has no potential key fields. -/
def combineStructures (beforeS afterS : List JsonObjectStructure) :
    List JsonObjectStructure :=
  afterS.foldl (fun acc s =>
    match acc.find? (fun t => t.signature == s.signature) with
    | none => setStructure acc s
    | some t => if t.potentialKeyFields.length = 0 then setStructure acc s else acc)
    (beforeS.foldl setStructure [])

def updateCfg (cfg : SelectedKeyConfig) (sig k : String) : SelectedKeyConfig :=
  fun s => if s = sig then some k else cfg s

/-- The key auto-selection effect of the source (KeyResolver of the spec):
for each combined structure with exactly one potential key field and no
truthy mapping entry yet, select that field; all other entries are kept. -/
def resolveKeys (beforeS afterS : List JsonObjectStructure) (cfg : SelectedKeyConfig) :
    SelectedKeyConfig :=
  (combineStructures beforeS afterS).foldl (fun c s =>
    if s.potentialKeyFields.length = 1 ∧ getKey c s.signature = none then
      updateCfg c s.signature (s.potentialKeyFields.headD "")
    else c) cfg

/-- The three sub-mappings of field-level changes between two records. -/
structure FieldChanges where
  added : List (String × JsonValue)
  removed : List (String × JsonValue)
  changed : List (String × JsonValue × JsonValue)
deriving Repr, DecidableEq

/-- calculateFieldChanges of the source: iterate the union of the field
names of both records (first-occurrence order); a field only in the second
record is added, only in the first is removed, in both with values that
are not deeply equal is changed. -/
def calculateFieldChanges (obj1 obj2 : List (String × JsonValue)) : FieldChanges :=
  let allKeys := jsDedup (fieldKeys obj1 ++ fieldKeys obj2)
  { added := allKeys.filterMap (fun k =>
      match lookupField obj1 k, lookupField obj2 k with
      | none, some v2 => some (k, v2)
      | _, _ => none)
  , removed := allKeys.filterMap (fun k =>
      match lookupField obj1 k, lookupField obj2 k with
      | some v1, none => some (k, v1)
      | _, _ => none)
  , changed := allKeys.filterMap (fun k =>
      match lookupField obj1 k, lookupField obj2 k with
      | some v1, some v2 => if isEqual v1 v2 then none else some (k, v1, v2)
      | _, _ => none) }

/-- Which input collection a record came from. -/
inductive Side where
  | before
  | after
deriving Repr, DecidableEq

/-- The non-fatal warnings pushed to localErrors by compareJsons, carrying
the data the source interpolates into each message. -/
inductive CompareWarning where
  | skipNonObject (side : Side) (item : JsonValue)
  | invalidKeyValue (side : Side) (keyField : String) (signature : String)
      (value : Option JsonValue)
  | duplicateKey (side : Side) (keyValue : String) (keyField : String) (signature : String)
deriving Repr, DecidableEq

/-- An entry of the beforeMap or afterMap of compareJsons. -/
structure MapEntry where
  item : JsonValue
  signature : String
  keyField : String
deriving Repr, DecidableEq

/-- A JavaScript Map from key value strings to map entries. -/
def EntryMap : Type := String → Option MapEntry

/-- One step of populating a side map: skip non-objects with a warning,
skip records of unconfigured signatures, warn and skip records with an
invalid key value, warn on duplicate key values, and store the record
under its key (last write wins). -/
def buildStep (side : Side) (cfg : SelectedKeyConfig)
    (st : EntryMap × List CompareWarning) (item : JsonValue) :
    EntryMap × List CompareWarning :=
  match jsFields item with
  | none => (st.1, st.2 ++ [.skipNonObject side item])
  | some fs =>
    match getKey cfg (getObjectSignature fs) with
    | none => st
    | some keyField =>
      match validKeyString (lookupField fs keyField) with
      | none =>
        (st.1, st.2 ++
          [.invalidKeyValue side keyField (getObjectSignature fs) (lookupField fs keyField)])
      | some keyValue =>
        (fun s => if s = keyValue then some ⟨item, getObjectSignature fs, keyField⟩ else st.1 s,
         if (st.1 keyValue).isSome then
           st.2 ++ [.duplicateKey side keyValue keyField (getObjectSignature fs)]
         else st.2)

def buildSideMap (side : Side) (cfg : SelectedKeyConfig) (data : List JsonValue) :
    EntryMap × List CompareWarning :=
  data.foldl (buildStep side cfg) (fun _ => none, [])

/-- An element of newEntries or deletedEntries before the spread: the
fields of the underlying record, the objectSignature recorded for it, and
the keyFieldUsed property when one was attached. -/
structure SimpleEntry where
  fields : List (String × JsonValue)
  objectSignature : String
  keyFieldUsed : Option String
deriving Repr, DecidableEq

/-- An element of modifiedEntries. -/
structure ModifiedEntry where
  keyFieldValue : String
  keyFieldUsed : String
  objectSignature : String
  before : JsonValue
  after : JsonValue
  changes : FieldChanges
deriving Repr, DecidableEq

/-- The three classification lists while the loops of compareJsons run. -/
structure DiffLists where
  newEntries : List SimpleEntry
  modifiedEntries : List ModifiedEntry
  deletedEntries : List SimpleEntry
deriving Repr, DecidableEq

def fieldsOfItem (v : JsonValue) : List (String × JsonValue) :=
  (jsFields v).getD []

mutual

def jsElemString : JsonValue → String
  | .null => ""
  | .str s => s
  | .num n => toString n
  | .bool b => cond b "true" "false"
  | .arr xs => String.intercalate "," (jsArrElems xs)
  | .obj _ => "[object Object]"
termination_by structural v => v

def jsArrElems : List JsonValue → List String
  | [] => []
  | v :: vs => jsElemString v :: jsArrElems vs
termination_by structural l => l

end

/-- JavaScript string coercion of a value, as in a template literal:
strings unchanged, numbers in decimal, arrays joined by commas with null
elements blank, objects as the Object tag string. -/
def jsStringV : JsonValue → String
  | .str s => s
  | .num n => toString n
  | .bool b => cond b "true" "false"
  | .null => "null"
  | .arr xs => String.intercalate "," (jsArrElems xs)
  | .obj _ => "[object Object]"

/-- String coercion of a possibly absent property read. -/
def jsStringOpt : Option JsonValue → String
  | none => "undefined"
  | some v => jsStringV v

/-- Escape a string as JSON.stringify quotes it. -/
def escapeJsonString (s : String) : String :=
  "\"" ++ String.join (s.data.map (fun c =>
    if c = '"' then "\\\"" else if c = '\\' then "\\\\" else String.mk [c])) ++ "\""

mutual

/-- JSON.stringify of a value (no indentation). -/
def stringifyV : JsonValue → String
  | .str s => escapeJsonString s
  | .num n => toString n
  | .bool b => cond b "true" "false"
  | .null => "null"
  | .arr xs => "[" ++ String.intercalate "," (stringifyArr xs) ++ "]"
  | .obj fs => "\x7b" ++ String.intercalate "," (stringifyFields fs) ++ "\x7d"
termination_by structural v => v

def stringifyArr : List JsonValue → List String
  | [] => []
  | v :: vs => stringifyV v :: stringifyArr vs
termination_by structural l => l

def stringifyFields : List (String × JsonValue) → List String
  | [] => []
  | (k, v) :: fs => (escapeJsonString k ++ ":" ++ stringifyV v) :: stringifyFields fs
termination_by structural l => l

end

/-- Object spread update {...fs, k: v}: replace the value of an existing
field in place, or append a new field. -/
def spreadSet (fs : List (String × JsonValue)) (k : String) (v : JsonValue) :
    List (String × JsonValue) :=
  if (fieldKeys fs).contains k then
    fs.map (fun p => if p.1 = k then (k, v) else p)
  else fs ++ [(k, v)]

/-- The fields of the output object produced for a new or deleted entry:
the record fields spread together with the objectSignature property and,
when present, the keyFieldUsed property. -/
def mergedEntry (e : SimpleEntry) : List (String × JsonValue) :=
  let f1 := spreadSet e.fields "objectSignature" (.str e.objectSignature)
  match e.keyFieldUsed with
  | some kf => spreadSet f1 "keyFieldUsed" (.str kf)
  | none => f1

/-- makeEntryId of the source: the deduplication identity of a new or
deleted entry, built from its objectSignature and either the coerced value
of its configured key field or the JSON serialization of the whole entry
object. -/
def makeEntryId (cfg : SelectedKeyConfig) (e : SimpleEntry) : String :=
  match getKey cfg e.objectSignature with
  | some kf => e.objectSignature ++ "::" ++ jsStringOpt (lookupField (mergedEntry e) kf)
  | none => e.objectSignature ++ "::" ++ stringifyV (.obj (mergedEntry e))

/-- JavaScript Map.set during deduplication: replace the entry holding the
same id in place, or append. -/
def replaceOrAppendById (f : SimpleEntry → String) (acc : List SimpleEntry)
    (e : SimpleEntry) : List SimpleEntry :=
  if acc.any (fun x => f x = f e) then
    acc.map (fun x => if f x = f e then e else x)
  else acc ++ [e]

/-- new Map(l.map(e => [f e, e])).values(): one entry per id, the last
value written, in first-insertion order of ids. -/
def dedupEntries (f : SimpleEntry → String) (l : List SimpleEntry) : List SimpleEntry :=
  l.foldl (replaceOrAppendById f) []

/-- The ChangeSet attached to a modified entry: the calculated field
changes, with the entry for the key field removed from changed when the
key field values are deeply equal. -/
def mkChanges (keyField : String) (beforeEntry afterEntry : MapEntry) : FieldChanges :=
  let changes := calculateFieldChanges (fieldsOfItem beforeEntry.item)
    (fieldsOfItem afterEntry.item)
  if changes.changed.any (fun c => c.1 = keyField) &&
      isEqualOpt (lookupField (fieldsOfItem beforeEntry.item) keyField)
        (lookupField (fieldsOfItem afterEntry.item) keyField) then
    { changes with changed := changes.changed.filter (fun c => c.1 ≠ keyField) }
  else changes

/-- The classification step of compareJsons for one record of the after
collection: unkeyed records become new entries; keyed records are looked
up by key value in both maps, yielding a new entry, a signature-change
replacement (one deleted plus one new entry), a modified entry when the
records differ with field changes remaining after the key-field check, or
nothing. -/
def afterStep (cfg : SelectedKeyConfig) (beforeMap afterMap : EntryMap)
    (st : DiffLists) (item : JsonValue) : DiffLists :=
  match jsFields item with
  | none => st
  | some fs =>
    match getKey cfg (getObjectSignature fs) with
    | none =>
      { st with newEntries := st.newEntries ++ [⟨fs, getObjectSignature fs, none⟩] }
    | some keyField =>
      match lookupField fs keyField with
      | some (.str keyValue) =>
        match afterMap keyValue with
        | none => st
        | some afterEntry =>
          match beforeMap keyValue with
          | none =>
            { st with newEntries := st.newEntries ++
                [⟨fieldsOfItem afterEntry.item, getObjectSignature fs, some keyField⟩] }
          | some beforeEntry =>
            if beforeEntry.signature ≠ afterEntry.signature then
              { st with
                deletedEntries := st.deletedEntries ++
                  [⟨fieldsOfItem beforeEntry.item, beforeEntry.signature, some beforeEntry.keyField⟩],
                newEntries := st.newEntries ++
                  [⟨fieldsOfItem afterEntry.item, afterEntry.signature, some afterEntry.keyField⟩] }
            else if isEqual beforeEntry.item afterEntry.item then st
            else if (mkChanges keyField beforeEntry afterEntry).added.length > 0 ||
                (mkChanges keyField beforeEntry afterEntry).removed.length > 0 ||
                (mkChanges keyField beforeEntry afterEntry).changed.length > 0 then
              { st with modifiedEntries := st.modifiedEntries ++
                  [⟨keyValue, keyField, getObjectSignature fs, beforeEntry.item, afterEntry.item,
                    mkChanges keyField beforeEntry afterEntry⟩] }
            else st
      | _ => st

/-- The alreadyDeletedDueToSigChange test: some deleted entry carries the
signature of the before map entry and its output object holds the key
value under that entry's key field. -/
def alreadyDeleted (del : List SimpleEntry) (beforeEntry : MapEntry) (keyValue : String) : Bool :=
  del.any (fun de =>
    de.objectSignature == beforeEntry.signature &&
    (match lookupField (mergedEntry de) beforeEntry.keyField with
     | some (.str s) => s == keyValue
     | _ => false))

/-- The deletion step of compareJsons for one record of the before
collection: an unkeyed record whose signature does not occur in the after
collection is deleted; a keyed record that was validly mapped and whose
key value is absent from the after map is deleted unless already recorded
by a signature change. -/
def beforeStep (cfg : SelectedKeyConfig) (beforeMap afterMap : EntryMap)
    (afterData : List JsonValue) (st : DiffLists) (item : JsonValue) : DiffLists :=
  match jsFields item with
  | none => st
  | some fs =>
    match getKey cfg (getObjectSignature fs) with
    | none =>
      if afterData.any (fun ai =>
          match jsFields ai with
          | some gs => getObjectSignature gs = getObjectSignature fs
          | none => false) then st
      else
        { st with deletedEntries := st.deletedEntries ++ [⟨fs, getObjectSignature fs, none⟩] }
    | some keyField =>
      match lookupField fs keyField with
      | some (.str keyValue) =>
        match beforeMap keyValue with
        | none => st
        | some beforeEntry =>
          match afterMap keyValue with
          | some _ => st
          | none =>
            if alreadyDeleted st.deletedEntries beforeEntry keyValue then st
            else
              { st with deletedEntries := st.deletedEntries ++
                  [⟨fieldsOfItem beforeEntry.item, getObjectSignature fs, some keyField⟩] }
      | _ => st

/-- The pre-deduplication classification lists of a comparison run. -/
def preLists (beforeData afterData : List JsonValue) (cfg : SelectedKeyConfig) : DiffLists :=
  beforeData.foldl
    (beforeStep cfg (buildSideMap .before cfg beforeData).1
      (buildSideMap .after cfg afterData).1 afterData)
    (afterData.foldl
      (afterStep cfg (buildSideMap .before cfg beforeData).1
        (buildSideMap .after cfg afterData).1) ⟨[], [], []⟩)

/-- The fatal error of compareJsons modelled here: a signature present in
both structure inventories without a truthy key selection. -/
inductive CompareError where
  | missingKeySelection (signature : String)
deriving Repr, DecidableEq

/-- The comparison result: the deduplicated new and deleted entries, the
modified entries, and the accumulated warnings. -/
structure ComparisonResult where
  newEntries : List SimpleEntry
  modifiedEntries : List ModifiedEntry
  deletedEntries : List SimpleEntry
  errors : List CompareWarning
deriving Repr, DecidableEq

/-- The signatures of the object records of both inputs, in first
occurrence order (the activeSignatures set of the source). -/
def activeSignatures (beforeData afterData : List JsonValue) : List String :=
  jsDedup ((beforeData ++ afterData).filterMap (fun item =>
    (jsFields item).map getObjectSignature))

/-- The validation gate predicate: the signature occurs in both structure
inventories and has no truthy key selection. -/
def gateFails (beforeData afterData : List JsonValue) (cfg : SelectedKeyConfig)
    (sig : String) : Bool :=
  (structuresOf beforeData).any (fun s => s.signature == sig) &&
  (structuresOf afterData).any (fun s => s.signature == sig) &&
  (getKey cfg sig).isNone

/-- compareJsons of the source, applied to already parsed arrays: validate
that every signature present in both inventories has a key selection
(returning MissingKeySelection with the first offender otherwise), build
the two key-indexed maps, classify the after records, classify the before
records, and deduplicate the new and deleted lists by entry id. -/
def compareJsons (beforeData afterData : List JsonValue) (cfg : SelectedKeyConfig) :
    Except CompareError ComparisonResult :=
  match (activeSignatures beforeData afterData).find?
      (gateFails beforeData afterData cfg) with
  | some sig => Except.error (.missingKeySelection sig)
  | none =>
    let st := preLists beforeData afterData cfg
    Except.ok
      { newEntries := dedupEntries (makeEntryId cfg) st.newEntries
      , modifiedEntries := st.modifiedEntries
      , deletedEntries := dedupEntries (makeEntryId cfg) st.deletedEntries
      , errors := (buildSideMap .before cfg beforeData).2 ++ (buildSideMap .after cfg afterData).2 }

/-- Re-application of a ChangeSet to the before record, as described by the
spec: delete every field named in removed, replace the value of every field
named in changed by its after value, and insert every field named in added
with its after value. -/
def applyChanges (fs : List (String × JsonValue)) (ch : FieldChanges) :
    List (String × JsonValue) :=
  ((fs.filter (fun p => ¬ ch.removed.any (fun q => q.1 = p.1))).map (fun p =>
    match ch.changed.find? (fun c => c.1 = p.1) with
    | some c => (p.1, c.2.2)
    | none => p)) ++ ch.added

/-- Deep equality of two records viewed as field-name-to-value mappings. -/
def fieldsEqual (fs gs : List (String × JsonValue)) : Bool :=
  isEqual (.obj fs) (.obj gs)

/-- The identity of a logical entity: a keyed record is identified by its
signature and the value of its configured key field, an unkeyed record by
its signature and full content. -/
inductive EntityTag where
  | keyed (sig : String) (keyValue : Option JsonValue)
  | unkeyed (sig : String) (fields : List (String × JsonValue))
deriving Repr, DecidableEq

/-- The logical entity a record represents, computed from its own fields
and the key configuration. -/
def entityOfFields (cfg : SelectedKeyConfig) (fs : List (String × JsonValue)) : EntityTag :=
  match getKey cfg (getObjectSignature fs) with
  | some kf => .keyed (getObjectSignature fs) (lookupField fs kf)
  | none => .unkeyed (getObjectSignature fs) fs

/-- The logical entity represented by a new or deleted entry. -/
def entryEntity (cfg : SelectedKeyConfig) (e : SimpleEntry) : EntityTag :=
  entityOfFields cfg e.fields

/-- The logical entity represented by a modified entry (computed from its
after record; the before record of the matched pair denotes the same
entity). -/
def modifiedEntity (cfg : SelectedKeyConfig) (m : ModifiedEntry) : EntityTag :=
  entityOfFields cfg (fieldsOfItem m.after)

/-- Boolean check that a record has no duplicated top-level field names,
true for every value produced by JSON.parse. -/
def topNodup (v : JsonValue) : Bool :=
  match jsFields v with
  | some fs => decide (fieldKeys fs).Nodup
  | none => true

/-- Two values are equal as field-name-to-value mappings up to the order in
which the top level lists its fields: either identical, or objects whose
field lists are permutations of each other. -/
def recPerm (x y : JsonValue) : Prop :=
  x = y ∨ ∃ fs gs, x = JsonValue.obj fs ∧ y = JsonValue.obj gs ∧ fs.Perm gs

/-- Correspondence between new or deleted entries of two comparison runs
whose inputs list fields in different orders. -/
def entryRel (e1 e2 : SimpleEntry) : Prop :=
  e1.fields.Perm e2.fields ∧ e1.objectSignature = e2.objectSignature ∧
    e1.keyFieldUsed = e2.keyFieldUsed

/-- Correspondence between ChangeSets of two such runs: the same field
changes, up to iteration order of the union of keys. -/
def changesRel (c1 c2 : FieldChanges) : Prop :=
  c1.added.Perm c2.added ∧ c1.removed.Perm c2.removed ∧ c1.changed.Perm c2.changed

/-- Correspondence between modified entries of two such runs. -/
def modRel (m1 m2 : ModifiedEntry) : Prop :=
  m1.keyFieldValue = m2.keyFieldValue ∧ m1.keyFieldUsed = m2.keyFieldUsed ∧
    m1.objectSignature = m2.objectSignature ∧ recPerm m1.before m2.before ∧
    recPerm m1.after m2.after ∧ changesRel m1.changes m2.changes

/-- Whether a signature occurs in the structure inventory of an input. -/
def sigInInventory (data : List JsonValue) (sig : String) : Bool :=
  (structuresOf data).any (fun s => s.signature == sig)

/-- The invariant of a key-indexed side map entry: it stores a record of
the given collection under the validated value of the key field configured
for that record's own signature. -/
def ValidMapEntry (cfg : SelectedKeyConfig) (data : List JsonValue) (k : String)
    (e : MapEntry) : Prop :=
  e.item ∈ data ∧
    ∃ fs, jsFields e.item = some fs ∧
      e.signature = getObjectSignature fs ∧
      getKey cfg e.signature = some e.keyField ∧
      validKeyString (lookupField fs e.keyField) = some k

/-- How an entry can have been pushed to newEntries: an unkeyed after
record, a keyed after record with no before counterpart, or the new half
of a signature-change replacement. -/
def NewSrc (cfg : SelectedKeyConfig) (beforeMap afterMap : EntryMap)
    (afterData : List JsonValue) (e : SimpleEntry) : Prop :=
  (∃ item ∈ afterData, ∃ fs, jsFields item = some fs ∧
      getKey cfg (getObjectSignature fs) = none ∧ e.fields = fs)
  ∨ (∃ kv ae, afterMap kv = some ae ∧ beforeMap kv = none ∧ e.fields = fieldsOfItem ae.item)
  ∨ (∃ kv ae be, afterMap kv = some ae ∧ beforeMap kv = some be ∧
      be.signature ≠ ae.signature ∧ e = ⟨fieldsOfItem ae.item, ae.signature, some ae.keyField⟩)

/-- How an entry can have been pushed to deletedEntries: an unkeyed
before record whose signature is absent from the after collection, the
deleted half of a signature-change replacement, or a keyed before record
whose key value is absent from the after map. -/
def DelSrc (cfg : SelectedKeyConfig) (beforeMap afterMap : EntryMap)
    (beforeData afterData : List JsonValue) (d : SimpleEntry) : Prop :=
  (∃ item ∈ beforeData, ∃ fs, jsFields item = some fs ∧
      getKey cfg (getObjectSignature fs) = none ∧ d.fields = fs ∧
      afterData.any (fun ai =>
        match jsFields ai with
        | some gs => getObjectSignature gs = getObjectSignature fs
        | none => false) = false)
  ∨ (∃ kv ae be, afterMap kv = some ae ∧ beforeMap kv = some be ∧
      be.signature ≠ ae.signature ∧ d.fields = fieldsOfItem be.item)
  ∨ (∃ kv be, beforeMap kv = some be ∧ afterMap kv = none ∧ d.fields = fieldsOfItem be.item)

/-- How a modified entry arises: a key value mapped on both sides to
records of the same signature, the entry carrying those two records and
the ChangeSet computed for them. -/
def ModSrc (beforeMap afterMap : EntryMap) (m : ModifiedEntry) : Prop :=
  ∃ kv ae be, afterMap kv = some ae ∧ beforeMap kv = some be ∧
    be.signature = ae.signature ∧ m.before = be.item ∧ m.after = ae.item ∧
    m.keyFieldValue = kv ∧ isEqual be.item ae.item = false ∧
    m.changes = mkChanges m.keyFieldUsed be ae

instance {ε α : Type} [DecidableEq ε] [DecidableEq α] : DecidableEq (Except ε α)
  | .ok a, .ok b =>
    if h : a = b then isTrue (by rw [h]) else isFalse (by simp [h])
  | .error a, .error b =>
    if h : a = b then isTrue (by rw [h]) else isFalse (by simp [h])
  | .ok _, .error _ => isFalse (by simp)
  | .error _, .ok _ => isFalse (by simp)

/- ===== Concrete inputs used by witnesses and counterexamples ===== -/

def wBefore1 : List JsonValue := [.obj [("id", .str "1"), ("name", .str "Alice")]]

def wAfter1 : List JsonValue := [.obj [("id", .str "1"), ("name", .str "Alicia")]]

def wCfg1 : SelectedKeyConfig := fun s => if s = "id,name" then some "id" else none

def wResult1 : ComparisonResult :=
  ⟨[], [⟨"1", "id", "id,name",
      .obj [("id", .str "1"), ("name", .str "Alice")],
      .obj [("id", .str "1"), ("name", .str "Alicia")],
      ⟨[], [], [("name", .str "Alice", .str "Alicia")]⟩⟩], [], []⟩

def cxBefore4 : List JsonValue := [.obj [("id", .str "x::y"), ("z", .num 1)]]

def cxAfter4 : List JsonValue := [.obj [("id", .str "x::y")], .obj [("id::x", .str "y")]]

def cxCfg4 : SelectedKeyConfig := fun s =>
  if s = "id" then some "id"
  else if s = "id,z" then some "id"
  else if s = "id::x" then some "id::x"
  else none

def cxResult4 : ComparisonResult :=
  ⟨[⟨[("id::x", .str "y")], "id::x", some "id::x"⟩], [],
    [⟨[("id", .str "x::y"), ("z", .num 1)], "id,z", some "id"⟩], []⟩

def c8Before : List JsonValue := [.obj [("c", .num 1), ("k", .str "v")]]

def c8After : List JsonValue :=
  [.obj [("c", .str "v"), ("x", .num 1)], .obj [("c", .num 2), ("k", .str "v")]]

def c8Cfg : SelectedKeyConfig := fun s =>
  if s = "c,x" then some "c" else if s = "c,k" then some "k" else none

def c8Result : ComparisonResult :=
  ⟨[],
    [⟨"v", "c", "c,x", .obj [("c", .num 1), ("k", .str "v")],
        .obj [("c", .num 2), ("k", .str "v")], ⟨[], [], [("c", .num 1, .num 2)]⟩⟩,
      ⟨"v", "k", "c,k", .obj [("c", .num 1), ("k", .str "v")],
        .obj [("c", .num 2), ("k", .str "v")], ⟨[], [], [("c", .num 1, .num 2)]⟩⟩],
    [], [.duplicateKey .after "v" "k" "c,k"]⟩

def c5Before : List JsonValue := [.obj [("a", .str "x"), ("b", .str "y")]]

def c5After : List JsonValue := [.obj [("a", .str "x"), ("b", .str "")]]

/-- Correspondence between map entries of two runs whose inputs list
fields in different orders: related records, identical signature and key
field, with the first run's record well-formed and its signature keyed. -/
def MapEntryRel (cfg : SelectedKeyConfig) (e1 e2 : MapEntry) : Prop :=
  recPerm e1.item e2.item ∧ e1.signature = e2.signature ∧ e1.keyField = e2.keyField ∧
    topNodup e1.item = true ∧ (getKey cfg e1.signature).isSome = true

/-- Pointwise correspondence between the key-indexed side maps of two runs. -/
def MapRel (cfg : SelectedKeyConfig) (m1 m2 : EntryMap) : Prop :=
  ∀ kv, (m1 kv = none ∧ m2 kv = none) ∨
    ∃ e1 e2, m1 kv = some e1 ∧ m2 kv = some e2 ∧ MapEntryRel cfg e1 e2

/-- Correspondence between new or deleted entries of two runs, refined
with the facts needed for the deduplication pass: permuted fields with
unique names, equal signature and keyFieldUsed, and a keyed signature. -/
def SimRel (cfg : SelectedKeyConfig) (e1 e2 : SimpleEntry) : Prop :=
  e1.fields.Perm e2.fields ∧ e1.objectSignature = e2.objectSignature ∧
    e1.keyFieldUsed = e2.keyFieldUsed ∧ (fieldKeys e1.fields).Nodup ∧
    (getKey cfg e1.objectSignature).isSome = true

/-- Correspondence between the classification lists of two runs. -/
def DiffRel (cfg : SelectedKeyConfig) (st1 st2 : DiffLists) : Prop :=
  List.Forall₂ (SimRel cfg) st1.newEntries st2.newEntries ∧
    List.Forall₂ modRel st1.modifiedEntries st2.modifiedEntries ∧
    List.Forall₂ (SimRel cfg) st1.deletedEntries st2.deletedEntries

def c9wBefore1 : List JsonValue := [.obj [("id", .str "1"), ("z", .num 1)]]

def c9wBefore2 : List JsonValue := [.obj [("z", .num 1), ("id", .str "1")]]

def c9wAfter1 : List JsonValue := [.obj [("id", .str "1"), ("z", .num 2)]]

def c9wAfter2 : List JsonValue := [.obj [("z", .num 2), ("id", .str "1")]]

def c9wCfg : SelectedKeyConfig := fun s => if s = "id,z" then some "id" else none

def c9wResult1 : ComparisonResult :=
  ⟨[], [⟨"1", "id", "id,z", .obj [("id", .str "1"), ("z", .num 1)],
      .obj [("id", .str "1"), ("z", .num 2)], ⟨[], [], [("z", .num 1, .num 2)]⟩⟩], [], []⟩

def c9wResult2 : ComparisonResult :=
  ⟨[], [⟨"1", "id", "id,z", .obj [("z", .num 1), ("id", .str "1")],
      .obj [("z", .num 2), ("id", .str "1")], ⟨[], [], [("z", .num 1, .num 2)]⟩⟩], [], []⟩

def c9Before : List JsonValue := []

def c9After1 : List JsonValue :=
  [.obj [("objectSignature", .str "X"), ("a", .num 1)],
    .obj [("objectSignature", .str "Y"), ("a", .num 1)]]

def c9After2 : List JsonValue :=
  [.obj [("a", .num 1), ("objectSignature", .str "X")],
    .obj [("objectSignature", .str "Y"), ("a", .num 1)]]

def c9Cfg : SelectedKeyConfig := fun _ => none

def c9Result1 : ComparisonResult :=
  ⟨[⟨[("objectSignature", .str "Y"), ("a", .num 1)], "a,objectSignature", none⟩],
    [], [], []⟩

def c9Result2 : ComparisonResult :=
  ⟨[⟨[("a", .num 1), ("objectSignature", .str "X")], "a,objectSignature", none⟩,
      ⟨[("objectSignature", .str "Y"), ("a", .num 1)], "a,objectSignature", none⟩],
    [], [], []⟩

/- ===== End of definitions; concrete inputs above, theorems below ===== -/

/- ===== Basic lemmas about the building blocks ===== -/

theorem jbeq_iff (a b : JsonValue) : jbeq a b = true ↔ a = b := jbeq_spec.1 a b

theorem isEqual_iff_canon (a b : JsonValue) : isEqual a b = true ↔ canon a = canon b := by
  simp [isEqual, jbeq_iff]

theorem isEqual_refl (a : JsonValue) : isEqual a a = true := by
  simp [isEqual_iff_canon]

theorem mem_addKeyUnique {l : List String} {k x : String} :
    x ∈ addKeyUnique l k ↔ x ∈ l ∨ x = k := by
  by_cases h : k ∈ l
  · simp only [addKeyUnique, if_pos h]
    constructor
    · exact fun hx => Or.inl hx
    · rintro (hx | rfl)
      · exact hx
      · exact h
  · simp [addKeyUnique, if_neg h]

theorem mem_foldl_addKeyUnique {items : List String} {acc : List String} {x : String} :
    x ∈ items.foldl addKeyUnique acc ↔ x ∈ acc ∨ x ∈ items := by
  induction items generalizing acc with
  | nil => simp
  | cons k rest ih =>
    simp only [List.foldl_cons, ih, mem_addKeyUnique, List.mem_cons]
    tauto

theorem mem_jsDedup {l : List String} {x : String} : x ∈ jsDedup l ↔ x ∈ l := by
  simp [jsDedup, mem_foldl_addKeyUnique]

theorem mem_activeSignatures {b a : List JsonValue} {sig : String} :
    sig ∈ activeSignatures b a ↔
      ∃ item ∈ b ++ a, ∃ fs, jsFields item = some fs ∧ getObjectSignature fs = sig := by
  simp only [activeSignatures, mem_jsDedup, List.mem_filterMap, Option.map_eq_some',
    List.mem_append]

/- ===== Structure inventory characterization ===== -/

theorem fst_groupStep (m : List (String × StructData)) (fs : List (String × JsonValue)) :
    (groupStep m fs).map Prod.fst = addKeyUnique (m.map Prod.fst) (getObjectSignature fs) := by
  unfold groupStep addKeyUnique
  by_cases h : getObjectSignature fs ∈ m.map Prod.fst
  · have hany : m.any (fun p => p.1 = getObjectSignature fs) = true := by
      obtain ⟨p, hp, he⟩ := List.mem_map.mp h
      exact List.any_eq_true.mpr ⟨p, hp, by simp [he]⟩
    simp only [hany, if_true, if_pos h, List.map_map]
    apply List.map_congr_left
    intro p _
    by_cases hps : p.1 = getObjectSignature fs <;> simp [hps]
  · have hany : m.any (fun p => p.1 = getObjectSignature fs) = false := by
      rw [List.any_eq_false]
      intro p hp
      simp only [decide_eq_true_eq]
      intro he
      exact h (List.mem_map.mpr ⟨p, hp, he⟩)
    simp only [hany, Bool.false_eq_true, if_false, if_neg h, List.map_append, List.map_map]
    congr 1
    · apply List.map_congr_left
      intro p hp
      have : p.1 ≠ getObjectSignature fs := by
        intro he
        exact h (List.mem_map.mpr ⟨p, hp, he⟩)
      simp [this]
    · simp

theorem fst_groupBy_aux (items : List (List (String × JsonValue)))
    (acc : List (String × StructData)) :
    (items.foldl groupStep acc).map Prod.fst =
      (items.map getObjectSignature).foldl addKeyUnique (acc.map Prod.fst) := by
  induction items generalizing acc with
  | nil => rfl
  | cons fs rest ih =>
    simp only [List.foldl_cons, List.map_cons]
    rw [ih, fst_groupStep]

theorem mem_fst_groupBy {items : List (List (String × JsonValue))} {sig : String} :
    sig ∈ (groupBySignature items).map Prod.fst ↔ ∃ fs ∈ items, getObjectSignature fs = sig := by
  unfold groupBySignature
  rw [fst_groupBy_aux]
  simp only [List.map_nil]
  rw [show ((items.map getObjectSignature).foldl addKeyUnique [] : List String) =
    jsDedup (items.map getObjectSignature) from rfl]
  simp only [mem_jsDedup, List.mem_map]

theorem mem_insertStructBySig {s t : JsonObjectStructure} {l : List JsonObjectStructure} :
    t ∈ insertStructBySig s l ↔ t = s ∨ t ∈ l := by
  induction l with
  | nil => simp [insertStructBySig]
  | cons u us ih =>
    by_cases h : jsStrLe s.signature u.signature
    · simp [insertStructBySig, h]
    · simp [insertStructBySig, h, ih]
      tauto

theorem mem_sortStructures {t : JsonObjectStructure} {l : List JsonObjectStructure} :
    t ∈ sortStructures l ↔ t ∈ l := by
  induction l with
  | nil => simp [sortStructures]
  | cons u us ih =>
    simp only [sortStructures, List.foldr_cons] at *
    rw [mem_insertStructBySig, ih]
    simp

theorem sigInInventory_iff {d : List JsonValue} {sig : String} :
    sigInInventory d sig = true ↔
      ((∀ item ∈ d, (jsFields item).isSome = true) ∧
        ∃ item ∈ d, ∃ fs, jsFields item = some fs ∧ getObjectSignature fs = sig) := by
  unfold sigInInventory structuresOf analyzeJsonStructures
  by_cases herr : d.any (fun item => (jsFields item).isNone) = true
  · simp only [herr, if_true]
    simp only [List.any_eq_true, Option.isNone_iff_eq_none] at herr
    obtain ⟨bad, hbad, hnone⟩ := herr
    simp only [List.any_nil, Bool.false_eq_true, false_iff, not_and]
    intro hall
    have := hall bad hbad
    rw [hnone] at this
    simp at this
  · simp only [herr, Bool.false_eq_true, if_false]
    have hall : ∀ item ∈ d, (jsFields item).isSome = true := by
      intro item hitem
      by_contra hno
      apply herr
      apply List.any_eq_true.mpr
      refine ⟨item, hitem, ?_⟩
      simp only [Option.isNone_iff_eq_none]
      cases hjf : jsFields item with
      | none => rfl
      | some fs => exact absurd (by simp [hjf]) hno
    constructor
    · intro h
      refine ⟨hall, ?_⟩
      obtain ⟨st, hst, hsig⟩ := List.any_eq_true.mp h
      rw [mem_sortStructures] at hst
      obtain ⟨p, hp, hpe⟩ := List.mem_map.mp hst
      have hfst : sig ∈ (groupBySignature (d.filterMap jsFields)).map Prod.fst := by
        apply List.mem_map.mpr
        refine ⟨p, hp, ?_⟩
        have hss : st.signature = sig := by simpa using hsig
        rw [← hpe] at hss
        simpa using hss
      obtain ⟨fs, hfs, hfe⟩ := mem_fst_groupBy.mp hfst
      obtain ⟨item, hitem, hjf⟩ := List.mem_filterMap.mp hfs
      exact ⟨item, hitem, fs, hjf, hfe⟩
    · rintro ⟨-, item, hitem, fs, hjf, hfe⟩
      apply List.any_eq_true.mpr
      have hfs : fs ∈ d.filterMap jsFields := List.mem_filterMap.mpr ⟨item, hitem, hjf⟩
      have hfst : sig ∈ (groupBySignature (d.filterMap jsFields)).map Prod.fst :=
        mem_fst_groupBy.mpr ⟨fs, hfs, hfe⟩
      obtain ⟨p, hp, hpe⟩ := List.mem_map.mp hfst
      refine ⟨⟨p.1, sortStrings p.2.keys, p.2.instances.length, potentialKeysOf p.2.instances⟩,
        ?_, by simpa using hpe⟩
      rw [mem_sortStructures]
      exact List.mem_map.mpr ⟨p, hp, rfl⟩

/- ===== The validation gate ===== -/

theorem compareJsons_error_iff {b a : List JsonValue} {cfg : SelectedKeyConfig} {s : String} :
    compareJsons b a cfg = Except.error (CompareError.missingKeySelection s) ↔
      (activeSignatures b a).find? (gateFails b a cfg) = some s := by
  unfold compareJsons
  cases hf : (activeSignatures b a).find? (gateFails b a cfg) with
  | none => simp
  | some t => simp

theorem gateFails_iff {b a : List JsonValue} {cfg : SelectedKeyConfig} {sig : String} :
    gateFails b a cfg sig = true ↔
      (sigInInventory b sig = true ∧ sigInInventory a sig = true ∧ getKey cfg sig = none) := by
  show (sigInInventory b sig && sigInInventory a sig && (getKey cfg sig).isNone) = true ↔ _
  simp [Bool.and_eq_true, Option.isNone_iff_eq_none, and_assoc]

/-- C6: diff fails with MissingKeySelection, naming the offending
signature and without producing any classification (the Except.error
result carries no partial lists), exactly when some signature present in
both the before and the after structure inventory has no non-empty entry
in the key mapping; a signature present in only one inventory never
triggers the failure, since the iff forces every named signature to lie in
both inventories. -/
theorem compareJsons_missingKeySelection_iff (b a : List JsonValue) (cfg : SelectedKeyConfig) :
    ((∃ s, compareJsons b a cfg = Except.error (CompareError.missingKeySelection s)) ↔
      ∃ sig, sigInInventory b sig = true ∧ sigInInventory a sig = true ∧ getKey cfg sig = none)
    ∧ ∀ s, compareJsons b a cfg = Except.error (CompareError.missingKeySelection s) →
        sigInInventory b s = true ∧ sigInInventory a s = true ∧ getKey cfg s = none := by
  have hmain : ∀ s, compareJsons b a cfg = Except.error (.missingKeySelection s) →
      sigInInventory b s = true ∧ sigInInventory a s = true ∧ getKey cfg s = none := by
    intro s hs
    rw [compareJsons_error_iff] at hs
    exact gateFails_iff.mp (List.find?_some hs)
  refine ⟨⟨?_, ?_⟩, hmain⟩
  · rintro ⟨s, hs⟩
    exact ⟨s, hmain s hs⟩
  · rintro ⟨sig, hb, ha, hk⟩
    have hgf : gateFails b a cfg sig = true := gateFails_iff.mpr ⟨hb, ha, hk⟩
    have hmem : sig ∈ activeSignatures b a := by
      obtain ⟨-, item, hitem, fs, hfs, hsig⟩ := sigInInventory_iff.mp hb
      exact mem_activeSignatures.mpr ⟨item, List.mem_append.mpr (Or.inl hitem), fs, hfs, hsig⟩
    have hsome : ((activeSignatures b a).find? (gateFails b a cfg)).isSome :=
      List.find?_isSome.mpr ⟨sig, hmem, hgf⟩
    obtain ⟨t, ht⟩ := Option.isSome_iff_exists.mp hsome
    exact ⟨t, compareJsons_error_iff.mpr ht⟩

/-- Witness for C6 at a concrete input: the two collections share the
signature of one-field objects named a, the mapping is empty, and the
comparison indeed fails with MissingKeySelection. -/
theorem compareJsons_missingKeySelection_iff_witness :
    ∃ s, compareJsons [JsonValue.obj [("a", JsonValue.str "x")]]
        [JsonValue.obj [("a", JsonValue.str "y")]] (fun _ => none) =
      Except.error (CompareError.missingKeySelection s) :=
  (compareJsons_missingKeySelection_iff _ _ _).1.mpr ⟨"a", by decide, by decide, rfl⟩

/-- C10: an element of the top-level input array that is itself an array
is not rejected: shape analysis accepts [ "a", 2 ] as a record with field
names "0" and "1" (with "0" a potential key field), and diffing two copies
of it completes with no warnings and no classified entries rather than
raising any invalid-input error for the element. -/
theorem array_element_accepted_as_record :
    analyzeJsonStructures [JsonValue.arr [JsonValue.str "a", JsonValue.num 2]] =
      Except.ok [⟨"0,1", ["0", "1"], 1, ["0"]⟩]
    ∧ compareJsons [JsonValue.arr [JsonValue.str "a", JsonValue.num 2]]
        [JsonValue.arr [JsonValue.str "a", JsonValue.num 2]]
        (fun s => if s = "0,1" then some "0" else none) =
      Except.ok ⟨[], [], [], []⟩ := by
  constructor
  · decide
  · decide

/- ===== Side map invariants ===== -/

theorem validKeyString_eq_some {o : Option JsonValue} {k : String} :
    validKeyString o = some k ↔ o = some (JsonValue.str k) ∧ jsTrim k ≠ "" := by
  constructor
  · intro h
    cases o with
    | none => exact Option.noConfusion h
    | some v =>
      cases v with
      | str s =>
        simp only [validKeyString] at h
        by_cases hs : jsTrim s = ""
        · rw [if_pos hs] at h
          exact Option.noConfusion h
        · rw [if_neg hs] at h
          injection h with h
          subst h
          exact ⟨rfl, hs⟩
      | num n => exact Option.noConfusion h
      | bool b => exact Option.noConfusion h
      | null => exact Option.noConfusion h
      | arr xs => exact Option.noConfusion h
      | obj fs => exact Option.noConfusion h
  · rintro ⟨rfl, hk⟩
    simp only [validKeyString, if_neg hk]

theorem buildStep_map_valid {side : Side} {cfg : SelectedKeyConfig} {D : List JsonValue}
    {st : EntryMap × List CompareWarning} {item : JsonValue}
    (hitem : item ∈ D)
    (hst : ∀ k e, st.1 k = some e → ValidMapEntry cfg D k e) :
    ∀ k e, (buildStep side cfg st item).1 k = some e → ValidMapEntry cfg D k e := by
  intro k e h
  unfold buildStep at h
  split at h
  · exact hst k e h
  · rename_i fs hfs
    split at h
    · exact hst k e h
    · rename_i keyField hkf
      split at h
      · exact hst k e h
      · rename_i keyValue hvk
        simp only at h
        split at h
        · rename_i hk
          subst hk
          have he : e = ⟨item, getObjectSignature fs, keyField⟩ := by
            injection h with h2
            exact h2.symm
          subst he
          exact ⟨hitem, fs, hfs, rfl, hkf, hvk⟩
        · exact hst k e h

theorem buildFold_map_valid {side : Side} {cfg : SelectedKeyConfig} {D : List JsonValue} :
    ∀ (l : List JsonValue) (st : EntryMap × List CompareWarning),
      (∀ x ∈ l, x ∈ D) →
      (∀ k e, st.1 k = some e → ValidMapEntry cfg D k e) →
      ∀ k e, (l.foldl (buildStep side cfg) st).1 k = some e → ValidMapEntry cfg D k e := by
  intro l
  induction l with
  | nil => intro st _ hst; exact hst
  | cons item rest ih =>
    intro st hsub hst
    simp only [List.foldl_cons]
    exact ih _ (fun x hx => hsub x (List.mem_cons_of_mem _ hx))
      (buildStep_map_valid (hsub item (List.mem_cons_self _ _)) hst)

/-- Every entry of a side map is a validly keyed record of its collection,
stored under its own key value. -/
theorem buildSideMap_valid {side : Side} {cfg : SelectedKeyConfig} {data : List JsonValue}
    {k : String} {e : MapEntry} (h : (buildSideMap side cfg data).1 k = some e) :
    ValidMapEntry cfg data k e := by
  refine buildFold_map_valid data _ (fun x hx => hx) ?_ k e h
  intro k0 e0 h0
  simp at h0

/- ===== Warning emission ===== -/

theorem buildStep_warn_mono {side : Side} {cfg : SelectedKeyConfig}
    {st : EntryMap × List CompareWarning} {item : JsonValue} {w : CompareWarning}
    (hw : w ∈ st.2) : w ∈ (buildStep side cfg st item).2 := by
  unfold buildStep
  split
  · simp [hw]
  · split
    · exact hw
    · split
      · simp [hw]
      · dsimp only
        split <;> simp [hw]

theorem buildFold_warn_mono {side : Side} {cfg : SelectedKeyConfig} :
    ∀ (l : List JsonValue) (st : EntryMap × List CompareWarning) (w : CompareWarning),
      w ∈ st.2 → w ∈ (l.foldl (buildStep side cfg) st).2 := by
  intro l
  induction l with
  | nil => intro st w hw; exact hw
  | cons item rest ih =>
    intro st w hw
    exact ih _ w (buildStep_warn_mono hw)

theorem buildFold_warn_emit {side : Side} {cfg : SelectedKeyConfig} :
    ∀ (l : List JsonValue) (st : EntryMap × List CompareWarning)
      (item : JsonValue) (fs : List (String × JsonValue)) (kf : String),
      item ∈ l → jsFields item = some fs →
      getKey cfg (getObjectSignature fs) = some kf →
      validKeyString (lookupField fs kf) = none →
      CompareWarning.invalidKeyValue side kf (getObjectSignature fs) (lookupField fs kf) ∈
        (l.foldl (buildStep side cfg) st).2 := by
  intro l
  induction l with
  | nil => intro st item fs kf hmem; exact absurd hmem (List.not_mem_nil _)
  | cons x rest ih =>
    intro st item fs kf hmem hfs hkf hvk
    rcases List.mem_cons.mp hmem with rfl | hmem2
    · rw [List.foldl_cons]
      apply buildFold_warn_mono
      simp [buildStep, hfs, hkf, hvk]
    · rw [List.foldl_cons]
      exact ih _ item fs kf hmem2 hfs hkf hvk

/-- A record with a configured key field but an invalid key value always
produces an InvalidKeyValue warning naming the field, the signature and
the offending value. -/
theorem buildSideMap_warn {side : Side} {cfg : SelectedKeyConfig} {data : List JsonValue}
    {item : JsonValue} {fs : List (String × JsonValue)} {kf : String}
    (hmem : item ∈ data) (hfs : jsFields item = some fs)
    (hkf : getKey cfg (getObjectSignature fs) = some kf)
    (hvk : validKeyString (lookupField fs kf) = none) :
    CompareWarning.invalidKeyValue side kf (getObjectSignature fs) (lookupField fs kf) ∈
      (buildSideMap side cfg data).2 :=
  buildFold_warn_emit data _ item fs kf hmem hfs hkf hvk

/- ===== Classification loop characterization ===== -/

theorem afterStep_mem_new {cfg : SelectedKeyConfig} {bm am : EntryMap} {st : DiffLists}
    {item : JsonValue} {e : SimpleEntry}
    (h : e ∈ (afterStep cfg bm am st item).newEntries) :
    e ∈ st.newEntries ∨
      (∃ fs, jsFields item = some fs ∧ getKey cfg (getObjectSignature fs) = none ∧
        e.fields = fs) ∨
      (∃ kv ae, am kv = some ae ∧ bm kv = none ∧ e.fields = fieldsOfItem ae.item) ∨
      (∃ kv ae be, am kv = some ae ∧ bm kv = some be ∧ be.signature ≠ ae.signature ∧
        e = ⟨fieldsOfItem ae.item, ae.signature, some ae.keyField⟩) := by
  unfold afterStep at h
  split at h
  · exact Or.inl h
  · rename_i fs hfs
    split at h
    · rename_i hkey
      rcases List.mem_append.mp h with h2 | h2
      · exact Or.inl h2
      · refine Or.inr (Or.inl ⟨fs, hfs, hkey, ?_⟩)
        simp at h2
        rw [h2]
    · rename_i keyField hkey
      split at h
      · rename_i keyValue hlook
        split at h
        · exact Or.inl h
        · rename_i ae hae
          split at h
          · rename_i hbe
            rcases List.mem_append.mp h with h2 | h2
            · exact Or.inl h2
            · refine Or.inr (Or.inr (Or.inl ⟨keyValue, ae, hae, hbe, ?_⟩))
              simp at h2
              rw [h2]
          · rename_i be hbe
            split at h
            · rename_i hsig
              rcases List.mem_append.mp h with h2 | h2
              · exact Or.inl h2
              · refine Or.inr (Or.inr (Or.inr ⟨keyValue, ae, be, hae, hbe, hsig, ?_⟩))
                simpa using h2
            · split at h
              · exact Or.inl h
              · split at h
                · exact Or.inl h
                · exact Or.inl h
      · exact Or.inl h

theorem afterStep_mem_mod {cfg : SelectedKeyConfig} {bm am : EntryMap} {st : DiffLists}
    {item : JsonValue} {m : ModifiedEntry}
    (h : m ∈ (afterStep cfg bm am st item).modifiedEntries) :
    m ∈ st.modifiedEntries ∨ ModSrc bm am m := by
  unfold afterStep at h
  split at h
  · exact Or.inl h
  · rename_i fs hfs
    split at h
    · exact Or.inl h
    · rename_i keyField hkey
      split at h
      · rename_i keyValue hlook
        split at h
        · exact Or.inl h
        · rename_i ae hae
          split at h
          · exact Or.inl h
          · rename_i be hbe
            split at h
            · exact Or.inl h
            · split at h
              · exact Or.inl h
              · rename_i hneq heq
                split at h
                · rcases List.mem_append.mp h with h2 | h2
                  · exact Or.inl h2
                  · simp only [List.mem_singleton] at h2
                    subst h2
                    refine Or.inr ⟨keyValue, ae, be, hae, hbe, ?_, rfl, rfl, rfl, ?_, rfl⟩
                    · by_contra hne
                      exact hneq hne
                    · by_contra hiq
                      exact heq (by simpa using hiq)
                · exact Or.inl h
      · exact Or.inl h

theorem afterStep_mem_del {cfg : SelectedKeyConfig} {bm am : EntryMap} {st : DiffLists}
    {item : JsonValue} {d : SimpleEntry}
    (h : d ∈ (afterStep cfg bm am st item).deletedEntries) :
    d ∈ st.deletedEntries ∨
      (∃ kv ae be, am kv = some ae ∧ bm kv = some be ∧ be.signature ≠ ae.signature ∧
        d.fields = fieldsOfItem be.item) := by
  unfold afterStep at h
  split at h
  · exact Or.inl h
  · rename_i fs hfs
    split at h
    · exact Or.inl h
    · rename_i keyField hkey
      split at h
      · rename_i keyValue hlook
        split at h
        · exact Or.inl h
        · rename_i ae hae
          split at h
          · exact Or.inl h
          · rename_i be hbe
            split at h
            · rename_i hneq
              rcases List.mem_append.mp h with h2 | h2
              · exact Or.inl h2
              · simp only [List.mem_singleton] at h2
                refine Or.inr ⟨keyValue, ae, be, hae, hbe, hneq, ?_⟩
                rw [h2]
            · split at h
              · exact Or.inl h
              · split at h
                · exact Or.inl h
                · exact Or.inl h
      · exact Or.inl h

theorem beforeStep_newEntries (cfg : SelectedKeyConfig) (bm am : EntryMap)
    (afterData : List JsonValue) (st : DiffLists) (item : JsonValue) :
    (beforeStep cfg bm am afterData st item).newEntries = st.newEntries := by
  unfold beforeStep
  split
  · rfl
  · split
    · split <;> rfl
    · split
      · split
        · rfl
        · split
          · rfl
          · split <;> rfl
      · rfl

theorem beforeStep_modifiedEntries (cfg : SelectedKeyConfig) (bm am : EntryMap)
    (afterData : List JsonValue) (st : DiffLists) (item : JsonValue) :
    (beforeStep cfg bm am afterData st item).modifiedEntries = st.modifiedEntries := by
  unfold beforeStep
  split
  · rfl
  · split
    · split <;> rfl
    · split
      · split
        · rfl
        · split
          · rfl
          · split <;> rfl
      · rfl

theorem beforeStep_mem_del {cfg : SelectedKeyConfig} {bm am : EntryMap}
    {afterData : List JsonValue} {st : DiffLists} {item : JsonValue} {d : SimpleEntry}
    (h : d ∈ (beforeStep cfg bm am afterData st item).deletedEntries) :
    d ∈ st.deletedEntries ∨
      (∃ fs, jsFields item = some fs ∧ getKey cfg (getObjectSignature fs) = none ∧
        d.fields = fs ∧
        afterData.any (fun ai =>
          match jsFields ai with
          | some gs => getObjectSignature gs = getObjectSignature fs
          | none => false) = false) ∨
      (∃ kv be, bm kv = some be ∧ am kv = none ∧ d.fields = fieldsOfItem be.item) := by
  unfold beforeStep at h
  split at h
  · exact Or.inl h
  · rename_i fs hfs
    split at h
    · rename_i hkey
      split at h
      · exact Or.inl h
      · rename_i hany
        rcases List.mem_append.mp h with h2 | h2
        · exact Or.inl h2
        · simp only [List.mem_singleton] at h2
          refine Or.inr (Or.inl ⟨fs, hfs, hkey, ?_, ?_⟩)
          · rw [h2]
          · simpa using hany
    · rename_i keyField hkey
      split at h
      · rename_i keyValue hlook
        split at h
        · exact Or.inl h
        · rename_i be hbe
          split at h
          · exact Or.inl h
          · rename_i ham
            split at h
            · exact Or.inl h
            · rcases List.mem_append.mp h with h2 | h2
              · exact Or.inl h2
              · simp only [List.mem_singleton] at h2
                refine Or.inr (Or.inr ⟨keyValue, be, hbe, ham, ?_⟩)
                rw [h2]
      · exact Or.inl h

theorem afterFold_mem_new {cfg : SelectedKeyConfig} {bm am : EntryMap} :
    ∀ (l : List JsonValue) (st : DiffLists) (e : SimpleEntry),
      e ∈ (l.foldl (afterStep cfg bm am) st).newEntries →
      e ∈ st.newEntries ∨ NewSrc cfg bm am l e := by
  intro l
  induction l with
  | nil => intro st e h; exact Or.inl h
  | cons item rest ih =>
    intro st e h
    rw [List.foldl_cons] at h
    rcases ih _ e h with h2 | h2
    · rcases afterStep_mem_new h2 with h3 | h3 | h3 | h3
      · exact Or.inl h3
      · obtain ⟨fs, hfs, hk, hef⟩ := h3
        exact Or.inr (Or.inl ⟨item, List.mem_cons_self _ _, fs, hfs, hk, hef⟩)
      · exact Or.inr (Or.inr (Or.inl h3))
      · exact Or.inr (Or.inr (Or.inr h3))
    · rcases h2 with h3 | h3 | h3
      · obtain ⟨it2, hmem, rest3⟩ := h3
        exact Or.inr (Or.inl ⟨it2, List.mem_cons_of_mem _ hmem, rest3⟩)
      · exact Or.inr (Or.inr (Or.inl h3))
      · exact Or.inr (Or.inr (Or.inr h3))

theorem afterFold_mem_mod {cfg : SelectedKeyConfig} {bm am : EntryMap} :
    ∀ (l : List JsonValue) (st : DiffLists) (m : ModifiedEntry),
      m ∈ (l.foldl (afterStep cfg bm am) st).modifiedEntries →
      m ∈ st.modifiedEntries ∨ ModSrc bm am m := by
  intro l
  induction l with
  | nil => intro st m h; exact Or.inl h
  | cons item rest ih =>
    intro st m h
    rw [List.foldl_cons] at h
    rcases ih _ m h with h2 | h2
    · exact afterStep_mem_mod h2
    · exact Or.inr h2

theorem afterFold_mem_del {cfg : SelectedKeyConfig} {bm am : EntryMap} :
    ∀ (l : List JsonValue) (st : DiffLists) (d : SimpleEntry),
      d ∈ (l.foldl (afterStep cfg bm am) st).deletedEntries →
      d ∈ st.deletedEntries ∨
        (∃ kv ae be, am kv = some ae ∧ bm kv = some be ∧ be.signature ≠ ae.signature ∧
          d.fields = fieldsOfItem be.item) := by
  intro l
  induction l with
  | nil => intro st d h; exact Or.inl h
  | cons item rest ih =>
    intro st d h
    rw [List.foldl_cons] at h
    rcases ih _ d h with h2 | h2
    · exact afterStep_mem_del h2
    · exact Or.inr h2

theorem beforeFold_newEntries {cfg : SelectedKeyConfig} {bm am : EntryMap}
    {afterData : List JsonValue} :
    ∀ (l : List JsonValue) (st : DiffLists),
      (l.foldl (beforeStep cfg bm am afterData) st).newEntries = st.newEntries := by
  intro l
  induction l with
  | nil => intro st; rfl
  | cons item rest ih =>
    intro st
    rw [List.foldl_cons, ih, beforeStep_newEntries]

theorem beforeFold_modifiedEntries {cfg : SelectedKeyConfig} {bm am : EntryMap}
    {afterData : List JsonValue} :
    ∀ (l : List JsonValue) (st : DiffLists),
      (l.foldl (beforeStep cfg bm am afterData) st).modifiedEntries = st.modifiedEntries := by
  intro l
  induction l with
  | nil => intro st; rfl
  | cons item rest ih =>
    intro st
    rw [List.foldl_cons, ih, beforeStep_modifiedEntries]

theorem beforeFold_mem_del {cfg : SelectedKeyConfig} {bm am : EntryMap}
    {afterData : List JsonValue} :
    ∀ (l : List JsonValue) (st : DiffLists) (d : SimpleEntry),
      d ∈ (l.foldl (beforeStep cfg bm am afterData) st).deletedEntries →
      d ∈ st.deletedEntries ∨
        (∃ item ∈ l, ∃ fs, jsFields item = some fs ∧
          getKey cfg (getObjectSignature fs) = none ∧ d.fields = fs ∧
          afterData.any (fun ai =>
            match jsFields ai with
            | some gs => getObjectSignature gs = getObjectSignature fs
            | none => false) = false) ∨
        (∃ kv be, bm kv = some be ∧ am kv = none ∧ d.fields = fieldsOfItem be.item) := by
  intro l
  induction l with
  | nil => intro st d h; exact Or.inl h
  | cons item rest ih =>
    intro st d h
    rw [List.foldl_cons] at h
    rcases ih _ d h with h2 | h2 | h2
    · rcases beforeStep_mem_del h2 with h3 | h3 | h3
      · exact Or.inl h3
      · obtain ⟨fs, hfs, rest3⟩ := h3
        exact Or.inr (Or.inl ⟨item, List.mem_cons_self _ _, fs, hfs, rest3⟩)
      · exact Or.inr (Or.inr h3)
    · obtain ⟨it2, hmem, rest3⟩ := h2
      exact Or.inr (Or.inl ⟨it2, List.mem_cons_of_mem _ hmem, rest3⟩)
    · exact Or.inr (Or.inr h2)

/-- Every entry of the pre-deduplication classification lists arises from
one of the classification sources described by NewSrc, ModSrc and DelSrc. -/
theorem preLists_spec {b a : List JsonValue} {cfg : SelectedKeyConfig} :
    (∀ e ∈ (preLists b a cfg).newEntries,
      NewSrc cfg (buildSideMap .before cfg b).1 (buildSideMap .after cfg a).1 a e)
    ∧ (∀ m ∈ (preLists b a cfg).modifiedEntries,
      ModSrc (buildSideMap .before cfg b).1 (buildSideMap .after cfg a).1 m)
    ∧ (∀ d ∈ (preLists b a cfg).deletedEntries,
      DelSrc cfg (buildSideMap .before cfg b).1 (buildSideMap .after cfg a).1 b a d) := by
  refine ⟨?_, ?_, ?_⟩
  · intro e he
    unfold preLists at he
    rw [beforeFold_newEntries] at he
    rcases afterFold_mem_new _ _ _ he with h | h
    · exact absurd h (List.not_mem_nil _)
    · exact h
  · intro m hm
    unfold preLists at hm
    rw [beforeFold_modifiedEntries] at hm
    rcases afterFold_mem_mod _ _ _ hm with h | h
    · exact absurd h (List.not_mem_nil _)
    · exact h
  · intro d hd
    unfold preLists at hd
    rcases beforeFold_mem_del _ _ _ hd with h | h | h
    · rcases afterFold_mem_del _ _ _ h with h2 | h2
      · exact absurd h2 (List.not_mem_nil _)
      · exact Or.inr (Or.inl h2)
    · exact Or.inl h
    · exact Or.inr (Or.inr h)

/- ===== Deduplication lemmas and the shape of an ok result ===== -/

theorem compareJsons_ok_elim {b a : List JsonValue} {cfg : SelectedKeyConfig}
    {r : ComparisonResult} (h : compareJsons b a cfg = Except.ok r) :
    r.newEntries = dedupEntries (makeEntryId cfg) (preLists b a cfg).newEntries
    ∧ r.modifiedEntries = (preLists b a cfg).modifiedEntries
    ∧ r.deletedEntries = dedupEntries (makeEntryId cfg) (preLists b a cfg).deletedEntries
    ∧ r.errors = (buildSideMap .before cfg b).2 ++ (buildSideMap .after cfg a).2 := by
  unfold compareJsons at h
  split at h
  · exact Except.noConfusion h
  · injection h with h
    subst h
    exact ⟨rfl, rfl, rfl, rfl⟩

theorem mem_replaceOrAppendById {f : SimpleEntry → String} {acc : List SimpleEntry}
    {e x : SimpleEntry} (h : x ∈ replaceOrAppendById f acc e) : x ∈ acc ∨ x = e := by
  unfold replaceOrAppendById at h
  split at h
  · obtain ⟨y, hy, hyx⟩ := List.mem_map.mp h
    by_cases hf : f y = f e
    · rw [if_pos hf] at hyx
      exact Or.inr hyx.symm
    · rw [if_neg hf] at hyx
      exact Or.inl (hyx ▸ hy)
  · rcases List.mem_append.mp h with h2 | h2
    · exact Or.inl h2
    · exact Or.inr (List.mem_singleton.mp h2)

theorem mem_dedupFold {f : SimpleEntry → String} :
    ∀ (l acc : List SimpleEntry) (x : SimpleEntry),
      x ∈ l.foldl (replaceOrAppendById f) acc → x ∈ acc ∨ x ∈ l := by
  intro l
  induction l with
  | nil => intro acc x h; exact Or.inl h
  | cons e rest ih =>
    intro acc x h
    rw [List.foldl_cons] at h
    rcases ih _ x h with h2 | h2
    · rcases mem_replaceOrAppendById h2 with h3 | h3
      · exact Or.inl h3
      · exact Or.inr (h3 ▸ List.mem_cons_self _ _)
    · exact Or.inr (List.mem_cons_of_mem _ h2)

/-- Every entry of a deduplicated list is one of the original entries. -/
theorem mem_of_mem_dedupEntries {f : SimpleEntry → String} {l : List SimpleEntry}
    {x : SimpleEntry} (h : x ∈ dedupEntries f l) : x ∈ l := by
  rcases mem_dedupFold l [] x h with h2 | h2
  · exact absurd h2 (List.not_mem_nil _)
  · exact h2

theorem dedup_keep {f : SimpleEntry → String} {x : SimpleEntry} :
    ∀ (l acc : List SimpleEntry),
      (∀ y ∈ acc, f y = f x → y = x) → (∀ y ∈ l, f y = f x → y = x) →
      (x ∈ acc ∨ x ∈ l) → x ∈ l.foldl (replaceOrAppendById f) acc := by
  intro l
  induction l with
  | nil =>
    intro acc hacc hl hx
    rcases hx with h | h
    · exact h
    · exact absurd h (List.not_mem_nil _)
  | cons e rest ih =>
    intro acc hacc hl hx
    rw [List.foldl_cons]
    have hacc2 : ∀ y ∈ replaceOrAppendById f acc e, f y = f x → y = x := by
      intro y hy hf
      rcases mem_replaceOrAppendById hy with h2 | h2
      · exact hacc y h2 hf
      · subst h2
        exact hl y (List.mem_cons_self _ _) hf
    have hrest : ∀ y ∈ rest, f y = f x → y = x := fun y hy => hl y (List.mem_cons_of_mem _ hy)
    apply ih _ hacc2 hrest
    rcases hx with hxa | hxl
    · left
      unfold replaceOrAppendById
      split
      · apply List.mem_map.mpr
        refine ⟨x, hxa, ?_⟩
        by_cases hf : f x = f e
        · rw [if_pos hf]
          exact hl e (List.mem_cons_self _ _) hf.symm
        · rw [if_neg hf]
      · exact List.mem_append_left _ hxa
    · rcases List.mem_cons.mp hxl with rfl | hxr
      · left
        unfold replaceOrAppendById
        split
        · rename_i hany
          obtain ⟨y, hy, hfy⟩ := List.any_eq_true.mp hany
          simp only [decide_eq_true_eq] at hfy
          apply List.mem_map.mpr
          refine ⟨y, hy, ?_⟩
          rw [if_pos hfy]
        · exact List.mem_append_right _ (List.mem_singleton.mpr rfl)
      · right
        exact hxr

/-- An entry whose deduplication id is shared by no other distinct entry
of the list survives deduplication. -/
theorem mem_dedupEntries_of_unique {f : SimpleEntry → String} {l : List SimpleEntry}
    {x : SimpleEntry} (hx : x ∈ l) (hu : ∀ y ∈ l, f y = f x → y = x) :
    x ∈ dedupEntries f l :=
  dedup_keep l [] (by intro y hy; exact absurd hy (List.not_mem_nil _)) hu (Or.inr hx)

/- ===== C1: the partition property ===== -/

theorem entity_of_valid {cfg : SelectedKeyConfig} {data : List JsonValue} {k : String}
    {e : MapEntry} (h : ValidMapEntry cfg data k e) :
    entityOfFields cfg (fieldsOfItem e.item) =
      EntityTag.keyed e.signature (some (JsonValue.str k)) := by
  obtain ⟨hmem, fs, hfs, hsig, hkf, hvk⟩ := h
  obtain ⟨hlook, htrim⟩ := validKeyString_eq_some.mp hvk
  unfold fieldsOfItem
  rw [hfs, Option.getD_some]
  unfold entityOfFields
  rw [← hsig, hkf]
  simp only [hlook]

theorem pre_new_mod_disjoint {b a : List JsonValue} {cfg : SelectedKeyConfig}
    {e : SimpleEntry} {m : ModifiedEntry}
    (hne : e ∈ (preLists b a cfg).newEntries)
    (hm : m ∈ (preLists b a cfg).modifiedEntries) :
    entryEntity cfg e ≠ modifiedEntity cfg m := by
  have hN := preLists_spec.1 e hne
  have hM := preLists_spec.2.1 m hm
  obtain ⟨kv2, ae2, be2, hae2, hbe2, hsig2, hbefore2, hafter2, hkv2, hneq2, hch2⟩ := hM
  have hMent : modifiedEntity cfg m = .keyed ae2.signature (some (.str kv2)) := by
    unfold modifiedEntity
    rw [hafter2]
    exact entity_of_valid (buildSideMap_valid hae2)
  rcases hN with h1 | h2 | h3
  · obtain ⟨item, hitem, fs, hfs, hkey, hef⟩ := h1
    unfold entryEntity
    rw [hef, hMent]
    unfold entityOfFields
    rw [hkey]
    simp
  · obtain ⟨kv1, ae1, hae1, hbm1, hef⟩ := h2
    unfold entryEntity
    rw [hef, entity_of_valid (buildSideMap_valid hae1), hMent]
    intro hcontra
    simp only [EntityTag.keyed.injEq, Option.some.injEq, JsonValue.str.injEq] at hcontra
    rw [hcontra.2] at hbm1
    rw [hbm1] at hbe2
    exact Option.noConfusion hbe2
  · obtain ⟨kv1, ae1, be1, hae1, hbe1, hneq1, hee⟩ := h3
    have hef : e.fields = fieldsOfItem ae1.item := by rw [hee]
    unfold entryEntity
    rw [hef, entity_of_valid (buildSideMap_valid hae1), hMent]
    intro hcontra
    simp only [EntityTag.keyed.injEq, Option.some.injEq, JsonValue.str.injEq] at hcontra
    obtain ⟨hs, hk⟩ := hcontra
    subst hk
    rw [hae1] at hae2
    injection hae2 with hae2
    rw [hbe1] at hbe2
    injection hbe2 with hbe2
    rw [hae2, hbe2] at hneq1
    exact hneq1 hsig2

theorem pre_new_del_disjoint {b a : List JsonValue} {cfg : SelectedKeyConfig}
    {e d : SimpleEntry}
    (hne : e ∈ (preLists b a cfg).newEntries)
    (hd : d ∈ (preLists b a cfg).deletedEntries) :
    entryEntity cfg e ≠ entryEntity cfg d := by
  have hN := preLists_spec.1 e hne
  have hD := preLists_spec.2.2 d hd
  rcases hN with h1 | h2 | h3
  · obtain ⟨item, hitem, fs, hfs, hkey, hef⟩ := h1
    rcases hD with g1 | g2 | g3
    · obtain ⟨it2, hit2, gs, hgs, hkey2, hdf, hnone⟩ := g1
      unfold entryEntity
      rw [hef, hdf]
      unfold entityOfFields
      rw [hkey, hkey2]
      intro hcontra
      simp only [EntityTag.unkeyed.injEq] at hcontra
      obtain ⟨hs, hfe⟩ := hcontra
      rw [List.any_eq_false] at hnone
      have := hnone item hitem
      rw [hfs] at this
      simp only [decide_eq_true_eq] at this
      exact this (hs ▸ rfl)
    · obtain ⟨kv, ae, be, hae, hbe, hsg, hdf⟩ := g2
      unfold entryEntity
      rw [hef, hdf, entity_of_valid (buildSideMap_valid hbe)]
      unfold entityOfFields
      rw [hkey]
      simp
    · obtain ⟨kv, be, hbe, ham, hdf⟩ := g3
      unfold entryEntity
      rw [hef, hdf, entity_of_valid (buildSideMap_valid hbe)]
      unfold entityOfFields
      rw [hkey]
      simp
  · obtain ⟨kv1, ae1, hae1, hbm1, hef⟩ := h2
    rcases hD with g1 | g2 | g3
    · obtain ⟨it2, hit2, gs, hgs, hkey2, hdf, hnone⟩ := g1
      unfold entryEntity
      rw [hef, hdf, entity_of_valid (buildSideMap_valid hae1)]
      unfold entityOfFields
      rw [hkey2]
      simp
    · obtain ⟨kv2, ae2, be2, hae2, hbe2, hsg2, hdf⟩ := g2
      unfold entryEntity
      rw [hef, hdf, entity_of_valid (buildSideMap_valid hae1),
        entity_of_valid (buildSideMap_valid hbe2)]
      intro hcontra
      simp only [EntityTag.keyed.injEq, Option.some.injEq, JsonValue.str.injEq] at hcontra
      obtain ⟨hs, hk⟩ := hcontra
      subst hk
      rw [hbe2] at hbm1
      exact Option.noConfusion hbm1
    · obtain ⟨kv2, be2, hbe2, ham2, hdf⟩ := g3
      unfold entryEntity
      rw [hef, hdf, entity_of_valid (buildSideMap_valid hae1),
        entity_of_valid (buildSideMap_valid hbe2)]
      intro hcontra
      simp only [EntityTag.keyed.injEq, Option.some.injEq, JsonValue.str.injEq] at hcontra
      obtain ⟨hs, hk⟩ := hcontra
      subst hk
      rw [ham2] at hae1
      exact Option.noConfusion hae1
  · obtain ⟨kv1, ae1, be1, hae1, hbe1, hneq1, hee⟩ := h3
    have hef : e.fields = fieldsOfItem ae1.item := by rw [hee]
    rcases hD with g1 | g2 | g3
    · obtain ⟨it2, hit2, gs, hgs, hkey2, hdf, hnone⟩ := g1
      unfold entryEntity
      rw [hef, hdf, entity_of_valid (buildSideMap_valid hae1)]
      unfold entityOfFields
      rw [hkey2]
      simp
    · obtain ⟨kv2, ae2, be2, hae2, hbe2, hsg2, hdf⟩ := g2
      unfold entryEntity
      rw [hef, hdf, entity_of_valid (buildSideMap_valid hae1),
        entity_of_valid (buildSideMap_valid hbe2)]
      intro hcontra
      simp only [EntityTag.keyed.injEq, Option.some.injEq, JsonValue.str.injEq] at hcontra
      obtain ⟨hs, hk⟩ := hcontra
      subst hk
      rw [hae1] at hae2
      injection hae2 with hae2
      rw [hbe1] at hbe2
      injection hbe2 with hbe2
      subst hae2
      subst hbe2
      exact hneq1 hs.symm
    · obtain ⟨kv2, be2, hbe2, ham2, hdf⟩ := g3
      unfold entryEntity
      rw [hef, hdf, entity_of_valid (buildSideMap_valid hae1),
        entity_of_valid (buildSideMap_valid hbe2)]
      intro hcontra
      simp only [EntityTag.keyed.injEq, Option.some.injEq, JsonValue.str.injEq] at hcontra
      obtain ⟨hs, hk⟩ := hcontra
      subst hk
      rw [ham2] at hae1
      exact Option.noConfusion hae1

theorem pre_mod_del_disjoint {b a : List JsonValue} {cfg : SelectedKeyConfig}
    {m : ModifiedEntry} {d : SimpleEntry}
    (hm : m ∈ (preLists b a cfg).modifiedEntries)
    (hd : d ∈ (preLists b a cfg).deletedEntries) :
    modifiedEntity cfg m ≠ entryEntity cfg d := by
  have hM := preLists_spec.2.1 m hm
  have hD := preLists_spec.2.2 d hd
  obtain ⟨kv1, ae1, be1, hae1, hbe1, hsig1, hbefore1, hafter1, hkv1, hneq1, hch1⟩ := hM
  have hMent : modifiedEntity cfg m = .keyed ae1.signature (some (.str kv1)) := by
    unfold modifiedEntity
    rw [hafter1]
    exact entity_of_valid (buildSideMap_valid hae1)
  rcases hD with g1 | g2 | g3
  · obtain ⟨it2, hit2, gs, hgs, hkey2, hdf, hnone⟩ := g1
    unfold entryEntity
    rw [hdf, hMent]
    unfold entityOfFields
    rw [hkey2]
    simp
  · obtain ⟨kv2, ae2, be2, hae2, hbe2, hsg2, hdf⟩ := g2
    unfold entryEntity
    rw [hdf, hMent, entity_of_valid (buildSideMap_valid hbe2)]
    intro hcontra
    simp only [EntityTag.keyed.injEq, Option.some.injEq, JsonValue.str.injEq] at hcontra
    obtain ⟨hs, hk⟩ := hcontra
    subst hk
    rw [hae1] at hae2
    injection hae2 with hae2
    rw [hbe1] at hbe2
    injection hbe2 with hbe2
    subst hae2
    subst hbe2
    rw [hsig1] at hsg2
    exact hsg2 rfl
  · obtain ⟨kv2, be2, hbe2, ham2, hdf⟩ := g3
    unfold entryEntity
    rw [hdf, hMent, entity_of_valid (buildSideMap_valid hbe2)]
    intro hcontra
    simp only [EntityTag.keyed.injEq, Option.some.injEq, JsonValue.str.injEq] at hcontra
    obtain ⟨hs, hk⟩ := hcontra
    subst hk
    rw [ham2] at hae1
    exact Option.noConfusion hae1

/-- C1: in every successful comparison, no logical entity, identified by
(signature, key field value) for records whose signature has a configured
key field and by (signature, full record content) for unkeyed records,
appears in more than one of newEntries, modifiedEntries and
deletedEntries. The signature-change replacement permitted by the claim
places the matched key value in deletedEntries under the old signature and
in newEntries under the new signature, which are distinct entities under
this identity, so the disjointness below subsumes the allowed exception. -/
theorem compareJsons_partition (b a : List JsonValue) (cfg : SelectedKeyConfig)
    (r : ComparisonResult) (h : compareJsons b a cfg = Except.ok r) :
    (∀ e ∈ r.newEntries, ∀ m ∈ r.modifiedEntries,
      entryEntity cfg e ≠ modifiedEntity cfg m)
    ∧ (∀ e ∈ r.newEntries, ∀ d ∈ r.deletedEntries,
      entryEntity cfg e ≠ entryEntity cfg d)
    ∧ (∀ m ∈ r.modifiedEntries, ∀ d ∈ r.deletedEntries,
      modifiedEntity cfg m ≠ entryEntity cfg d) := by
  obtain ⟨hnew, hmod, hdel, herr⟩ := compareJsons_ok_elim h
  refine ⟨?_, ?_, ?_⟩
  · intro e he m hm
    rw [hnew] at he
    rw [hmod] at hm
    exact pre_new_mod_disjoint (mem_of_mem_dedupEntries he) hm
  · intro e he d hd
    rw [hnew] at he
    rw [hdel] at hd
    exact pre_new_del_disjoint (mem_of_mem_dedupEntries he) (mem_of_mem_dedupEntries hd)
  · intro m hm d hd
    rw [hmod] at hm
    rw [hdel] at hd
    exact pre_mod_del_disjoint hm (mem_of_mem_dedupEntries hd)

/-- Witness for C1 at a concrete comparison producing one modified entry:
the partition property holds for its result. -/
theorem compareJsons_partition_witness :
    compareJsons wBefore1 wAfter1 wCfg1 = Except.ok wResult1
    ∧ ((∀ e ∈ wResult1.newEntries, ∀ m ∈ wResult1.modifiedEntries,
        entryEntity wCfg1 e ≠ modifiedEntity wCfg1 m)
      ∧ (∀ e ∈ wResult1.newEntries, ∀ d ∈ wResult1.deletedEntries,
        entryEntity wCfg1 e ≠ entryEntity wCfg1 d)
      ∧ (∀ m ∈ wResult1.modifiedEntries, ∀ d ∈ wResult1.deletedEntries,
        modifiedEntity wCfg1 m ≠ entryEntity wCfg1 d)) :=
  ⟨by decide, compareJsons_partition wBefore1 wAfter1 wCfg1 wResult1 (by decide)⟩

/- ===== C2: self comparison is empty ===== -/

theorem buildStep_map_eq {s1 s2 : Side} {cfg : SelectedKeyConfig}
    {st1 st2 : EntryMap × List CompareWarning} {item : JsonValue} (h : st1.1 = st2.1) :
    (buildStep s1 cfg st1 item).1 = (buildStep s2 cfg st2 item).1 := by
  unfold buildStep
  cases hjf : jsFields item with
  | none => simpa using h
  | some fs =>
    simp only
    cases hk : getKey cfg (getObjectSignature fs) with
    | none => simpa using h
    | some kf =>
      simp only
      cases hv : validKeyString (lookupField fs kf) with
      | none => simpa using h
      | some kv =>
        simp only [h]

theorem buildSideMap_map_eq (s1 s2 : Side) (cfg : SelectedKeyConfig) (d : List JsonValue) :
    (buildSideMap s1 cfg d).1 = (buildSideMap s2 cfg d).1 := by
  unfold buildSideMap
  suffices H : ∀ (l : List JsonValue) (st1 st2 : EntryMap × List CompareWarning),
      st1.1 = st2.1 → (l.foldl (buildStep s1 cfg) st1).1 = (l.foldl (buildStep s2 cfg) st2).1 by
    exact H d _ _ rfl
  intro l
  induction l with
  | nil => intro st1 st2 h; exact h
  | cons item rest ih =>
    intro st1 st2 h
    exact ih _ _ (buildStep_map_eq h)

theorem selfdiff_afterStep {cfg : SelectedKeyConfig} {m : EntryMap} {st : DiffLists}
    {item : JsonValue} {fs : List (String × JsonValue)}
    (hjf : jsFields item = some fs)
    (hkey : (getKey cfg (getObjectSignature fs)).isSome = true) :
    afterStep cfg m m st item = st := by
  obtain ⟨kf, hkf⟩ := Option.isSome_iff_exists.mp hkey
  unfold afterStep
  simp only [hjf, hkf]
  cases hlf : lookupField fs kf with
  | none => rfl
  | some v =>
    cases v with
    | str kv =>
      simp only
      cases hm : m kv with
      | none => rfl
      | some ae =>
        simp [isEqual_refl]
    | num n => rfl
    | bool b => rfl
    | null => rfl
    | arr xs => rfl
    | obj gs => rfl

theorem selfdiff_beforeStep {cfg : SelectedKeyConfig} {m : EntryMap} {A : List JsonValue}
    {st : DiffLists} {item : JsonValue} {fs : List (String × JsonValue)}
    (hjf : jsFields item = some fs)
    (hkey : (getKey cfg (getObjectSignature fs)).isSome = true) :
    beforeStep cfg m m A st item = st := by
  obtain ⟨kf, hkf⟩ := Option.isSome_iff_exists.mp hkey
  unfold beforeStep
  simp only [hjf, hkf]
  cases hlf : lookupField fs kf with
  | none => rfl
  | some v =>
    cases v with
    | str kv =>
      simp only
      cases hm : m kv with
      | none => rfl
      | some be => simp [hm]
    | num n => rfl
    | bool b => rfl
    | null => rfl
    | arr xs => rfl
    | obj gs => rfl

/-- C2: diffing a collection of non-null object records against an
identical copy of itself, with a key mapping that selects a key field for
every signature of the collection (the validation gate for a collection
against itself), yields a successful result whose newEntries,
modifiedEntries and deletedEntries are all empty. -/
theorem compareJsons_self_empty (data : List JsonValue) (cfg : SelectedKeyConfig)
    (hobj : ∀ item ∈ data, (jsFields item).isSome = true)
    (hkeyed : ∀ item ∈ data, ∀ fs, jsFields item = some fs →
      (getKey cfg (getObjectSignature fs)).isSome = true) :
    ∃ r, compareJsons data data cfg = Except.ok r ∧
      r.newEntries = [] ∧ r.modifiedEntries = [] ∧ r.deletedEntries = [] := by
  have hgate : (activeSignatures data data).find? (gateFails data data cfg) = none := by
    rw [List.find?_eq_none]
    intro sig hsig
    obtain ⟨item, hmem, fs, hfs, hse⟩ := mem_activeSignatures.mp hsig
    have hmem2 : item ∈ data := by
      rcases List.mem_append.mp hmem with h | h <;> exact h
    have hk := hkeyed item hmem2 fs hfs
    unfold gateFails
    rw [← hse]
    rw [Option.isSome_iff_exists] at hk
    obtain ⟨kf, hkf⟩ := hk
    simp [hkf]
  have hmapeq : (buildSideMap .before cfg data).1 = (buildSideMap .after cfg data).1 :=
    buildSideMap_map_eq _ _ _ _
  have hpre : preLists data data cfg = ⟨[], [], []⟩ := by
    unfold preLists
    rw [hmapeq]
    have hafter : ∀ (l : List JsonValue), (∀ x ∈ l, x ∈ data) → ∀ (st : DiffLists),
        l.foldl (afterStep cfg (buildSideMap .after cfg data).1
          (buildSideMap .after cfg data).1) st = st := by
      intro l
      induction l with
      | nil => intro _ st; rfl
      | cons item rest ih =>
        intro hsub st
        rw [List.foldl_cons]
        have hmem := hsub item (List.mem_cons_self _ _)
        obtain ⟨fs, hfs⟩ := Option.isSome_iff_exists.mp (hobj item hmem)
        rw [selfdiff_afterStep hfs (hkeyed item hmem fs hfs)]
        exact ih (fun x hx => hsub x (List.mem_cons_of_mem _ hx)) st
    have hbefore : ∀ (l : List JsonValue), (∀ x ∈ l, x ∈ data) → ∀ (st : DiffLists),
        l.foldl (beforeStep cfg (buildSideMap .after cfg data).1
          (buildSideMap .after cfg data).1 data) st = st := by
      intro l
      induction l with
      | nil => intro _ st; rfl
      | cons item rest ih =>
        intro hsub st
        rw [List.foldl_cons]
        have hmem := hsub item (List.mem_cons_self _ _)
        obtain ⟨fs, hfs⟩ := Option.isSome_iff_exists.mp (hobj item hmem)
        rw [selfdiff_beforeStep hfs (hkeyed item hmem fs hfs)]
        exact ih (fun x hx => hsub x (List.mem_cons_of_mem _ hx)) st
    rw [hafter data (fun x hx => hx), hbefore data (fun x hx => hx)]
  refine ⟨⟨dedupEntries (makeEntryId cfg) (preLists data data cfg).newEntries,
      (preLists data data cfg).modifiedEntries,
      dedupEntries (makeEntryId cfg) (preLists data data cfg).deletedEntries,
      (buildSideMap .before cfg data).2 ++ (buildSideMap .after cfg data).2⟩, ?_, ?_, ?_, ?_⟩
  · unfold compareJsons
    rw [hgate]
  · show (dedupEntries (makeEntryId cfg) (preLists data data cfg).newEntries) = []
    rw [hpre]
    rfl
  · show (preLists data data cfg).modifiedEntries = []
    rw [hpre]
  · show (dedupEntries (makeEntryId cfg) (preLists data data cfg).deletedEntries) = []
    rw [hpre]
    rfl

/-- Witness for C2: a two-record collection diffed against itself yields
empty classification lists. -/
theorem compareJsons_self_empty_witness :
    ∃ r, compareJsons
        [JsonValue.obj [("id", JsonValue.str "1"), ("name", JsonValue.str "A")],
         JsonValue.obj [("id", JsonValue.str "2")]]
        [JsonValue.obj [("id", JsonValue.str "1"), ("name", JsonValue.str "A")],
         JsonValue.obj [("id", JsonValue.str "2")]]
        (fun s => if s = "id,name" then some "id" else if s = "id" then some "id" else none) =
      Except.ok r ∧ r.newEntries = [] ∧ r.modifiedEntries = [] ∧ r.deletedEntries = [] :=
  compareJsons_self_empty _ _ (by decide) (by decide)

/- ===== C7: invalid key values are warned about and excluded ===== -/

theorem valid_entry_fields_ne {cfg : SelectedKeyConfig} {data : List JsonValue} {k : String}
    {e : MapEntry} {fs : List (String × JsonValue)} {kf : String}
    (hv : ValidMapEntry cfg data k e)
    (hkf : getKey cfg (getObjectSignature fs) = some kf)
    (hbad : validKeyString (lookupField fs kf) = none) :
    fieldsOfItem e.item ≠ fs := by
  intro heq
  obtain ⟨hmem, fs2, hfs2, hsig, hkey2, hvk⟩ := hv
  have hfe : fieldsOfItem e.item = fs2 := by
    unfold fieldsOfItem
    rw [hfs2]
    rfl
  rw [hfe] at heq
  subst heq
  rw [hsig, hkf] at hkey2
  injection hkey2 with hkey2
  rw [← hkey2] at hvk
  rw [hbad] at hvk
  exact Option.noConfusion hvk

theorem valid_entry_item_ne {cfg : SelectedKeyConfig} {data : List JsonValue} {k : String}
    {e : MapEntry} {rec : JsonValue} {fs : List (String × JsonValue)} {kf : String}
    (hv : ValidMapEntry cfg data k e) (hrec : jsFields rec = some fs)
    (hkf : getKey cfg (getObjectSignature fs) = some kf)
    (hbad : validKeyString (lookupField fs kf) = none) :
    e.item ≠ rec := by
  intro heq
  apply valid_entry_fields_ne hv hkf hbad
  unfold fieldsOfItem
  rw [heq, hrec]
  rfl

/-- C7: a record on either side whose signature has a configured key field
but whose value at that field is missing, not a string, or empty after
trimming produces an InvalidKeyValue warning naming the key field, the
signature and the offending value, and no entry of any of the three
result lists carries that record. -/
theorem compareJsons_invalid_key_excluded
    (b a : List JsonValue) (cfg : SelectedKeyConfig) (r : ComparisonResult)
    (rec : JsonValue) (fs : List (String × JsonValue)) (kf : String)
    (h : compareJsons b a cfg = Except.ok r)
    (hfs : jsFields rec = some fs)
    (hkf : getKey cfg (getObjectSignature fs) = some kf)
    (hbad : validKeyString (lookupField fs kf) = none) :
    (rec ∈ b → CompareWarning.invalidKeyValue .before kf (getObjectSignature fs)
      (lookupField fs kf) ∈ r.errors)
    ∧ (rec ∈ a → CompareWarning.invalidKeyValue .after kf (getObjectSignature fs)
      (lookupField fs kf) ∈ r.errors)
    ∧ (∀ e ∈ r.newEntries, e.fields ≠ fs)
    ∧ (∀ d ∈ r.deletedEntries, d.fields ≠ fs)
    ∧ (∀ m ∈ r.modifiedEntries, m.before ≠ rec ∧ m.after ≠ rec) := by
  obtain ⟨hnew, hmod, hdel, herr⟩ := compareJsons_ok_elim h
  refine ⟨?_, ?_, ?_, ?_, ?_⟩
  · intro hmem
    rw [herr]
    exact List.mem_append_left _ (buildSideMap_warn hmem hfs hkf hbad)
  · intro hmem
    rw [herr]
    exact List.mem_append_right _ (buildSideMap_warn hmem hfs hkf hbad)
  · intro e he
    rw [hnew] at he
    have hsrc := preLists_spec.1 e (mem_of_mem_dedupEntries he)
    rcases hsrc with h1 | h2 | h3
    · obtain ⟨item, hitem, fs2, hfs2, hkey2, hef⟩ := h1
      rw [hef]
      intro heq
      subst heq
      rw [hkf] at hkey2
      exact Option.noConfusion hkey2
    · obtain ⟨kv, ae, hae, hbm, hef⟩ := h2
      rw [hef]
      exact valid_entry_fields_ne (buildSideMap_valid hae) hkf hbad
    · obtain ⟨kv, ae, be, hae, hbe, hsg, hee⟩ := h3
      have hef : e.fields = fieldsOfItem ae.item := by rw [hee]
      rw [hef]
      exact valid_entry_fields_ne (buildSideMap_valid hae) hkf hbad
  · intro d hd
    rw [hdel] at hd
    have hsrc := preLists_spec.2.2 d (mem_of_mem_dedupEntries hd)
    rcases hsrc with h1 | h2 | h3
    · obtain ⟨item, hitem, fs2, hfs2, hkey2, hdf, hnone⟩ := h1
      rw [hdf]
      intro heq
      subst heq
      rw [hkf] at hkey2
      exact Option.noConfusion hkey2
    · obtain ⟨kv, ae, be, hae, hbe, hsg, hdf⟩ := h2
      rw [hdf]
      exact valid_entry_fields_ne (buildSideMap_valid hbe) hkf hbad
    · obtain ⟨kv, be, hbe, ham, hdf⟩ := h3
      rw [hdf]
      exact valid_entry_fields_ne (buildSideMap_valid hbe) hkf hbad
  · intro m hm
    rw [hmod] at hm
    obtain ⟨kv, ae, be, hae, hbe, hsg, hbm, ham, hkv, hie, hch⟩ := preLists_spec.2.1 m hm
    constructor
    · rw [hbm]
      exact valid_entry_item_ne (buildSideMap_valid hbe) hfs hkf hbad
    · rw [ham]
      exact valid_entry_item_ne (buildSideMap_valid hae) hfs hkf hbad

/-- Witness for C7: in a concrete comparison, an after record with a
whitespace-only id yields the InvalidKeyValue warning, and neither the
single new entry nor the single deleted entry carries its fields. -/
theorem compareJsons_invalid_key_excluded_witness :
    CompareWarning.invalidKeyValue .after "id"
      (getObjectSignature [("id", JsonValue.str " ")])
      (lookupField [("id", JsonValue.str " ")] "id") ∈
      (⟨[⟨[("id", JsonValue.str "2")], "id", some "id"⟩], [],
        [⟨[("id", JsonValue.str "1")], "id", some "id"⟩],
        [CompareWarning.invalidKeyValue .after "id" "id" (some (JsonValue.str " "))]⟩ :
        ComparisonResult).errors
    ∧ (⟨[("id", JsonValue.str "2")], "id", some "id"⟩ : SimpleEntry).fields
        ≠ [("id", JsonValue.str " ")]
    ∧ (⟨[("id", JsonValue.str "1")], "id", some "id"⟩ : SimpleEntry).fields
        ≠ [("id", JsonValue.str " ")] := by
  have hr : compareJsons [JsonValue.obj [("id", JsonValue.str "1")]]
      [JsonValue.obj [("id", JsonValue.str " ")], JsonValue.obj [("id", JsonValue.str "2")]]
      (fun s => if s = "id" then some "id" else none) =
      Except.ok ⟨[⟨[("id", JsonValue.str "2")], "id", some "id"⟩], [],
        [⟨[("id", JsonValue.str "1")], "id", some "id"⟩],
        [CompareWarning.invalidKeyValue .after "id" "id" (some (JsonValue.str " "))]⟩ := by
    decide
  have H := compareJsons_invalid_key_excluded _ _ _ _
    (JsonValue.obj [("id", JsonValue.str " ")]) [("id", JsonValue.str " ")] "id"
    hr rfl (by decide) (by decide)
  exact ⟨H.2.1 (by decide),
    H.2.2.1 ⟨[("id", JsonValue.str "2")], "id", some "id"⟩ (by decide),
    H.2.2.2.1 ⟨[("id", JsonValue.str "1")], "id", some "id"⟩ (by decide)⟩

/- ===== C4: signature change replacement ===== -/

theorem afterStep_new_append (cfg : SelectedKeyConfig) (bm am : EntryMap)
    (st : DiffLists) (item : JsonValue) :
    ∃ t, (afterStep cfg bm am st item).newEntries = st.newEntries ++ t := by
  unfold afterStep
  repeat' split
  all_goals first
    | exact ⟨[], (List.append_nil _).symm⟩
    | exact ⟨_, rfl⟩

theorem afterStep_del_append (cfg : SelectedKeyConfig) (bm am : EntryMap)
    (st : DiffLists) (item : JsonValue) :
    ∃ t, (afterStep cfg bm am st item).deletedEntries = st.deletedEntries ++ t := by
  unfold afterStep
  repeat' split
  all_goals first
    | exact ⟨[], (List.append_nil _).symm⟩
    | exact ⟨_, rfl⟩

theorem beforeStep_del_append (cfg : SelectedKeyConfig) (bm am : EntryMap)
    (afterData : List JsonValue) (st : DiffLists) (item : JsonValue) :
    ∃ t, (beforeStep cfg bm am afterData st item).deletedEntries = st.deletedEntries ++ t := by
  unfold beforeStep
  repeat' split
  all_goals first
    | exact ⟨[], (List.append_nil _).symm⟩
    | exact ⟨_, rfl⟩

theorem afterFold_new_mono {cfg : SelectedKeyConfig} {bm am : EntryMap} :
    ∀ (l : List JsonValue) (st : DiffLists) (x : SimpleEntry),
      x ∈ st.newEntries → x ∈ (l.foldl (afterStep cfg bm am) st).newEntries := by
  intro l
  induction l with
  | nil => intro st x hx; exact hx
  | cons item rest ih =>
    intro st x hx
    rw [List.foldl_cons]
    apply ih
    obtain ⟨t, ht⟩ := afterStep_new_append cfg bm am st item
    rw [ht]
    exact List.mem_append_left _ hx

theorem afterFold_del_mono {cfg : SelectedKeyConfig} {bm am : EntryMap} :
    ∀ (l : List JsonValue) (st : DiffLists) (x : SimpleEntry),
      x ∈ st.deletedEntries → x ∈ (l.foldl (afterStep cfg bm am) st).deletedEntries := by
  intro l
  induction l with
  | nil => intro st x hx; exact hx
  | cons item rest ih =>
    intro st x hx
    rw [List.foldl_cons]
    apply ih
    obtain ⟨t, ht⟩ := afterStep_del_append cfg bm am st item
    rw [ht]
    exact List.mem_append_left _ hx

theorem beforeFold_del_mono {cfg : SelectedKeyConfig} {bm am : EntryMap}
    {afterData : List JsonValue} :
    ∀ (l : List JsonValue) (st : DiffLists) (x : SimpleEntry),
      x ∈ st.deletedEntries →
      x ∈ (l.foldl (beforeStep cfg bm am afterData) st).deletedEntries := by
  intro l
  induction l with
  | nil => intro st x hx; exact hx
  | cons item rest ih =>
    intro st x hx
    rw [List.foldl_cons]
    apply ih
    obtain ⟨t, ht⟩ := beforeStep_del_append cfg bm am afterData st item
    rw [ht]
    exact List.mem_append_left _ hx

theorem afterStep_sigchange_push {cfg : SelectedKeyConfig} {bm am : EntryMap}
    {item : JsonValue} {fs : List (String × JsonValue)} {kf kv : String}
    {ae be : MapEntry} (st : DiffLists)
    (hjf : jsFields item = some fs)
    (hkf : getKey cfg (getObjectSignature fs) = some kf)
    (hlf : lookupField fs kf = some (.str kv))
    (hae : am kv = some ae) (hbe : bm kv = some be)
    (hneq : be.signature ≠ ae.signature) :
    (⟨fieldsOfItem ae.item, ae.signature, some ae.keyField⟩ : SimpleEntry) ∈
      (afterStep cfg bm am st item).newEntries
    ∧ (⟨fieldsOfItem be.item, be.signature, some be.keyField⟩ : SimpleEntry) ∈
      (afterStep cfg bm am st item).deletedEntries := by
  unfold afterStep
  simp only [hjf, hkf, hlf, hae, hbe]
  rw [if_pos hneq]
  constructor
  · exact List.mem_append_right _ (List.mem_singleton.mpr rfl)
  · exact List.mem_append_right _ (List.mem_singleton.mpr rfl)

theorem afterFold_sigchange {cfg : SelectedKeyConfig} {bm am : EntryMap}
    {item : JsonValue} {fs : List (String × JsonValue)} {kf kv : String} {ae be : MapEntry}
    (hjf : jsFields item = some fs)
    (hkf : getKey cfg (getObjectSignature fs) = some kf)
    (hlf : lookupField fs kf = some (.str kv))
    (hae : am kv = some ae) (hbe : bm kv = some be)
    (hneq : be.signature ≠ ae.signature) :
    ∀ (l : List JsonValue) (st : DiffLists), item ∈ l →
      (⟨fieldsOfItem ae.item, ae.signature, some ae.keyField⟩ : SimpleEntry) ∈
        (l.foldl (afterStep cfg bm am) st).newEntries
      ∧ (⟨fieldsOfItem be.item, be.signature, some be.keyField⟩ : SimpleEntry) ∈
        (l.foldl (afterStep cfg bm am) st).deletedEntries := by
  intro l
  induction l with
  | nil => intro st hmem; exact absurd hmem (List.not_mem_nil _)
  | cons x rest ih =>
    intro st hmem
    rw [List.foldl_cons]
    rcases List.mem_cons.mp hmem with rfl | hmem2
    · have hpush := afterStep_sigchange_push st hjf hkf hlf hae hbe hneq
      exact ⟨afterFold_new_mono rest _ _ hpush.1, afterFold_del_mono rest _ _ hpush.2⟩
    · exact ih _ hmem2

/-- C4 (amended): if an after record with a configured key field carries a
key value mapped on both sides with differing signatures, the comparison
classifies the before map record as deleted and the after map record as
new, and emits no modified entry for that key value. The two entries are
guaranteed to survive the deduplication pass provided no other classified
entry shares their deduplication identity (the signature::key string),
which the unamended claim wrongly took for granted. -/
theorem compareJsons_sigchange_replacement
    (b a : List JsonValue) (cfg : SelectedKeyConfig) (r : ComparisonResult)
    (item : JsonValue) (fs : List (String × JsonValue)) (kf kv : String)
    (ae be : MapEntry)
    (h : compareJsons b a cfg = Except.ok r)
    (hmem : item ∈ a) (hjf : jsFields item = some fs)
    (hkf : getKey cfg (getObjectSignature fs) = some kf)
    (hlf : lookupField fs kf = some (.str kv))
    (hae : (buildSideMap .after cfg a).1 kv = some ae)
    (hbe : (buildSideMap .before cfg b).1 kv = some be)
    (hneq : be.signature ≠ ae.signature)
    (hunew : ∀ x ∈ (preLists b a cfg).newEntries, ∀ y ∈ (preLists b a cfg).newEntries,
      makeEntryId cfg x = makeEntryId cfg y → x = y)
    (hudel : ∀ x ∈ (preLists b a cfg).deletedEntries,
      ∀ y ∈ (preLists b a cfg).deletedEntries,
      makeEntryId cfg x = makeEntryId cfg y → x = y) :
    (⟨fieldsOfItem ae.item, ae.signature, some ae.keyField⟩ : SimpleEntry) ∈ r.newEntries
    ∧ (⟨fieldsOfItem be.item, be.signature, some be.keyField⟩ : SimpleEntry) ∈ r.deletedEntries
    ∧ ∀ m ∈ r.modifiedEntries, m.keyFieldValue ≠ kv := by
  obtain ⟨hnew, hmod, hdel, herr⟩ := compareJsons_ok_elim h
  have hfold := afterFold_sigchange hjf hkf hlf hae hbe hneq a
    (⟨[], [], []⟩ : DiffLists) hmem
  have hpre_new : (⟨fieldsOfItem ae.item, ae.signature, some ae.keyField⟩ : SimpleEntry) ∈
      (preLists b a cfg).newEntries := by
    unfold preLists
    rw [beforeFold_newEntries]
    exact hfold.1
  have hpre_del : (⟨fieldsOfItem be.item, be.signature, some be.keyField⟩ : SimpleEntry) ∈
      (preLists b a cfg).deletedEntries := by
    unfold preLists
    exact beforeFold_del_mono b _ _ hfold.2
  refine ⟨?_, ?_, ?_⟩
  · rw [hnew]
    exact mem_dedupEntries_of_unique hpre_new (fun y hy => hunew y hy _ hpre_new)
  · rw [hdel]
    exact mem_dedupEntries_of_unique hpre_del (fun y hy => hudel y hy _ hpre_del)
  · intro m hm
    rw [hmod] at hm
    obtain ⟨kv2, ae2, be2, hae2, hbe2, hsg2, hbm, ham, hkv2, hie, hch⟩ := preLists_spec.2.1 m hm
    intro heq
    rw [heq] at hkv2
    subst hkv2
    rw [hae] at hae2
    injection hae2 with hae2
    rw [hbe] at hbe2
    injection hbe2 with hbe2
    rw [← hae2, ← hbe2] at hsg2
    exact hneq hsg2

/-- Witness for the amended C4 at an uncontested signature change: the
after record with key value 1 changes shape from id,z to id, and the
result holds the expected new and deleted entries and no modified entry
for that key. -/
theorem compareJsons_sigchange_replacement_witness :
    (⟨[("id", JsonValue.str "1")], "id", some "id"⟩ : SimpleEntry) ∈
      (⟨[⟨[("id", JsonValue.str "1")], "id", some "id"⟩], [],
        [⟨[("id", JsonValue.str "1"), ("z", JsonValue.str "q")], "id,z", some "id"⟩], []⟩ :
        ComparisonResult).newEntries
    ∧ (⟨[("id", JsonValue.str "1"), ("z", JsonValue.str "q")], "id,z", some "id"⟩ : SimpleEntry) ∈
      (⟨[⟨[("id", JsonValue.str "1")], "id", some "id"⟩], [],
        [⟨[("id", JsonValue.str "1"), ("z", JsonValue.str "q")], "id,z", some "id"⟩], []⟩ :
        ComparisonResult).deletedEntries
    ∧ ∀ m ∈ (⟨[⟨[("id", JsonValue.str "1")], "id", some "id"⟩], [],
        [⟨[("id", JsonValue.str "1"), ("z", JsonValue.str "q")], "id,z", some "id"⟩], []⟩ :
        ComparisonResult).modifiedEntries, m.keyFieldValue ≠ "1" :=
  compareJsons_sigchange_replacement
    [JsonValue.obj [("id", JsonValue.str "1"), ("z", JsonValue.str "q")]]
    [JsonValue.obj [("id", JsonValue.str "1")]]
    (fun s => if s = "id" then some "id" else if s = "id,z" then some "id" else none)
    ⟨[⟨[("id", JsonValue.str "1")], "id", some "id"⟩], [],
      [⟨[("id", JsonValue.str "1"), ("z", JsonValue.str "q")], "id,z", some "id"⟩], []⟩
    (JsonValue.obj [("id", JsonValue.str "1")]) [("id", JsonValue.str "1")] "id" "1"
    ⟨JsonValue.obj [("id", JsonValue.str "1")], "id", "id"⟩
    ⟨JsonValue.obj [("id", JsonValue.str "1"), ("z", JsonValue.str "q")], "id,z", "id"⟩
    (by decide) (by decide) rfl (by decide) (by decide) (by decide) (by decide)
    (by decide) (by decide) (by decide)

/-- Counterexample to C4 as stated: in this run the after record with key
value x::y undergoes a signature change from id,z to id and is classified
new, but its deduplication id (id::x::y) collides with the id of the later
new entry of signature id::x with key value y, so the deduplication pass
drops it and the after-side record is absent from the final newEntries. -/
theorem compareJsons_sigchange_dropped_cx :
    compareJsons cxBefore4 cxAfter4 cxCfg4 = Except.ok cxResult4
    ∧ JsonValue.obj [("id", JsonValue.str "x::y")] ∈ cxAfter4
    ∧ (buildSideMap .after cxCfg4 cxAfter4).1 "x::y" =
        some ⟨JsonValue.obj [("id", JsonValue.str "x::y")], "id", "id"⟩
    ∧ (buildSideMap .before cxCfg4 cxBefore4).1 "x::y" =
        some ⟨JsonValue.obj [("id", JsonValue.str "x::y"), ("z", JsonValue.num 1)], "id,z", "id"⟩
    ∧ (("id,z" : String) = "id" → False)
    ∧ ((⟨[("id", JsonValue.str "x::y")], "id", some "id"⟩ : SimpleEntry) ∈
        (preLists cxBefore4 cxAfter4 cxCfg4).newEntries)
    ∧ ((⟨[("id", JsonValue.str "x::y")], "id", some "id"⟩ : SimpleEntry) ∈
        cxResult4.newEntries → False) := by
  decide

theorem mem_calc_changed {o1 o2 : List (String × JsonValue)}
    {c : String × JsonValue × JsonValue}
    (h : c ∈ (calculateFieldChanges o1 o2).changed) :
    lookupField o1 c.1 = some c.2.1 ∧ lookupField o2 c.1 = some c.2.2 ∧
      isEqual c.2.1 c.2.2 = false := by
  simp only [calculateFieldChanges] at h
  rw [List.mem_filterMap] at h
  obtain ⟨k, _, hk⟩ := h
  rcases h1 : lookupField o1 k with _ | v1 <;> rw [h1] at hk
  · exact Option.noConfusion hk
  · rcases h2 : lookupField o2 k with _ | v2 <;> rw [h2] at hk
    · exact Option.noConfusion hk
    · simp only [] at hk
      by_cases he : isEqual v1 v2 = true
      · rw [if_pos he] at hk
        exact Option.noConfusion hk
      · rw [if_neg he] at hk
        injection hk with hk
        subst hk
        exact ⟨h1, h2, Bool.eq_false_iff.mpr he⟩

theorem mkChanges_changed_subset {kf : String} {be ae : MapEntry}
    {c : String × JsonValue × JsonValue}
    (h : c ∈ (mkChanges kf be ae).changed) :
    c ∈ (calculateFieldChanges (fieldsOfItem be.item) (fieldsOfItem ae.item)).changed := by
  simp only [mkChanges] at h
  split at h
  · exact (List.mem_filter.mp h).1
  · exact h

/-- C8: for every modified entry of an ok run, the records of the matched
pair share a signature that resolves to a key field in the configuration,
and changed holds no entry for that field (its value on both records is the
string they were matched by); when keyFieldUsed coincides with that field,
the spec claim follows, but under duplicate-key aliasing keyFieldUsed may
be a different field and survive in changed. -/
theorem modified_changed_no_matched_keyfield {b a : List JsonValue}
    {cfg : SelectedKeyConfig} {r : ComparisonResult} {m : ModifiedEntry}
    (h : compareJsons b a cfg = Except.ok r) (hm : m ∈ r.modifiedEntries) :
    ∃ kf, getKey cfg (getObjectSignature (fieldsOfItem m.before)) = some kf ∧
      getKey cfg (getObjectSignature (fieldsOfItem m.after)) = some kf ∧
      ∀ c ∈ m.changes.changed, c.1 ≠ kf := by
  obtain ⟨hnew, hmod, hdel, herr⟩ := compareJsons_ok_elim h
  rw [hmod] at hm
  obtain ⟨kv, ae, be, ham, hbm, hsig, hbef, haft, hkfv, hneq, hch⟩ :=
    (@preLists_spec b a cfg).2.1 m hm
  obtain ⟨-, fsb, hfb, hsigb, hkeyb, hvkb⟩ := buildSideMap_valid hbm
  obtain ⟨-, fsa, hfa, hsiga, hkeya, hvka⟩ := buildSideMap_valid ham
  have hfob : fieldsOfItem be.item = fsb := by
    unfold fieldsOfItem
    rw [hfb]
    rfl
  have hfoa : fieldsOfItem ae.item = fsa := by
    unfold fieldsOfItem
    rw [hfa]
    rfl
  have hkeq : ae.keyField = be.keyField := by
    have h1 := hkeyb
    rw [hsig, hkeya] at h1
    exact Option.some.inj h1
  refine ⟨be.keyField, ?_, ?_, ?_⟩
  · rw [hbef, hfob, ← hsigb]
    exact hkeyb
  · rw [haft, hfoa, ← hsiga, ← hsig]
    exact hkeyb
  · intro c hc hceq
    rw [hch] at hc
    obtain ⟨l1, l2, hne⟩ := mem_calc_changed (mkChanges_changed_subset hc)
    rw [hfob, hceq] at l1
    rw [hfoa, hceq] at l2
    obtain ⟨hlb, -⟩ := validKeyString_eq_some.mp hvkb
    obtain ⟨hla, -⟩ := validKeyString_eq_some.mp hvka
    rw [hlb] at l1
    rw [hkeq] at hla
    rw [hla] at l2
    injection l1 with l1
    injection l2 with l2
    rw [← l1, ← l2, isEqual_refl] at hne
    exact Bool.noConfusion hne

/-- Witness for the amended C8: in a concrete run with one modified entry,
the matched signature's key field is id and the changed list (one entry,
for name) holds no entry named id. -/
theorem modified_changed_no_matched_keyfield_witness :
    ∃ kf, getKey wCfg1 (getObjectSignature (fieldsOfItem (JsonValue.obj
        [("id", JsonValue.str "1"), ("name", JsonValue.str "Alice")]))) = some kf ∧
      getKey wCfg1 (getObjectSignature (fieldsOfItem (JsonValue.obj
        [("id", JsonValue.str "1"), ("name", JsonValue.str "Alicia")]))) = some kf ∧
      ∀ c ∈ (⟨[], [],
          [("name", JsonValue.str "Alice", JsonValue.str "Alicia")]⟩ :
          FieldChanges).changed, c.1 ≠ kf :=
  @modified_changed_no_matched_keyfield wBefore1 wAfter1 wCfg1 wResult1
    ⟨"1", "id", "id,name",
      JsonValue.obj [("id", JsonValue.str "1"), ("name", JsonValue.str "Alice")],
      JsonValue.obj [("id", JsonValue.str "1"), ("name", JsonValue.str "Alicia")],
      ⟨[], [], [("name", JsonValue.str "Alice", JsonValue.str "Alicia")]⟩⟩
    (by decide) (by decide)

/-- Counterexample to C8 as stated: two after records share the key value
v under different key fields, so the map entry at v aliases; iterating the
record whose key field is c matches the pair of before/after records of
signature c,k and emits a modified entry whose keyFieldUsed is c while its
changed list holds an entry named c (the key-field check compares the c
values, which differ, so the entry is not removed). -/
theorem modified_changed_keyfield_cx :
    compareJsons c8Before c8After c8Cfg = Except.ok c8Result
    ∧ ∃ m ∈ c8Result.modifiedEntries,
        m.changes.changed.any (fun c => c.1 = m.keyFieldUsed) = true := by
  decide

/- ===== Order lemmas for the field sort ===== -/

theorem char_toNat_inj {a b : Char} (h : a.toNat = b.toNat) : a = b := by
  apply Char.ext
  unfold Char.toNat at h
  exact UInt32.toNat.inj h

theorem charsLe_total : ∀ a b, charsLe a b = true ∨ charsLe b a = true := by
  intro a
  induction a with
  | nil => intro b; exact Or.inl rfl
  | cons x xs ih =>
    intro b
    cases b with
    | nil => exact Or.inr rfl
    | cons y ys =>
      by_cases hxy : x.toNat < y.toNat
      · left; simp [charsLe, hxy]
      · by_cases hyx : y.toNat < x.toNat
        · right; simp [charsLe, hyx]
        · rcases ih ys with h | h
          · left; simp [charsLe, hxy, hyx, h]
          · right; simp [charsLe, hxy, hyx, h]

theorem charsLe_antisymm : ∀ a b, charsLe a b = true → charsLe b a = true → a = b := by
  intro a
  induction a with
  | nil =>
    intro b _ h2
    cases b with
    | nil => rfl
    | cons y ys => simp [charsLe] at h2
  | cons x xs ih =>
    intro b h1 h2
    cases b with
    | nil => simp [charsLe] at h1
    | cons y ys =>
      by_cases hxy : x.toNat < y.toNat
      · have : ¬ y.toNat < x.toNat := by omega
        simp [charsLe, hxy, this] at h2
      · by_cases hyx : y.toNat < x.toNat
        · simp [charsLe, hxy, hyx] at h1
        · have hx : x = y := char_toNat_inj (by omega)
          subst hx
          simp only [charsLe, hxy, if_neg, if_false] at h1 h2
          rw [ih ys h1 h2]

theorem charsLe_trans : ∀ a b c, charsLe a b = true → charsLe b c = true → charsLe a c = true := by
  intro a
  induction a with
  | nil => intro b c _ _; rfl
  | cons x xs ih =>
    intro b c h1 h2
    cases b with
    | nil => simp [charsLe] at h1
    | cons y ys =>
      cases c with
      | nil => simp [charsLe] at h2
      | cons z zs =>
        by_cases hxy : x.toNat < y.toNat <;> by_cases hyz : y.toNat < z.toNat
        · simp [charsLe, show x.toNat < z.toNat by omega]
        · by_cases hzy : z.toNat < y.toNat
          · simp [charsLe, hyz, hzy] at h2
          · simp [charsLe, show x.toNat < z.toNat by omega]
        · by_cases hyx : y.toNat < x.toNat
          · simp [charsLe, hxy, hyx] at h1
          · simp [charsLe, show x.toNat < z.toNat by omega]
        · by_cases hyx : y.toNat < x.toNat
          · simp [charsLe, hxy, hyx] at h1
          · by_cases hzy : z.toNat < y.toNat
            · simp [charsLe, hyz, hzy] at h2
            · have hxz : ¬ x.toNat < z.toNat := by omega
              have hzx : ¬ z.toNat < x.toNat := by omega
              simp only [charsLe, hxy, hyx, if_neg, if_false] at h1
              simp only [charsLe, hyz, hzy, if_neg, if_false] at h2
              simp only [charsLe, hxz, hzx, if_neg, if_false]
              exact ih ys zs h1 h2

theorem jsStrLe_total (s t : String) : jsStrLe s t = true ∨ jsStrLe t s = true :=
  charsLe_total s.data t.data

theorem jsStrLe_antisymm {s t : String} (h1 : jsStrLe s t = true) (h2 : jsStrLe t s = true) :
    s = t := by
  cases s with
  | mk l1 =>
    cases t with
    | mk l2 =>
      rw [charsLe_antisymm l1 l2 h1 h2]

theorem jsStrLe_trans {s t u : String} (h1 : jsStrLe s t = true) (h2 : jsStrLe t u = true) :
    jsStrLe s u = true :=
  charsLe_trans s.data t.data u.data h1 h2

/- ===== Permutation and sortedness of sortFields ===== -/

theorem insertField_perm (p : String × JsonValue) :
    ∀ l : List (String × JsonValue), (insertField p l).Perm (p :: l) := by
  intro l
  induction l with
  | nil => exact List.Perm.refl _
  | cons q qs ih =>
    by_cases h : jsStrLe p.1 q.1 = true
    · simp only [insertField, if_pos h]
      exact List.Perm.refl _
    · simp only [insertField, if_neg h]
      exact List.Perm.trans (List.Perm.cons q ih) (List.Perm.swap p q qs)

theorem sortFields_perm : ∀ l : List (String × JsonValue), (sortFields l).Perm l := by
  intro l
  induction l with
  | nil => exact List.Perm.refl _
  | cons p ps ih =>
    have h1 : sortFields (p :: ps) = insertField p (sortFields ps) := rfl
    rw [h1]
    exact List.Perm.trans (insertField_perm p (sortFields ps)) (List.Perm.cons p ih)

theorem insertField_pairwise {p : String × JsonValue} {l : List (String × JsonValue)}
    (h : l.Pairwise (fun x y => jsStrLe x.1 y.1 = true)) :
    (insertField p l).Pairwise (fun x y => jsStrLe x.1 y.1 = true) := by
  induction l with
  | nil => exact List.pairwise_singleton _ p
  | cons q qs ih =>
    rcases List.pairwise_cons.mp h with ⟨hq, hqs⟩
    by_cases hle : jsStrLe p.1 q.1 = true
    · simp only [insertField, if_pos hle]
      refine List.pairwise_cons.mpr ⟨?_, h⟩
      intro x hx
      rcases List.mem_cons.mp hx with rfl | hx
      · exact hle
      · exact jsStrLe_trans hle (hq x hx)
    · simp only [insertField, if_neg hle]
      refine List.pairwise_cons.mpr ⟨?_, ih hqs⟩
      intro x hx
      have hx2 : x ∈ p :: qs := (insertField_perm p qs).mem_iff.mp hx
      rcases List.mem_cons.mp hx2 with rfl | hx2
      · rcases jsStrLe_total x.1 q.1 with h1 | h1
        · exact absurd h1 hle
        · exact h1
      · exact hq x hx2

theorem sortFields_pairwise :
    ∀ l : List (String × JsonValue),
      (sortFields l).Pairwise (fun x y => jsStrLe x.1 y.1 = true) := by
  intro l
  induction l with
  | nil => exact List.Pairwise.nil
  | cons p ps ih => exact insertField_pairwise ih

/- ===== Field lookup lemmas ===== -/

theorem lookupField_mem {l : List (String × JsonValue)} {k : String} {v : JsonValue}
    (h : lookupField l k = some v) : (k, v) ∈ l := by
  induction l with
  | nil => exact Option.noConfusion h
  | cons q qs ih =>
    by_cases hq : q.1 = k
    · rw [show q = (q.1, q.2) from rfl] at h ⊢
      rw [lookupField, if_pos hq] at h
      injection h with h
      rw [hq, h]
      exact List.mem_cons_self _ _
    · rw [show q = (q.1, q.2) from rfl] at h
      rw [lookupField, if_neg hq] at h
      exact List.mem_cons_of_mem _ (ih h)

theorem lookupField_none_iff {l : List (String × JsonValue)} {k : String} :
    lookupField l k = none ↔ k ∉ fieldKeys l := by
  induction l with
  | nil => simp [lookupField, fieldKeys]
  | cons q qs ih =>
    by_cases hq : q.1 = k
    · rw [show q = (q.1, q.2) from rfl]
      rw [lookupField, if_pos hq]
      simp [fieldKeys, hq]
    · rw [show q = (q.1, q.2) from rfl]
      rw [lookupField, if_neg hq]
      simp only [fieldKeys, List.map_cons, List.mem_cons]
      constructor
      · intro h hk
        rcases hk with hk | hk
        · exact hq hk.symm
        · exact (ih.mp h) hk
      · intro h
        exact ih.mpr (fun hk => h (Or.inr hk))

theorem lookupField_of_nodup_mem {l : List (String × JsonValue)} {k : String} {v : JsonValue}
    (hn : (fieldKeys l).Nodup) (h : (k, v) ∈ l) : lookupField l k = some v := by
  induction l with
  | nil => exact absurd h (List.not_mem_nil _)
  | cons q qs ih =>
    rcases List.nodup_cons.mp hn with ⟨hq1, hq2⟩
    rcases List.mem_cons.mp h with h | h
    · rw [← h]
      rw [lookupField, if_pos rfl]
    · by_cases hq : q.1 = k
      · exfalso
        apply hq1
        rw [hq]
        exact List.mem_map.mpr ⟨(k, v), h, rfl⟩
      · rw [show q = (q.1, q.2) from rfl]
        rw [lookupField, if_neg hq]
        exact ih hq2 h

theorem fieldKeys_perm {l l' : List (String × JsonValue)} (h : l.Perm l') :
    (fieldKeys l).Perm (fieldKeys l') := h.map Prod.fst

theorem lookupField_perm_eq {l l' : List (String × JsonValue)} {k : String}
    (hp : l.Perm l') (hn : (fieldKeys l).Nodup) :
    lookupField l k = lookupField l' k := by
  have hn' : (fieldKeys l').Nodup := (fieldKeys_perm hp).nodup_iff.mp hn
  rcases h1 : lookupField l k with _ | v
  · rcases h2 : lookupField l' k with _ | v'
    · rfl
    · exfalso
      have := lookupField_mem h2
      have hm : (k, v') ∈ l := hp.mem_iff.mpr this
      rw [lookupField_of_nodup_mem hn hm] at h1
      exact Option.noConfusion h1
  · have hm : (k, v) ∈ l' := hp.mem_iff.mp (lookupField_mem h1)
    rw [lookupField_of_nodup_mem hn' hm]

theorem lookupField_append_eq (xs ys : List (String × JsonValue)) (k : String) :
    lookupField (xs ++ ys) k =
      match lookupField xs k with
      | some v => some v
      | none => lookupField ys k := by
  induction xs with
  | nil => rfl
  | cons q qs ih =>
    by_cases hq : q.1 = k
    · rw [show q = (q.1, q.2) from rfl]
      rw [List.cons_append, lookupField, lookupField, if_pos hq, if_pos hq]
    · rw [show q = (q.1, q.2) from rfl]
      rw [List.cons_append, lookupField, lookupField, if_neg hq, if_neg hq]
      exact ih

/- ===== canonFields and jsDedup lemmas ===== -/

theorem canonFields_eq_map : ∀ fs : List (String × JsonValue),
    canonFields fs = fs.map (fun p => (p.1, canon p.2)) := by
  intro fs
  induction fs with
  | nil => rfl
  | cons p ps ih =>
    cases p with
    | mk k v => simp [canonFields, ih]

theorem fieldKeys_canonFields (fs : List (String × JsonValue)) :
    fieldKeys (canonFields fs) = fieldKeys fs := by
  induction fs with
  | nil => rfl
  | cons p ps ih =>
    cases p with
    | mk k v =>
      simp only [canonFields, fieldKeys, List.map_cons]
      exact congrArg (List.cons k) ih

theorem lookupField_canonFields (fs : List (String × JsonValue)) (k : String) :
    lookupField (canonFields fs) k = Option.map canon (lookupField fs k) := by
  induction fs with
  | nil => rfl
  | cons p ps ih =>
    cases p with
    | mk l v =>
      by_cases hl : l = k
      · rw [canonFields, lookupField, lookupField, if_pos hl, if_pos hl]
        rfl
      · rw [canonFields, lookupField, lookupField, if_neg hl, if_neg hl]
        exact ih

theorem nodup_addKeyUnique {l : List String} {k : String} (h : l.Nodup) :
    (addKeyUnique l k).Nodup := by
  unfold addKeyUnique
  by_cases hk : k ∈ l
  · rw [if_pos hk]
    exact h
  · rw [if_neg hk]
    rw [List.nodup_append]
    refine ⟨h, List.nodup_singleton k, ?_⟩
    intro x hx hxk
    rw [List.mem_singleton] at hxk
    exact hk (hxk ▸ hx)

theorem nodup_foldl_addKeyUnique : ∀ (l acc : List String), acc.Nodup →
    (l.foldl addKeyUnique acc).Nodup := by
  intro l
  induction l with
  | nil => intro acc h; exact h
  | cons k ks ih =>
    intro acc h
    rw [List.foldl_cons]
    exact ih _ (nodup_addKeyUnique h)

theorem jsDedup_nodup (l : List String) : (jsDedup l).Nodup :=
  nodup_foldl_addKeyUnique l [] List.nodup_nil

/- ===== Extensionality for sorted field lists ===== -/

theorem sorted_lookup_ext :
    ∀ (fs gs : List (String × JsonValue)),
      fs.Pairwise (fun x y => jsStrLe x.1 y.1 = true) →
      gs.Pairwise (fun x y => jsStrLe x.1 y.1 = true) →
      (fieldKeys fs).Nodup → (fieldKeys gs).Nodup →
      (∀ k, lookupField fs k = lookupField gs k) → fs = gs := by
  intro fs
  induction fs with
  | nil =>
    intro gs _ _ _ _ hl
    cases gs with
    | nil => rfl
    | cons q qs =>
      exfalso
      cases q with
      | mk b vb =>
        have h1 := hl b
        rw [lookupField, lookupField, if_pos rfl] at h1
        exact Option.noConfusion h1
  | cons p ps ih =>
    intro gs hsf hsg hnf hng hl
    cases p with
    | mk a va =>
      cases gs with
      | nil =>
        exfalso
        have h1 := hl a
        rw [lookupField, lookupField, if_pos rfl] at h1
        exact Option.noConfusion h1
      | cons q qs =>
        cases q with
        | mk b vb =>
          have hla : lookupField ((a, va) :: ps) a = some va := by
            rw [lookupField, if_pos rfl]
          have hlb : lookupField ((b, vb) :: qs) b = some vb := by
            rw [lookupField, if_pos rfl]
          have hmemg : (a, va) ∈ (b, vb) :: qs := by
            apply lookupField_mem
            rw [← hl a]
            exact hla
          have hmemf : (b, vb) ∈ (a, va) :: ps := by
            apply lookupField_mem
            rw [hl b]
            exact hlb
          have hab : a = b := by
            by_cases hab : a = b
            · exact hab
            · exfalso
              rcases List.mem_cons.mp hmemg with heq | hmem1
              · exact hab (congrArg Prod.fst heq)
              · rcases List.mem_cons.mp hmemf with heq | hmem2
                · exact hab (congrArg Prod.fst heq).symm
                · have h1 : jsStrLe b a = true :=
                    (List.pairwise_cons.mp hsg).1 (a, va) hmem1
                  have h2 : jsStrLe a b = true :=
                    (List.pairwise_cons.mp hsf).1 (b, vb) hmem2
                  exact hab (jsStrLe_antisymm h2 h1)
          subst hab
          have hv : va = vb := by
            have h1 := hl a
            rw [lookupField, lookupField, if_pos rfl, if_pos rfl] at h1
            exact Option.some.inj h1
          subst hv
          have hnf2 : (fieldKeys ps).Nodup := (List.nodup_cons.mp hnf).2
          have hng2 : (fieldKeys qs).Nodup := (List.nodup_cons.mp hng).2
          have hfa : a ∉ fieldKeys ps := (List.nodup_cons.mp hnf).1
          have hga : a ∉ fieldKeys qs := (List.nodup_cons.mp hng).1
          have htails : ps = qs := by
            apply ih qs (List.pairwise_cons.mp hsf).2 (List.pairwise_cons.mp hsg).2 hnf2 hng2
            intro k
            by_cases hk : a = k
            · subst hk
              rw [lookupField_none_iff.mpr hfa, lookupField_none_iff.mpr hga]
            · have h1 := hl k
              rw [lookupField, lookupField, if_neg hk, if_neg hk] at h1
              exact h1
          rw [htails]

/-- Extensionality for deep-equality of records: two field lists with
unique field names and canon-equal lookups at every name are isEqual as
objects. -/
theorem fieldsEqual_of_lookup {fs gs : List (String × JsonValue)}
    (hnf : (fieldKeys fs).Nodup) (hng : (fieldKeys gs).Nodup)
    (h : ∀ k, Option.map canon (lookupField fs k) = Option.map canon (lookupField gs k)) :
    fieldsEqual fs gs = true := by
  unfold fieldsEqual isEqual
  rw [jbeq_iff]
  show JsonValue.obj (sortFields (canonFields fs)) = JsonValue.obj (sortFields (canonFields gs))
  have hnf2 : (fieldKeys (sortFields (canonFields fs))).Nodup := by
    rw [(fieldKeys_perm (sortFields_perm (canonFields fs))).nodup_iff, fieldKeys_canonFields]
    exact hnf
  have hng2 : (fieldKeys (sortFields (canonFields gs))).Nodup := by
    rw [(fieldKeys_perm (sortFields_perm (canonFields gs))).nodup_iff, fieldKeys_canonFields]
    exact hng
  have heq : sortFields (canonFields fs) = sortFields (canonFields gs) := by
    apply sorted_lookup_ext _ _ (sortFields_pairwise _) (sortFields_pairwise _) hnf2 hng2
    intro k
    rw [lookupField_perm_eq (sortFields_perm (canonFields fs)) hnf2,
      lookupField_perm_eq (sortFields_perm (canonFields gs)) hng2,
      lookupField_canonFields, lookupField_canonFields]
    exact h k
  rw [heq]

/- ===== calculateFieldChanges membership and applyChanges lookups ===== -/

theorem lookupField_some_mem_keys {l : List (String × JsonValue)} {k : String} {v : JsonValue}
    (h : lookupField l k = some v) : k ∈ fieldKeys l :=
  List.mem_map.mpr ⟨(k, v), lookupField_mem h, rfl⟩

theorem any_fst_eq {R : List (String × JsonValue)} {k : String} :
    R.any (fun q => q.1 = k) = true ↔ k ∈ fieldKeys R := by
  rw [List.any_eq_true]
  constructor
  · rintro ⟨q, hq, hqk⟩
    exact List.mem_map.mpr ⟨q, hq, of_decide_eq_true hqk⟩
  · intro h
    rcases List.mem_map.mp h with ⟨q, hq, hqk⟩
    exact ⟨q, hq, decide_eq_true hqk⟩

theorem mem_calc_added {o1 o2 : List (String × JsonValue)} {p : String × JsonValue}
    (h : p ∈ (calculateFieldChanges o1 o2).added) :
    lookupField o1 p.1 = none ∧ lookupField o2 p.1 = some p.2 := by
  simp only [calculateFieldChanges] at h
  rw [List.mem_filterMap] at h
  obtain ⟨k, _, hk⟩ := h
  rcases h1 : lookupField o1 k with _ | v1 <;> rw [h1] at hk
  · rcases h2 : lookupField o2 k with _ | v2 <;> rw [h2] at hk
    · exact Option.noConfusion hk
    · simp only [] at hk
      injection hk with hk
      subst hk
      exact ⟨h1, h2⟩
  · rcases h2 : lookupField o2 k with _ | v2 <;> rw [h2] at hk <;>
      exact Option.noConfusion hk

theorem mem_calc_removed {o1 o2 : List (String × JsonValue)} {p : String × JsonValue}
    (h : p ∈ (calculateFieldChanges o1 o2).removed) :
    lookupField o1 p.1 = some p.2 ∧ lookupField o2 p.1 = none := by
  simp only [calculateFieldChanges] at h
  rw [List.mem_filterMap] at h
  obtain ⟨k, _, hk⟩ := h
  rcases h1 : lookupField o1 k with _ | v1 <;> rw [h1] at hk
  · rcases h2 : lookupField o2 k with _ | v2 <;> rw [h2] at hk <;>
      exact Option.noConfusion hk
  · rcases h2 : lookupField o2 k with _ | v2 <;> rw [h2] at hk
    · simp only [] at hk
      injection hk with hk
      subst hk
      exact ⟨h1, h2⟩
    · exact Option.noConfusion hk

theorem mem_calc_changed_intro {o1 o2 : List (String × JsonValue)} {k : String}
    {v1 v2 : JsonValue} (h1 : lookupField o1 k = some v1) (h2 : lookupField o2 k = some v2)
    (hne : isEqual v1 v2 = false) :
    (k, v1, v2) ∈ (calculateFieldChanges o1 o2).changed := by
  simp only [calculateFieldChanges]
  rw [List.mem_filterMap]
  refine ⟨k, ?_, ?_⟩
  · rw [mem_jsDedup, List.mem_append]
    exact Or.inl (lookupField_some_mem_keys h1)
  · rw [h1, h2]
    simp only []
    rw [if_neg (by rw [hne]; exact Bool.false_ne_true)]

theorem mkChanges_eq (kf : String) (be ae : MapEntry) :
    mkChanges kf be ae =
      calculateFieldChanges (fieldsOfItem be.item) (fieldsOfItem ae.item) := by
  simp only [mkChanges]
  split
  · next hcond =>
    exfalso
    rw [Bool.and_eq_true] at hcond
    rcases hcond with ⟨hany, hopt⟩
    rcases List.any_eq_true.mp hany with ⟨c, hc, hck⟩
    obtain ⟨l1, l2, hne⟩ := mem_calc_changed hc
    have hck2 : c.1 = kf := of_decide_eq_true hck
    rw [hck2] at l1 l2
    rw [l1, l2] at hopt
    simp only [isEqualOpt] at hopt
    rw [hne] at hopt
    exact Bool.false_ne_true hopt
  · rfl

theorem lookupField_cons_ne {x : String × JsonValue} {rest : List (String × JsonValue)}
    {k : String} (h : x.1 ≠ k) : lookupField (x :: rest) k = lookupField rest k := by
  cases x with
  | mk l v => rw [lookupField, if_neg h]

theorem lookupField_filterMap {f : String → Option (String × JsonValue)}
    (hf : ∀ x p, f x = some p → p.1 = x) :
    ∀ (l : List String) (k : String),
      lookupField (l.filterMap f) k = if k ∈ l then Option.map Prod.snd (f k) else none := by
  intro l
  induction l with
  | nil =>
    intro k
    rw [if_neg (List.not_mem_nil k)]
    rfl
  | cons x xs ih =>
    intro k
    rcases hfx : f x with _ | p
    · rw [List.filterMap_cons_none hfx, ih]
      by_cases hk : k = x
      · subst hk
        rw [if_pos (List.mem_cons_self k xs), hfx]
        by_cases hx2 : k ∈ xs
        · rw [if_pos hx2]
        · rw [if_neg hx2]
          rfl
      · have hcond : (if k ∈ x :: xs then Option.map Prod.snd (f k) else none)
            = (if k ∈ xs then Option.map Prod.snd (f k) else none) := by
          by_cases hx2 : k ∈ xs
          · rw [if_pos hx2, if_pos (List.mem_cons_of_mem x hx2)]
          · rw [if_neg hx2,
              if_neg (fun hc => (List.mem_cons.mp hc).elim (fun h => hk h) hx2)]
        rw [hcond]
    · have hp1 : p.1 = x := hf x p hfx
      rw [List.filterMap_cons_some hfx]
      by_cases hk : k = x
      · subst hk
        rw [show lookupField (p :: List.filterMap f xs) k = some p.2 from by
          cases p with
          | mk a b =>
            rw [lookupField, if_pos hp1]]
        rw [if_pos (List.mem_cons_self k xs), hfx]
        rfl
      · rw [lookupField_cons_ne (fun hc => hk (hc.symm.trans hp1))]
        rw [ih]
        have hcond : (if k ∈ x :: xs then Option.map Prod.snd (f k) else none)
            = (if k ∈ xs then Option.map Prod.snd (f k) else none) := by
          by_cases hx2 : k ∈ xs
          · rw [if_pos hx2, if_pos (List.mem_cons_of_mem x hx2)]
          · rw [if_neg hx2,
              if_neg (fun hc => (List.mem_cons.mp hc).elim (fun h => hk h) hx2)]
        rw [hcond]

theorem fieldKeys_filterMap_sublist {f : String → Option (String × JsonValue)}
    (hf : ∀ x p, f x = some p → p.1 = x) :
    ∀ l : List String, (fieldKeys (l.filterMap f)).Sublist l := by
  intro l
  induction l with
  | nil => exact List.Sublist.refl _
  | cons x xs ih =>
    rcases hfx : f x with _ | p
    · rw [List.filterMap_cons_none hfx]
      exact List.Sublist.cons x ih
    · rw [List.filterMap_cons_some hfx]
      rw [show fieldKeys (p :: List.filterMap f xs) = x :: fieldKeys (List.filterMap f xs) from by
        rw [fieldKeys, List.map_cons, hf x p hfx]
        rfl]
      exact List.Sublist.cons₂ x ih

theorem lookupField_filter_map_core
    (R : List (String × JsonValue)) (C : List (String × JsonValue × JsonValue)) :
    ∀ (o1 : List (String × JsonValue)) (k : String),
    lookupField ((o1.filter (fun p => ¬ R.any (fun q => q.1 = p.1))).map (fun p =>
      match C.find? (fun c => c.1 = p.1) with
      | some c => (p.1, c.2.2)
      | none => p)) k
    = (lookupField o1 k).bind (fun v =>
        if R.any (fun q => q.1 = k) = true then none
        else match C.find? (fun c => c.1 = k) with
          | some c => some c.2.2
          | none => some v) := by
  intro o1
  induction o1 with
  | nil => intro k; rfl
  | cons p ps ih =>
    intro k
    cases p with
    | mk l v =>
      by_cases hR : R.any (fun q => q.1 = l) = true
      · have hfilter : List.filter (fun p => ¬ R.any (fun q => q.1 = p.1)) ((l, v) :: ps)
            = List.filter (fun p => ¬ R.any (fun q => q.1 = p.1)) ps := by
          rw [List.filter_cons]
          simp [hR]
        rw [hfilter, ih]
        by_cases hl : l = k
        · subst hl
          rw [lookupField, if_pos rfl]
          simp only [Option.some_bind]
          rw [if_pos hR]
          rcases h2 : lookupField ps l with _ | v2
          · simp only [Option.none_bind]
          · simp only [Option.some_bind]
            rw [if_pos hR]
        · rw [lookupField, if_neg hl]
      · have hfilter : List.filter (fun p => ¬ R.any (fun q => q.1 = p.1)) ((l, v) :: ps)
            = (l, v) :: List.filter (fun p => ¬ R.any (fun q => q.1 = p.1)) ps := by
          rw [List.filter_cons]
          simp [hR]
        rw [hfilter, List.map_cons]
        by_cases hl : l = k
        · subst hl
          conv_rhs => rw [lookupField, if_pos rfl]
          simp only [Option.some_bind]
          rw [if_neg hR]
          rcases hfind : C.find? (fun c => c.1 = l) with _ | c
          · simp only [hfind]
            rw [lookupField, if_pos rfl]
          · simp only [hfind]
            rw [lookupField, if_pos rfl]
        · rcases hfind : C.find? (fun c => c.1 = l) with _ | c
          · simp only [hfind]
            rw [lookupField_cons_ne (x := ((l, v) : String × JsonValue)) hl]
            rw [ih, lookupField, if_neg hl]
          · simp only [hfind]
            rw [lookupField_cons_ne (x := ((l, c.2.2) : String × JsonValue)) hl]
            rw [ih, lookupField, if_neg hl]

theorem applyChanges_calc_lookup (o1 o2 : List (String × JsonValue)) (k : String) :
    Option.map canon (lookupField (applyChanges o1 (calculateFieldChanges o1 o2)) k)
      = Option.map canon (lookupField o2 k) := by
  have hadd : (calculateFieldChanges o1 o2).added
      = (jsDedup (fieldKeys o1 ++ fieldKeys o2)).filterMap (fun x =>
          match lookupField o1 x, lookupField o2 x with
          | none, some v2 => some (x, v2)
          | _, _ => none) := rfl
  have hrem : (calculateFieldChanges o1 o2).removed
      = (jsDedup (fieldKeys o1 ++ fieldKeys o2)).filterMap (fun x =>
          match lookupField o1 x, lookupField o2 x with
          | some v1, none => some (x, v1)
          | _, _ => none) := rfl
  have hf_add : ∀ (x : String) (p : String × JsonValue),
      (match lookupField o1 x, lookupField o2 x with
       | none, some v2 => some (x, v2)
       | _, _ => none) = some p → p.1 = x := by
    intro x p hp
    rcases ho1 : lookupField o1 x with _ | v1 <;> rw [ho1] at hp
    · rcases ho2 : lookupField o2 x with _ | v2 <;> rw [ho2] at hp
      · exact Option.noConfusion hp
      · simp only [] at hp
        injection hp with hp
        rw [← hp]
    · rcases ho2 : lookupField o2 x with _ | v2 <;> rw [ho2] at hp <;>
        exact Option.noConfusion hp
  unfold applyChanges
  rw [lookupField_append_eq]
  rw [lookupField_filter_map_core]
  rcases h1 : lookupField o1 k with _ | v1 <;> rcases h2 : lookupField o2 k with _ | v2
  · simp only [Option.none_bind]
    show Option.map canon (lookupField (calculateFieldChanges o1 o2).added k)
      = Option.map canon none
    rw [hadd, lookupField_filterMap hf_add, h1, h2]
    by_cases hk : k ∈ jsDedup (fieldKeys o1 ++ fieldKeys o2) <;> simp [hk]
  · simp only [Option.none_bind]
    show Option.map canon (lookupField (calculateFieldChanges o1 o2).added k)
      = Option.map canon (some v2)
    rw [hadd, lookupField_filterMap hf_add, h1, h2]
    have hk : k ∈ jsDedup (fieldKeys o1 ++ fieldKeys o2) :=
      mem_jsDedup.mpr (List.mem_append.mpr (Or.inr (lookupField_some_mem_keys h2)))
    rw [if_pos hk]
    rfl
  · simp only [Option.some_bind]
    have hmemrem : ((k, v1) : String × JsonValue) ∈ (calculateFieldChanges o1 o2).removed := by
      rw [hrem, List.mem_filterMap]
      refine ⟨k, mem_jsDedup.mpr (List.mem_append.mpr (Or.inl (lookupField_some_mem_keys h1))), ?_⟩
      rw [h1, h2]
    have hRk : (calculateFieldChanges o1 o2).removed.any (fun q => q.1 = k) = true := by
      rw [any_fst_eq]
      exact List.mem_map.mpr ⟨(k, v1), hmemrem, rfl⟩
    rw [if_pos hRk]
    show Option.map canon (lookupField (calculateFieldChanges o1 o2).added k)
      = Option.map canon none
    rw [hadd, lookupField_filterMap hf_add, h1, h2]
    by_cases hk : k ∈ jsDedup (fieldKeys o1 ++ fieldKeys o2) <;> simp [hk]
  · simp only [Option.some_bind]
    have hRk : ¬ ((calculateFieldChanges o1 o2).removed.any (fun q => q.1 = k) = true) := by
      intro hcon
      rcases List.mem_map.mp (any_fst_eq.mp hcon) with ⟨q, hq, hqk⟩
      obtain ⟨l1, l2⟩ := mem_calc_removed hq
      rw [hqk, h2] at l2
      exact Option.noConfusion l2
    rw [if_neg hRk]
    by_cases hE : isEqual v1 v2 = true
    · rcases hfind : (calculateFieldChanges o1 o2).changed.find? (fun c => c.1 = k) with _ | c
      · rw [hfind]
        show some (canon v1) = some (canon v2)
        rw [(isEqual_iff_canon v1 v2).mp hE]
      · exfalso
        have hck0 := List.find?_some hfind
        have hck : c.1 = k := of_decide_eq_true hck0
        obtain ⟨l1, l2, hne⟩ := mem_calc_changed (List.mem_of_find?_eq_some hfind)
        rw [hck, h1] at l1
        rw [hck, h2] at l2
        injection l1 with l1
        injection l2 with l2
        rw [← l1, ← l2] at hne
        rw [hE] at hne
        exact Bool.noConfusion hne
    · have hmemch : ((k, v1, v2) : String × JsonValue × JsonValue)
          ∈ (calculateFieldChanges o1 o2).changed :=
        mem_calc_changed_intro h1 h2 (Bool.eq_false_iff.mpr hE)
      rcases hfind : (calculateFieldChanges o1 o2).changed.find? (fun c => c.1 = k) with _ | c
      · exfalso
        exact List.find?_eq_none.mp hfind (k, v1, v2) hmemch (decide_eq_true rfl)
      · rw [hfind]
        have hck0 := List.find?_some hfind
        have hck : c.1 = k := of_decide_eq_true hck0
        obtain ⟨l1, l2, hne⟩ := mem_calc_changed (List.mem_of_find?_eq_some hfind)
        rw [hck, h2] at l2
        injection l2 with l2
        show some (canon c.2.2) = some (canon v2)
        rw [l2]

theorem fieldKeys_append (xs ys : List (String × JsonValue)) :
    fieldKeys (xs ++ ys) = fieldKeys xs ++ fieldKeys ys :=
  List.map_append _ _ _

theorem applyChanges_keys_nodup {o1 o2 : List (String × JsonValue)}
    (hn1 : (fieldKeys o1).Nodup) :
    (fieldKeys (applyChanges o1 (calculateFieldChanges o1 o2))).Nodup := by
  have hadd : (calculateFieldChanges o1 o2).added
      = (jsDedup (fieldKeys o1 ++ fieldKeys o2)).filterMap (fun x =>
          match lookupField o1 x, lookupField o2 x with
          | none, some v2 => some (x, v2)
          | _, _ => none) := rfl
  have hf_add : ∀ (x : String) (p : String × JsonValue),
      (match lookupField o1 x, lookupField o2 x with
       | none, some v2 => some (x, v2)
       | _, _ => none) = some p → p.1 = x := by
    intro x p hp
    rcases ho1 : lookupField o1 x with _ | v1 <;> rw [ho1] at hp
    · rcases ho2 : lookupField o2 x with _ | v2 <;> rw [ho2] at hp
      · exact Option.noConfusion hp
      · simp only [] at hp
        injection hp with hp
        rw [← hp]
    · rcases ho2 : lookupField o2 x with _ | v2 <;> rw [ho2] at hp <;>
        exact Option.noConfusion hp
  have hkeys : fieldKeys ((o1.filter (fun p =>
        ¬ (calculateFieldChanges o1 o2).removed.any (fun q => q.1 = p.1))).map (fun p =>
      match (calculateFieldChanges o1 o2).changed.find? (fun c => c.1 = p.1) with
      | some c => (p.1, c.2.2)
      | none => p))
      = fieldKeys (o1.filter (fun p =>
        ¬ (calculateFieldChanges o1 o2).removed.any (fun q => q.1 = p.1))) := by
    unfold fieldKeys
    rw [List.map_map]
    apply List.map_congr_left
    intro p hp
    show ((match (calculateFieldChanges o1 o2).changed.find? (fun c => c.1 = p.1) with
      | some c => (p.1, c.2.2)
      | none => p : String × JsonValue)).1 = p.1
    rcases hfind : (calculateFieldChanges o1 o2).changed.find? (fun c => c.1 = p.1) with _ | c <;>
      rw [hfind]
  unfold applyChanges
  rw [fieldKeys_append, List.nodup_append]
  refine ⟨?_, ?_, ?_⟩
  · rw [hkeys]
    exact List.Nodup.sublist ((List.filter_sublist o1).map Prod.fst) hn1
  · rw [hadd]
    exact List.Nodup.sublist (fieldKeys_filterMap_sublist hf_add _) (jsDedup_nodup _)
  · intro x hx1 hx2
    rcases List.mem_map.mp hx2 with ⟨p, hp, hpx⟩
    obtain ⟨hl1, hl2⟩ := mem_calc_added hp
    rw [hpx] at hl1
    rw [hkeys] at hx1
    have hx3 : x ∈ fieldKeys o1 :=
      (List.Sublist.subset ((List.filter_sublist o1).map Prod.fst)) hx1
    exact (lookupField_none_iff.mp hl1) hx3

theorem topNodup_keys {v : JsonValue} {fs : List (String × JsonValue)}
    (h : topNodup v = true) (hf : jsFields v = some fs) : (fieldKeys fs).Nodup := by
  unfold topNodup at h
  rw [hf] at h
  exact of_decide_eq_true h

/-- C3: for every modified entry of an ok run on inputs whose records have
unique top-level field names (as JSON.parse guarantees), applying the
ChangeSet to the before record - deleting removed fields, replacing
changed fields by their after values and appending added fields -
reconstructs the after record up to deep equality of records. -/
theorem compareJsons_apply_changes {b a : List JsonValue} {cfg : SelectedKeyConfig}
    {r : ComparisonResult} {m : ModifiedEntry}
    (hb : ∀ v ∈ b, topNodup v = true) (ha : ∀ v ∈ a, topNodup v = true)
    (h : compareJsons b a cfg = Except.ok r) (hm : m ∈ r.modifiedEntries) :
    fieldsEqual (applyChanges (fieldsOfItem m.before) m.changes)
      (fieldsOfItem m.after) = true := by
  obtain ⟨hnew, hmod, hdel, herr⟩ := compareJsons_ok_elim h
  rw [hmod] at hm
  obtain ⟨kv, ae, be, ham, hbm, hsig, hbef, haft, hkfv, hneq, hch⟩ :=
    (@preLists_spec b a cfg).2.1 m hm
  obtain ⟨hmemb, fsb, hfb, -, -, -⟩ := buildSideMap_valid hbm
  obtain ⟨hmema, fsa, hfa, -, -, -⟩ := buildSideMap_valid ham
  have hfob : fieldsOfItem be.item = fsb := by
    unfold fieldsOfItem
    rw [hfb]
    rfl
  have hfoa : fieldsOfItem ae.item = fsa := by
    unfold fieldsOfItem
    rw [hfa]
    rfl
  have hnb : (fieldKeys fsb).Nodup := topNodup_keys (hb be.item hmemb) hfb
  have hna : (fieldKeys fsa).Nodup := topNodup_keys (ha ae.item hmema) hfa
  rw [hch, mkChanges_eq, hbef, haft, hfob, hfoa]
  exact fieldsEqual_of_lookup (applyChanges_keys_nodup hnb) hna
    (fun k => applyChanges_calc_lookup fsb fsa k)

/-- Witness for C3: in a concrete run whose single modified entry changes
the name field, applying the ChangeSet to the before record reconstructs
the after record. -/
theorem compareJsons_apply_changes_witness :
    fieldsEqual (applyChanges (fieldsOfItem (JsonValue.obj
        [("id", JsonValue.str "1"), ("name", JsonValue.str "Alice")]))
        ⟨[], [], [("name", JsonValue.str "Alice", JsonValue.str "Alicia")]⟩)
      (fieldsOfItem (JsonValue.obj
        [("id", JsonValue.str "1"), ("name", JsonValue.str "Alicia")])) = true :=
  @compareJsons_apply_changes wBefore1 wAfter1 wCfg1 wResult1
    ⟨"1", "id", "id,name",
      JsonValue.obj [("id", JsonValue.str "1"), ("name", JsonValue.str "Alice")],
      JsonValue.obj [("id", JsonValue.str "1"), ("name", JsonValue.str "Alicia")],
      ⟨[], [], [("name", JsonValue.str "Alice", JsonValue.str "Alicia")]⟩⟩
    (by decide) (by decide) (by decide) (by decide)

/- ===== resolveKeys lemmas ===== -/

theorem updateCfg_self (c : SelectedKeyConfig) (sig k : String) :
    updateCfg c sig k sig = some k := by
  simp [updateCfg]

theorem resolveStep_other {c : SelectedKeyConfig} {s : JsonObjectStructure} {sig : String}
    (h : s.signature ≠ sig) :
    (if s.potentialKeyFields.length = 1 ∧ getKey c s.signature = none then
      updateCfg c s.signature (s.potentialKeyFields.headD "") else c) sig = c sig := by
  split
  · simp only [updateCfg]
    rw [if_neg (fun hc : sig = s.signature => h hc.symm)]
  · rfl

theorem resolveFold_other : ∀ (L : List JsonObjectStructure) (c : SelectedKeyConfig)
    (sig : String), (∀ s ∈ L, s.signature ≠ sig) →
    (L.foldl (fun c s =>
      if s.potentialKeyFields.length = 1 ∧ getKey c s.signature = none then
        updateCfg c s.signature (s.potentialKeyFields.headD "") else c) c) sig = c sig := by
  intro L
  induction L with
  | nil => intro c sig _; rfl
  | cons t ts ih =>
    intro c sig h
    rw [List.foldl_cons]
    rw [ih _ sig (fun s hs => h s (List.mem_cons_of_mem t hs))]
    exact resolveStep_other (h t (List.mem_cons_self t ts))

theorem getKey_some_of_entry {c : SelectedKeyConfig} {sig k : String}
    (hc : c sig = some k) (hk : k ≠ "") : getKey c sig = some k := by
  unfold getKey
  rw [hc]
  show (if k = "" then none else some k) = some k
  rw [if_neg hk]

theorem resolveFold_sticky : ∀ (L : List JsonObjectStructure) (c : SelectedKeyConfig)
    (sig k : String), c sig = some k → k ≠ "" →
    (L.foldl (fun c s =>
      if s.potentialKeyFields.length = 1 ∧ getKey c s.signature = none then
        updateCfg c s.signature (s.potentialKeyFields.headD "") else c) c) sig = some k := by
  intro L
  induction L with
  | nil => intro c sig k hc _; exact hc
  | cons t ts ih =>
    intro c sig k hc hk
    rw [List.foldl_cons]
    apply ih _ sig k _ hk
    by_cases ht : t.signature = sig
    · rw [show (if t.potentialKeyFields.length = 1 ∧ getKey c t.signature = none then
          updateCfg c t.signature (t.potentialKeyFields.headD "") else c) = c from by
        rw [if_neg]
        intro hcon
        rw [ht, getKey_some_of_entry hc hk] at hcon
        exact Option.noConfusion hcon.2]
      exact hc
    · rw [resolveStep_other ht]
      exact hc

theorem getKey_congr {c1 c2 : SelectedKeyConfig} {sig : String} (h : c1 sig = c2 sig) :
    getKey c1 sig = getKey c2 sig := by
  unfold getKey
  rw [h]

theorem resolveFold_select : ∀ (L : List JsonObjectStructure) (c : SelectedKeyConfig),
    (L.map (fun t => t.signature)).Nodup → ∀ s ∈ L,
    s.potentialKeyFields.length = 1 → getKey c s.signature = none →
    (L.foldl (fun c s =>
      if s.potentialKeyFields.length = 1 ∧ getKey c s.signature = none then
        updateCfg c s.signature (s.potentialKeyFields.headD "") else c) c) s.signature
      = some (s.potentialKeyFields.headD "") := by
  intro L
  induction L with
  | nil => intro c _ s hs; exact absurd hs (List.not_mem_nil s)
  | cons t ts ih =>
    intro c hnd s hs h1 h2
    rcases List.nodup_cons.mp hnd with ⟨hnd1, hnd2⟩
    rw [List.foldl_cons]
    rcases List.mem_cons.mp hs with rfl | hs2
    · rw [show (if s.potentialKeyFields.length = 1 ∧ getKey c s.signature = none then
          updateCfg c s.signature (s.potentialKeyFields.headD "") else c)
          = updateCfg c s.signature (s.potentialKeyFields.headD "") from by
        rw [if_pos ⟨h1, h2⟩]]
      rw [resolveFold_other ts _ s.signature (fun t' ht' heq =>
        hnd1 (List.mem_map.mpr ⟨t', ht', heq⟩))]
      exact updateCfg_self c s.signature _
    · have htne : t.signature ≠ s.signature := fun heq =>
        hnd1 (List.mem_map.mpr ⟨s, hs2, heq.symm⟩)
      have hother := resolveStep_other (c := c) htne
      apply ih _ hnd2 s hs2 h1
      rw [getKey_congr hother]
      exact h2

theorem setStructure_sigs {m : List JsonObjectStructure} {s : JsonObjectStructure} :
    ((setStructure m s).map (fun t => t.signature)).Nodup ↔
      (((if m.any (fun t => t.signature = s.signature) then m else m ++ [s]).map
        (fun t => t.signature)).Nodup) := by
  unfold setStructure
  split
  · next hany =>
    rw [List.map_map]
    have hcomp : ((fun t : JsonObjectStructure => t.signature) ∘
        (fun t => if t.signature = s.signature then s else t)) =
        (fun t : JsonObjectStructure => t.signature) := by
      funext t
      show (if t.signature = s.signature then s else t).signature = t.signature
      split
      · next heq => rw [heq]
      · rfl
    rw [hcomp]
  · exact Iff.rfl

theorem setStructure_sigs_nodup {m : List JsonObjectStructure} {s : JsonObjectStructure}
    (h : (m.map (fun t => t.signature)).Nodup) :
    ((setStructure m s).map (fun t => t.signature)).Nodup := by
  rw [setStructure_sigs]
  split
  · exact h
  · next hany =>
    rw [List.map_append]
    rw [List.nodup_append]
    refine ⟨h, ?_, ?_⟩
    · rw [List.map_singleton]
      exact List.nodup_singleton _
    · intro x hx hxs
      rcases List.mem_map.mp hxs with ⟨t0, ht0, ht0x⟩
      rw [List.mem_singleton] at ht0
      rcases List.mem_map.mp hx with ⟨t, ht, htx⟩
      apply hany
      rw [List.any_eq_true]
      refine ⟨t, ht, decide_eq_true ?_⟩
      rw [htx, ← ht0x, ht0]

theorem combineStructures_sigs_nodup (bS aS : List JsonObjectStructure) :
    ((combineStructures bS aS).map (fun t => t.signature)).Nodup := by
  unfold combineStructures
  have hbase : ∀ (L : List JsonObjectStructure) (m : List JsonObjectStructure),
      (m.map (fun t => t.signature)).Nodup →
      ((L.foldl setStructure m).map (fun t => t.signature)).Nodup := by
    intro L
    induction L with
    | nil => intro m h; exact h
    | cons x xs ih =>
      intro m h
      rw [List.foldl_cons]
      exact ih _ (setStructure_sigs_nodup h)
  have hstep : ∀ (L : List JsonObjectStructure) (m : List JsonObjectStructure),
      (m.map (fun t => t.signature)).Nodup →
      ((L.foldl (fun acc s =>
        match acc.find? (fun t => t.signature == s.signature) with
        | none => setStructure acc s
        | some t => if t.potentialKeyFields.length = 0 then setStructure acc s else acc) m).map
        (fun t => t.signature)).Nodup := by
    intro L
    induction L with
    | nil => intro m h; exact h
    | cons x xs ih =>
      intro m h
      rw [List.foldl_cons]
      apply ih
      rcases hfind : m.find? (fun t => t.signature == x.signature) with _ | t
      · rw [hfind]
        exact setStructure_sigs_nodup h
      · rw [hfind]
        show ((if t.potentialKeyFields.length = 0 then setStructure m x else m).map
          (fun t => t.signature)).Nodup
        split
        · exact setStructure_sigs_nodup h
        · exact h
  exact hstep aS _ (hbase bS [] List.nodup_nil)

/-- C5 (amended): resolveKeys never changes a non-empty mapping entry, and
for every structure of the combined inventory (before structures take
precedence over after structures of the same signature unless they have no
potential key fields) with exactly one potential key field and no truthy
mapping entry, it sets that signature's entry to the unique candidate. The
spec claim fails for signatures whose after-side structure alone has the
unique candidate, and empty-string entries are overwritten. -/
theorem resolveKeys_auto_select {beforeS afterS : List JsonObjectStructure}
    {cfg : SelectedKeyConfig} :
    (∀ sig k, cfg sig = some k → k ≠ "" →
      resolveKeys beforeS afterS cfg sig = some k)
    ∧ (∀ s ∈ combineStructures beforeS afterS,
        s.potentialKeyFields.length = 1 → getKey cfg s.signature = none →
        resolveKeys beforeS afterS cfg s.signature
          = some (s.potentialKeyFields.headD "")) := by
  constructor
  · intro sig k hc hk
    unfold resolveKeys
    exact resolveFold_sticky _ cfg sig k hc hk
  · intro s hs h1 h2
    unfold resolveKeys
    exact resolveFold_select _ cfg (combineStructures_sigs_nodup beforeS afterS) s hs h1 h2

/-- Witness for the amended C5: a manual entry for signature zz survives,
and the structure of signature id,x with unique candidate id gets selected. -/
theorem resolveKeys_auto_select_witness :
    resolveKeys (structuresOf [.obj [("id", .str "1"), ("x", .num 5)]]) (structuresOf [])
      (fun s => if s = "zz" then some "manual" else none) "zz" = some "manual"
    ∧ resolveKeys (structuresOf [.obj [("id", .str "1"), ("x", .num 5)]]) (structuresOf [])
      (fun s => if s = "zz" then some "manual" else none) "id,x" = some "id" :=
  ⟨(@resolveKeys_auto_select (structuresOf [.obj [("id", .str "1"), ("x", .num 5)]])
      (structuresOf []) (fun s => if s = "zz" then some "manual" else none)).1
      "zz" "manual" rfl (by decide),
    (@resolveKeys_auto_select (structuresOf [.obj [("id", .str "1"), ("x", .num 5)]])
      (structuresOf []) (fun s => if s = "zz" then some "manual" else none)).2
      ⟨"id,x", ["id", "x"], 1, ["id"]⟩ (by decide) (by decide) (by decide)⟩

/-- Counterexample to C5 as stated: the after inventory's structure of
signature a,b has exactly one potential key field (a; field b is empty in
the after instance) and the mapping has no entry for a,b, yet resolveKeys
leaves the entry unset, because the before inventory's structure of the
same signature (with two candidates) takes precedence in the combined map. -/
theorem resolveKeys_after_candidate_cx :
    (structuresOf c5After).any (fun s =>
      s.signature = "a,b" ∧ s.potentialKeyFields = ["a"]) = true
    ∧ (fun _ => (none : Option String)) "a,b" = none
    ∧ resolveKeys (structuresOf c5Before) (structuresOf c5After)
        (fun _ => none) "a,b" = none := by
  decide

/- ===== Order-insensitivity foundations ===== -/

theorem insertString_perm (s : String) :
    ∀ l : List String, (insertString s l).Perm (s :: l) := by
  intro l
  induction l with
  | nil => exact List.Perm.refl _
  | cons t ts ih =>
    by_cases h : jsStrLe s t = true
    · simp only [insertString, if_pos h]
      exact List.Perm.refl _
    · simp only [insertString, if_neg h]
      exact List.Perm.trans (List.Perm.cons t ih) (List.Perm.swap s t ts)

theorem sortStrings_perm : ∀ l : List String, (sortStrings l).Perm l := by
  intro l
  induction l with
  | nil => exact List.Perm.refl _
  | cons s ss ih =>
    have h1 : sortStrings (s :: ss) = insertString s (sortStrings ss) := rfl
    rw [h1]
    exact List.Perm.trans (insertString_perm s (sortStrings ss)) (List.Perm.cons s ih)

theorem insertString_pairwise {s : String} {l : List String}
    (h : l.Pairwise (fun x y => jsStrLe x y = true)) :
    (insertString s l).Pairwise (fun x y => jsStrLe x y = true) := by
  induction l with
  | nil => exact List.pairwise_singleton _ s
  | cons t ts ih =>
    rcases List.pairwise_cons.mp h with ⟨ht, hts⟩
    by_cases hle : jsStrLe s t = true
    · simp only [insertString, if_pos hle]
      refine List.pairwise_cons.mpr ⟨?_, h⟩
      intro x hx
      rcases List.mem_cons.mp hx with rfl | hx
      · exact hle
      · exact jsStrLe_trans hle (ht x hx)
    · simp only [insertString, if_neg hle]
      refine List.pairwise_cons.mpr ⟨?_, ih hts⟩
      intro x hx
      have hx2 : x ∈ s :: ts := (insertString_perm s ts).mem_iff.mp hx
      rcases List.mem_cons.mp hx2 with rfl | hx2
      · rcases jsStrLe_total x t with h1 | h1
        · exact absurd h1 hle
        · exact h1
      · exact ht x hx2

theorem sortStrings_pairwise :
    ∀ l : List String, (sortStrings l).Pairwise (fun x y => jsStrLe x y = true) := by
  intro l
  induction l with
  | nil => exact List.Pairwise.nil
  | cons s ss ih => exact insertString_pairwise ih

theorem strings_eq_of_perm_sorted :
    ∀ (l1 l2 : List String), l1.Perm l2 →
      l1.Pairwise (fun x y => jsStrLe x y = true) →
      l2.Pairwise (fun x y => jsStrLe x y = true) → l1 = l2 := by
  intro l1
  induction l1 with
  | nil =>
    intro l2 hp _ _
    exact List.Perm.nil_eq hp
  | cons x t1 ih =>
    intro l2 hp h1 h2
    cases l2 with
    | nil => exact List.noConfusion (List.Perm.nil_eq hp.symm)
    | cons y t2 =>
      have hxy : x = y := by
        have hx2 : x ∈ y :: t2 := hp.mem_iff.mp (List.mem_cons_self x t1)
        have hy1 : y ∈ x :: t1 := hp.symm.mem_iff.mp (List.mem_cons_self y t2)
        rcases List.mem_cons.mp hx2 with h | hxm
        · exact h
        · rcases List.mem_cons.mp hy1 with h | hym
          · exact h.symm
          · exact jsStrLe_antisymm ((List.pairwise_cons.mp h1).1 y hym)
              ((List.pairwise_cons.mp h2).1 x hxm)
      subst hxy
      have htp : t1.Perm t2 := hp.cons_inv
      rw [ih t2 htp (List.pairwise_cons.mp h1).2 (List.pairwise_cons.mp h2).2]

theorem sortStrings_perm_eq {l1 l2 : List String} (h : l1.Perm l2) :
    sortStrings l1 = sortStrings l2 :=
  strings_eq_of_perm_sorted _ _
    (((sortStrings_perm l1).trans h).trans (sortStrings_perm l2).symm)
    (sortStrings_pairwise l1) (sortStrings_pairwise l2)

theorem getObjectSignature_perm {fs gs : List (String × JsonValue)} (h : fs.Perm gs) :
    getObjectSignature fs = getObjectSignature gs := by
  unfold getObjectSignature
  rw [sortStrings_perm_eq (fieldKeys_perm h)]

theorem canonFields_perm {fs gs : List (String × JsonValue)} (h : fs.Perm gs) :
    (canonFields fs).Perm (canonFields gs) := by
  rw [canonFields_eq_map, canonFields_eq_map]
  exact h.map _

theorem canon_obj_perm {fs gs : List (String × JsonValue)} (h : fs.Perm gs)
    (hn : (fieldKeys fs).Nodup) :
    canon (JsonValue.obj fs) = canon (JsonValue.obj gs) := by
  have hng : (fieldKeys gs).Nodup := (fieldKeys_perm h).nodup_iff.mp hn
  show JsonValue.obj (sortFields (canonFields fs)) = JsonValue.obj (sortFields (canonFields gs))
  have hnf2 : (fieldKeys (sortFields (canonFields fs))).Nodup := by
    rw [(fieldKeys_perm (sortFields_perm (canonFields fs))).nodup_iff, fieldKeys_canonFields]
    exact hn
  have hng2 : (fieldKeys (sortFields (canonFields gs))).Nodup := by
    rw [(fieldKeys_perm (sortFields_perm (canonFields gs))).nodup_iff, fieldKeys_canonFields]
    exact hng
  have heq : sortFields (canonFields fs) = sortFields (canonFields gs) := by
    apply sorted_lookup_ext _ _ (sortFields_pairwise _) (sortFields_pairwise _) hnf2 hng2
    intro k
    rw [lookupField_perm_eq (sortFields_perm (canonFields fs)) hnf2,
      lookupField_perm_eq (sortFields_perm (canonFields gs)) hng2,
      lookupField_canonFields, lookupField_canonFields,
      lookupField_perm_eq h hn]
  rw [heq]

theorem recPerm_canon {x y : JsonValue} (h : recPerm x y) (hn : topNodup x = true) :
    canon x = canon y := by
  rcases h with rfl | ⟨fs, gs, rfl, rfl, hp⟩
  · rfl
  · apply canon_obj_perm hp
    unfold topNodup at hn
    exact of_decide_eq_true hn

theorem recPerm_topNodup {x y : JsonValue} (h : recPerm x y) (hn : topNodup x = true) :
    topNodup y = true := by
  rcases h with rfl | ⟨fs, gs, rfl, rfl, hp⟩
  · exact hn
  · unfold topNodup at hn ⊢
    apply decide_eq_true
    exact (fieldKeys_perm hp).nodup_iff.mp (of_decide_eq_true hn)

theorem recPerm_fieldsOfItem {x y : JsonValue} (h : recPerm x y) :
    (fieldsOfItem x).Perm (fieldsOfItem y) := by
  rcases h with rfl | ⟨fs, gs, rfl, rfl, hp⟩
  · exact List.Perm.refl _
  · exact hp

theorem recPerm_jsFields {x y : JsonValue} (h : recPerm x y) :
    (jsFields x = none ∧ jsFields y = none ∧ x = y)
    ∨ ∃ fs gs, jsFields x = some fs ∧ jsFields y = some gs ∧ fs.Perm gs := by
  rcases h with rfl | ⟨fs, gs, rfl, rfl, hp⟩
  · rcases hf : jsFields x with _ | fs
    · exact Or.inl ⟨rfl, rfl, rfl⟩
    · exact Or.inr ⟨fs, fs, rfl, rfl, List.Perm.refl _⟩
  · exact Or.inr ⟨fs, gs, rfl, rfl, hp⟩

theorem isEqual_congr {x1 x2 y1 y2 : JsonValue} (hx : recPerm x1 x2) (hy : recPerm y1 y2)
    (hnx : topNodup x1 = true) (hny : topNodup y1 = true) :
    isEqual x1 y1 = isEqual x2 y2 := by
  unfold isEqual
  rw [recPerm_canon hx hnx, recPerm_canon hy hny]

theorem lookup_map_replace (k : String) (v : JsonValue) (x : String) :
    ∀ fs : List (String × JsonValue),
      lookupField (fs.map (fun p => if p.1 = k then (k, v) else p)) x
        = if x = k then (if k ∈ fieldKeys fs then some v else none)
          else lookupField fs x := by
  intro fs
  induction fs with
  | nil =>
    by_cases hx : x = k
    · rw [if_pos hx, if_neg (fun hm : k ∈ fieldKeys [] => List.not_mem_nil k hm)]
      rfl
    · rw [if_neg hx]
      rfl
  | cons p ps ih =>
    cases p with
    | mk l w =>
      rw [List.map_cons]
      by_cases hl : l = k
      · subst hl
        rw [if_pos (show ((l, w) : String × JsonValue).1 = l from rfl)]
        by_cases hx : x = l
        · subst hx
          rw [lookupField, if_pos rfl, if_pos rfl,
            if_pos (show x ∈ fieldKeys ((x, w) :: ps) from
              List.mem_map.mpr ⟨(x, w), List.mem_cons_self _ _, rfl⟩)]
        · rw [lookupField, if_neg (fun hc : l = x => hx hc.symm)]
          rw [ih]
          rw [if_neg hx, if_neg hx]
          rw [lookupField, if_neg (fun hc : l = x => hx hc.symm)]
      · rw [if_neg (show ¬ ((l, w) : String × JsonValue).1 = k from hl)]
        by_cases hx : x = l
        · subst hx
          rw [lookupField, if_pos rfl, if_neg hl]
          rw [lookupField, if_pos rfl]
        · rw [lookupField, if_neg (fun hc : l = x => hx hc.symm)]
          rw [ih]
          by_cases hxk : x = k
          · rw [if_pos hxk, if_pos hxk]
            by_cases hk2 : k ∈ fieldKeys ps
            · rw [if_pos hk2]
              rcases List.mem_map.mp hk2 with ⟨q, hq, hqk⟩
              rw [if_pos (show k ∈ fieldKeys ((l, w) :: ps) from
                List.mem_map.mpr ⟨q, List.mem_cons_of_mem _ hq, hqk⟩)]
            · rw [if_neg hk2]
              rw [if_neg (show ¬ k ∈ fieldKeys ((l, w) :: ps) from by
                intro hm
                rcases List.mem_map.mp hm with ⟨q, hq, hqk⟩
                rcases List.mem_cons.mp hq with h | h
                · apply hl
                  rw [← hqk, h]
                · exact hk2 (List.mem_map.mpr ⟨q, h, hqk⟩))]
          · rw [if_neg hxk, if_neg hxk]
            rw [lookupField, if_neg (fun hc : l = x => hx hc.symm)]

theorem lookupField_spreadSet (fs : List (String × JsonValue)) (k : String) (v : JsonValue)
    (x : String) :
    lookupField (spreadSet fs k v) x = if x = k then some v else lookupField fs x := by
  unfold spreadSet
  split
  · next hc =>
    rw [lookup_map_replace]
    by_cases hx : x = k
    · rw [if_pos hx, if_pos hx]
      rw [if_pos (by simpa using hc)]
    · rw [if_neg hx, if_neg hx]
  · next hc =>
    rw [lookupField_append_eq]
    by_cases hx : x = k
    · subst hx
      have hnone : lookupField fs x = none := by
        rw [lookupField_none_iff]
        intro hm
        exact hc (by simpa using hm)
      rw [hnone]
      show lookupField [(x, v)] x = if x = x then some v else none
      rw [lookupField, if_pos rfl, if_pos rfl]
    · rcases hlf : lookupField fs x with _ | v2
      · show lookupField [(k, v)] x = if x = k then some v else none
        rw [if_neg hx]
        rw [lookupField, if_neg (fun hc2 : k = x => hx hc2.symm)]
        rfl
      · show some v2 = if x = k then some v else some v2
        rw [if_neg hx]

theorem lookup_mergedEntry (e : SimpleEntry) (x : String) :
    lookupField (mergedEntry e) x =
      match e.keyFieldUsed with
      | some kf =>
        if x = "keyFieldUsed" then some (JsonValue.str kf)
        else if x = "objectSignature" then some (JsonValue.str e.objectSignature)
        else lookupField e.fields x
      | none =>
        if x = "objectSignature" then some (JsonValue.str e.objectSignature)
        else lookupField e.fields x := by
  simp only [mergedEntry]
  rcases hk : e.keyFieldUsed with _ | kf
  · show lookupField (spreadSet e.fields "objectSignature" (JsonValue.str e.objectSignature)) x
      = if x = "objectSignature" then some (JsonValue.str e.objectSignature)
        else lookupField e.fields x
    exact lookupField_spreadSet _ _ _ _
  · show lookupField (spreadSet
        (spreadSet e.fields "objectSignature" (JsonValue.str e.objectSignature))
        "keyFieldUsed" (JsonValue.str kf)) x
      = if x = "keyFieldUsed" then some (JsonValue.str kf)
        else if x = "objectSignature" then some (JsonValue.str e.objectSignature)
        else lookupField e.fields x
    rw [lookupField_spreadSet, lookupField_spreadSet]

theorem mergedEntry_lookup_congr {e1 e2 : SimpleEntry} (hf : e1.fields.Perm e2.fields)
    (hs : e1.objectSignature = e2.objectSignature) (hk : e1.keyFieldUsed = e2.keyFieldUsed)
    (hn : (fieldKeys e1.fields).Nodup) (x : String) :
    lookupField (mergedEntry e1) x = lookupField (mergedEntry e2) x := by
  rw [lookup_mergedEntry, lookup_mergedEntry, ← hk, hs, lookupField_perm_eq hf hn]

theorem makeEntryId_congr {cfg : SelectedKeyConfig} {e1 e2 : SimpleEntry}
    (hf : e1.fields.Perm e2.fields) (hs : e1.objectSignature = e2.objectSignature)
    (hk : e1.keyFieldUsed = e2.keyFieldUsed) (hn : (fieldKeys e1.fields).Nodup)
    (hkey : (getKey cfg e1.objectSignature).isSome = true) :
    makeEntryId cfg e1 = makeEntryId cfg e2 := by
  unfold makeEntryId
  rcases hg : getKey cfg e1.objectSignature with _ | kf
  · rw [hg] at hkey
    exact Bool.noConfusion hkey
  · have hg2 : getKey cfg e2.objectSignature = some kf := by
      rw [← hs]
      exact hg
    rw [hg2]
    show e1.objectSignature ++ "::" ++ jsStringOpt (lookupField (mergedEntry e1) kf)
      = e2.objectSignature ++ "::" ++ jsStringOpt (lookupField (mergedEntry e2) kf)
    rw [hs, mergedEntry_lookup_congr hf hs hk hn]

theorem buildStep_congr {side : Side} {cfg : SelectedKeyConfig}
    {st1 st2 : EntryMap × List CompareWarning} {x y : JsonValue}
    (hrel : MapRel cfg st1.1 st2.1) (hxy : recPerm x y) (hn : topNodup x = true) :
    MapRel cfg (buildStep side cfg st1 x).1 (buildStep side cfg st2 y).1 := by
  rcases recPerm_jsFields hxy with ⟨hfx, hfy, heq⟩ | ⟨fs, gs, hfx, hfy, hperm⟩
  · have e1 : (buildStep side cfg st1 x).1 = st1.1 := by
      unfold buildStep
      rw [hfx]
    have e2 : (buildStep side cfg st2 y).1 = st2.1 := by
      unfold buildStep
      rw [hfy]
    rw [e1, e2]
    exact hrel
  · have hsig := getObjectSignature_perm hperm
    have hndk : (fieldKeys fs).Nodup := topNodup_keys hn hfx
    have hlook : ∀ k, lookupField fs k = lookupField gs k :=
      fun k => lookupField_perm_eq hperm hndk
    cases hg : getKey cfg (getObjectSignature fs) with
    | none =>
      have e1 : (buildStep side cfg st1 x).1 = st1.1 := by
        unfold buildStep
        rw [hfx]
        simp only
        rw [hg]
      have e2 : (buildStep side cfg st2 y).1 = st2.1 := by
        unfold buildStep
        rw [hfy]
        simp only
        rw [← hsig, hg]
      rw [e1, e2]
      exact hrel
    | some kf =>
      cases hv : validKeyString (lookupField fs kf) with
      | none =>
        have e1 : (buildStep side cfg st1 x).1 = st1.1 := by
          unfold buildStep
          rw [hfx]
          simp only
          rw [hg]
          simp only
          rw [hv]
        have e2 : (buildStep side cfg st2 y).1 = st2.1 := by
          unfold buildStep
          rw [hfy]
          simp only
          rw [← hsig, hg]
          simp only
          rw [← hlook kf, hv]
        rw [e1, e2]
        exact hrel
      | some kv =>
        have e1 : (buildStep side cfg st1 x).1 = fun s =>
            if s = kv then some ⟨x, getObjectSignature fs, kf⟩ else st1.1 s := by
          unfold buildStep
          rw [hfx]
          simp only
          rw [hg]
          simp only
          rw [hv]
        have e2 : (buildStep side cfg st2 y).1 = fun s =>
            if s = kv then some ⟨y, getObjectSignature gs, kf⟩ else st2.1 s := by
          unfold buildStep
          rw [hfy]
          simp only
          rw [← hsig, hg]
          simp only
          rw [← hlook kf, hv]
        rw [e1, e2]
        intro kv0
        by_cases hk0 : kv0 = kv
        · refine Or.inr ⟨⟨x, getObjectSignature fs, kf⟩, ⟨y, getObjectSignature gs, kf⟩,
            ?_, ?_, ?_⟩
          · show (if kv0 = kv then some (⟨x, getObjectSignature fs, kf⟩ : MapEntry)
              else st1.1 kv0) = some ⟨x, getObjectSignature fs, kf⟩
            rw [if_pos hk0]
          · show (if kv0 = kv then some (⟨y, getObjectSignature gs, kf⟩ : MapEntry)
              else st2.1 kv0) = some ⟨y, getObjectSignature gs, kf⟩
            rw [if_pos hk0]
          · refine ⟨hxy, hsig, rfl, hn, ?_⟩
            show (getKey cfg (getObjectSignature fs)).isSome = true
            rw [hg]
            rfl
        · rcases hrel kv0 with ⟨h1, h2⟩ | ⟨e1m, e2m, h1, h2, hr⟩
          · refine Or.inl ⟨?_, ?_⟩
            · show (if kv0 = kv then some (⟨x, getObjectSignature fs, kf⟩ : MapEntry)
                else st1.1 kv0) = none
              rw [if_neg hk0]
              exact h1
            · show (if kv0 = kv then some (⟨y, getObjectSignature gs, kf⟩ : MapEntry)
                else st2.1 kv0) = none
              rw [if_neg hk0]
              exact h2
          · refine Or.inr ⟨e1m, e2m, ?_, ?_, hr⟩
            · show (if kv0 = kv then some (⟨x, getObjectSignature fs, kf⟩ : MapEntry)
                else st1.1 kv0) = some e1m
              rw [if_neg hk0]
              exact h1
            · show (if kv0 = kv then some (⟨y, getObjectSignature gs, kf⟩ : MapEntry)
                else st2.1 kv0) = some e2m
              rw [if_neg hk0]
              exact h2

theorem buildFold_congr {side : Side} {cfg : SelectedKeyConfig} :
    ∀ {l1 l2 : List JsonValue}, List.Forall₂ recPerm l1 l2 →
    (∀ v ∈ l1, topNodup v = true) →
    ∀ {st1 st2 : EntryMap × List CompareWarning}, MapRel cfg st1.1 st2.1 →
    MapRel cfg ((l1.foldl (buildStep side cfg) st1).1)
      ((l2.foldl (buildStep side cfg) st2).1) := by
  intro l1 l2 hf
  induction hf with
  | nil =>
    intro _ st1 st2 h
    exact h
  | cons hxy hrest ih =>
    intro hn st1 st2 h
    rw [List.foldl_cons, List.foldl_cons]
    exact ih (fun v hv => hn v (List.mem_cons_of_mem _ hv))
      (buildStep_congr h hxy (hn _ (List.mem_cons_self _ _)))

theorem buildSideMap_congr {side : Side} {cfg : SelectedKeyConfig} {l1 l2 : List JsonValue}
    (hf : List.Forall₂ recPerm l1 l2) (hn : ∀ v ∈ l1, topNodup v = true) :
    MapRel cfg (buildSideMap side cfg l1).1 (buildSideMap side cfg l2).1 :=
  buildFold_congr hf hn (fun _ => Or.inl ⟨rfl, rfl⟩)

theorem jsDedup_perm {l1 l2 : List String} (h : l1.Perm l2) :
    (jsDedup l1).Perm (jsDedup l2) := by
  rw [List.perm_ext_iff_of_nodup (jsDedup_nodup l1) (jsDedup_nodup l2)]
  intro a
  rw [mem_jsDedup, mem_jsDedup]
  exact h.mem_iff

theorem topNodup_fieldsOfItem {v : JsonValue} (h : topNodup v = true) :
    (fieldKeys (fieldsOfItem v)).Nodup := by
  unfold fieldsOfItem
  rcases hf : jsFields v with _ | fs
  · exact List.nodup_nil
  · exact topNodup_keys h hf

theorem calculateFieldChanges_congr {o1 o1' o2 o2' : List (String × JsonValue)}
    (h1 : o1.Perm o1') (h2 : o2.Perm o2')
    (hn1 : (fieldKeys o1).Nodup) (hn2 : (fieldKeys o2).Nodup) :
    changesRel (calculateFieldChanges o1 o2) (calculateFieldChanges o1' o2') := by
  have hl1 : ∀ k, lookupField o1 k = lookupField o1' k :=
    fun k => lookupField_perm_eq h1 hn1
  have hl2 : ∀ k, lookupField o2 k = lookupField o2' k :=
    fun k => lookupField_perm_eq h2 hn2
  have hA : (jsDedup (fieldKeys o1 ++ fieldKeys o2)).Perm
      (jsDedup (fieldKeys o1' ++ fieldKeys o2')) :=
    jsDedup_perm ((fieldKeys_perm h1).append (fieldKeys_perm h2))
  refine ⟨?_, ?_, ?_⟩
  · show ((jsDedup (fieldKeys o1 ++ fieldKeys o2)).filterMap (fun k =>
      match lookupField o1 k, lookupField o2 k with
      | none, some v2 => some (k, v2)
      | _, _ => none)).Perm ((jsDedup (fieldKeys o1' ++ fieldKeys o2')).filterMap (fun k =>
      match lookupField o1' k, lookupField o2' k with
      | none, some v2 => some (k, v2)
      | _, _ => none))
    have hfun : (fun k =>
        match lookupField o1' k, lookupField o2' k with
        | none, some v2 => some (k, v2)
        | _, _ => none) = (fun k : String =>
        match lookupField o1 k, lookupField o2 k with
        | none, some v2 => some (k, v2)
        | _, _ => none) := by
      funext k
      rw [hl1 k, hl2 k]
    rw [hfun]
    exact hA.filterMap _
  · show ((jsDedup (fieldKeys o1 ++ fieldKeys o2)).filterMap (fun k =>
      match lookupField o1 k, lookupField o2 k with
      | some v1, none => some (k, v1)
      | _, _ => none)).Perm ((jsDedup (fieldKeys o1' ++ fieldKeys o2')).filterMap (fun k =>
      match lookupField o1' k, lookupField o2' k with
      | some v1, none => some (k, v1)
      | _, _ => none))
    have hfun : (fun k =>
        match lookupField o1' k, lookupField o2' k with
        | some v1, none => some (k, v1)
        | _, _ => none) = (fun k : String =>
        match lookupField o1 k, lookupField o2 k with
        | some v1, none => some (k, v1)
        | _, _ => none) := by
      funext k
      rw [hl1 k, hl2 k]
    rw [hfun]
    exact hA.filterMap _
  · show ((jsDedup (fieldKeys o1 ++ fieldKeys o2)).filterMap (fun k =>
      match lookupField o1 k, lookupField o2 k with
      | some v1, some v2 => if isEqual v1 v2 then none else some (k, v1, v2)
      | _, _ => none)).Perm ((jsDedup (fieldKeys o1' ++ fieldKeys o2')).filterMap (fun k =>
      match lookupField o1' k, lookupField o2' k with
      | some v1, some v2 => if isEqual v1 v2 then none else some (k, v1, v2)
      | _, _ => none))
    have hfun : (fun k =>
        match lookupField o1' k, lookupField o2' k with
        | some v1, some v2 => if isEqual v1 v2 then none else some (k, v1, v2)
        | _, _ => none) = (fun k : String =>
        match lookupField o1 k, lookupField o2 k with
        | some v1, some v2 => if isEqual v1 v2 then none else some (k, v1, v2)
        | _, _ => none) := by
      funext k
      rw [hl1 k, hl2 k]
    rw [hfun]
    exact hA.filterMap _

theorem mkChanges_congr {kf1 kf2 : String} {be1 ae1 be2 ae2 : MapEntry}
    (hbe : recPerm be1.item be2.item) (hae : recPerm ae1.item ae2.item)
    (hnb : topNodup be1.item = true) (hna : topNodup ae1.item = true) :
    changesRel (mkChanges kf1 be1 ae1) (mkChanges kf2 be2 ae2) := by
  rw [mkChanges_eq, mkChanges_eq]
  exact calculateFieldChanges_congr (recPerm_fieldsOfItem hbe) (recPerm_fieldsOfItem hae)
    (topNodup_fieldsOfItem hnb) (topNodup_fieldsOfItem hna)

theorem forall2_append {α β : Type} {R : α → β → Prop} {l1 u1 : List α} {l2 u2 : List β}
    (h : List.Forall₂ R l1 l2) (h2 : List.Forall₂ R u1 u2) :
    List.Forall₂ R (l1 ++ u1) (l2 ++ u2) := by
  induction h with
  | nil => exact h2
  | cons hx hrest ih => exact List.Forall₂.cons hx ih

theorem afterStep_congr {cfg : SelectedKeyConfig} {bm1 bm2 am1 am2 : EntryMap}
    (hbm : MapRel cfg bm1 bm2) (ham : MapRel cfg am1 am2)
    {st1 st2 : DiffLists} (hst : DiffRel cfg st1 st2)
    {x y : JsonValue} (hxy : recPerm x y) (hn : topNodup x = true)
    (hkx : ∀ fs, jsFields x = some fs →
      (getKey cfg (getObjectSignature fs)).isSome = true) :
    DiffRel cfg (afterStep cfg bm1 am1 st1 x) (afterStep cfg bm2 am2 st2 y) := by
  unfold afterStep
  rcases recPerm_jsFields hxy with ⟨hfx, hfy, rfl⟩ | ⟨fs, gs, hfx, hfy, hperm⟩
  · rw [hfx]
    exact hst
  · have hsig := getObjectSignature_perm hperm
    have hndk := topNodup_keys hn hfx
    have hlook : ∀ k, lookupField fs k = lookupField gs k :=
      fun k => lookupField_perm_eq hperm hndk
    rw [hfx, hfy]
    simp only
    rw [← hsig]
    rcases hg : getKey cfg (getObjectSignature fs) with _ | kf
    · have hk2 := hkx fs hfx
      rw [hg] at hk2
      exact Bool.noConfusion hk2
    · simp only
      rw [← hlook kf]
      rcases hlf : lookupField fs kf with _ | v
      · exact hst
      · cases v with
        | str kv =>
          simp only
          rcases ham kv with ⟨ha1, ha2⟩ | ⟨ae1, ae2, ha1, ha2, haer⟩
          · rw [ha1, ha2]
            exact hst
          · obtain ⟨haep, haes, haek, haen, haekey⟩ := haer
            rw [ha1, ha2]
            simp only
            rcases hbm kv with ⟨hb1, hb2⟩ | ⟨be1, be2, hb1, hb2, hber⟩
            · rw [hb1, hb2]
              simp only
              refine ⟨forall2_append hst.1 ?_, hst.2.1, hst.2.2⟩
              refine List.Forall₂.cons ?_ List.Forall₂.nil
              refine ⟨recPerm_fieldsOfItem haep, rfl, rfl, topNodup_fieldsOfItem haen, ?_⟩
              show (getKey cfg (getObjectSignature fs)).isSome = true
              rw [hg]
              rfl
            · obtain ⟨hbep, hbes, hbek, hben, hbekey⟩ := hber
              rw [hb1, hb2]
              simp only
              rw [← hbes, ← haes, ← haek, ← hbek]
              by_cases hsd : be1.signature = ae1.signature
              · have hA : ¬ (be1.signature ≠ ae1.signature) := fun hc => hc hsd
                rw [if_neg hA, if_neg hA]
                have hie : isEqual be2.item ae2.item = isEqual be1.item ae1.item :=
                  (isEqual_congr hbep haep hben haen).symm
                rw [hie]
                by_cases hieq : isEqual be1.item ae1.item = true
                · rw [if_pos hieq, if_pos hieq]
                  exact hst
                · rw [if_neg hieq, if_neg hieq]
                  have hch : changesRel (mkChanges kf be1 ae1) (mkChanges kf be2 ae2) :=
                    mkChanges_congr hbep haep hben haen
                  rw [show (mkChanges kf be2 ae2).added.length
                        = (mkChanges kf be1 ae1).added.length from hch.1.length_eq.symm,
                      show (mkChanges kf be2 ae2).removed.length
                        = (mkChanges kf be1 ae1).removed.length from hch.2.1.length_eq.symm,
                      show (mkChanges kf be2 ae2).changed.length
                        = (mkChanges kf be1 ae1).changed.length from hch.2.2.length_eq.symm]
                  by_cases hc : ((mkChanges kf be1 ae1).added.length > 0
                      || (mkChanges kf be1 ae1).removed.length > 0
                      || (mkChanges kf be1 ae1).changed.length > 0) = true
                  · rw [if_pos hc, if_pos hc]
                    refine ⟨hst.1, forall2_append hst.2.1 ?_, hst.2.2⟩
                    refine List.Forall₂.cons ?_ List.Forall₂.nil
                    exact ⟨rfl, rfl, rfl, hbep, haep, hch⟩
                  · rw [if_neg hc, if_neg hc]
                    exact hst
              · rw [if_pos hsd, if_pos hsd]
                refine ⟨forall2_append hst.1 ?_, hst.2.1, forall2_append hst.2.2 ?_⟩
                · exact List.Forall₂.cons
                    ⟨recPerm_fieldsOfItem haep, rfl, rfl, topNodup_fieldsOfItem haen, haekey⟩
                    List.Forall₂.nil
                · exact List.Forall₂.cons
                    ⟨recPerm_fieldsOfItem hbep, rfl, rfl, topNodup_fieldsOfItem hben, hbekey⟩
                    List.Forall₂.nil
        | num n => exact hst
        | bool b => exact hst
        | null => exact hst
        | arr a => exact hst
        | obj o => exact hst

theorem alreadyDeleted_congr {cfg : SelectedKeyConfig} {del1 del2 : List SimpleEntry}
    (h : List.Forall₂ (SimRel cfg) del1 del2) {be1 be2 : MapEntry}
    (hsig : be1.signature = be2.signature) (hkf : be1.keyField = be2.keyField)
    (kv : String) :
    alreadyDeleted del1 be1 kv = alreadyDeleted del2 be2 kv := by
  unfold alreadyDeleted
  induction h with
  | nil => rfl
  | cons hpair hrest ih =>
    rw [List.any_cons, List.any_cons, ih]
    obtain ⟨hf, hs, hk, hn, -⟩ := hpair
    congr 1
    rw [← hs, ← hsig, ← hkf, ← mergedEntry_lookup_congr hf hs hk hn be1.keyField]

theorem beforeStep_congr {cfg : SelectedKeyConfig} {bm1 bm2 am1 am2 : EntryMap}
    {aD1 aD2 : List JsonValue}
    (hbm : MapRel cfg bm1 bm2) (ham : MapRel cfg am1 am2)
    {st1 st2 : DiffLists} (hst : DiffRel cfg st1 st2)
    {x y : JsonValue} (hxy : recPerm x y) (hn : topNodup x = true)
    (hkx : ∀ fs, jsFields x = some fs →
      (getKey cfg (getObjectSignature fs)).isSome = true) :
    DiffRel cfg (beforeStep cfg bm1 am1 aD1 st1 x) (beforeStep cfg bm2 am2 aD2 st2 y) := by
  unfold beforeStep
  rcases recPerm_jsFields hxy with ⟨hfx, hfy, rfl⟩ | ⟨fs, gs, hfx, hfy, hperm⟩
  · rw [hfx]
    exact hst
  · have hsig := getObjectSignature_perm hperm
    have hndk := topNodup_keys hn hfx
    have hlook : ∀ k, lookupField fs k = lookupField gs k :=
      fun k => lookupField_perm_eq hperm hndk
    rw [hfx, hfy]
    simp only
    rw [← hsig]
    rcases hg : getKey cfg (getObjectSignature fs) with _ | kf
    · have hk2 := hkx fs hfx
      rw [hg] at hk2
      exact Bool.noConfusion hk2
    · simp only
      rw [← hlook kf]
      rcases hlf : lookupField fs kf with _ | v
      · exact hst
      · cases v with
        | str kv =>
          simp only
          rcases hbm kv with ⟨hb1, hb2⟩ | ⟨be1, be2, hb1, hb2, hber⟩
          · rw [hb1, hb2]
            exact hst
          · obtain ⟨hbep, hbes, hbek, hben, hbekey⟩ := hber
            rw [hb1, hb2]
            simp only
            rcases ham kv with ⟨ha1, ha2⟩ | ⟨ae1, ae2, ha1, ha2, haer⟩
            · rw [ha1, ha2]
              simp only
              have hadel : alreadyDeleted st2.deletedEntries be2 kv
                  = alreadyDeleted st1.deletedEntries be1 kv :=
                (alreadyDeleted_congr hst.2.2 hbes hbek kv).symm
              rw [hadel]
              by_cases hdel : alreadyDeleted st1.deletedEntries be1 kv = true
              · rw [if_pos hdel, if_pos hdel]
                exact hst
              · rw [if_neg hdel, if_neg hdel]
                refine ⟨hst.1, hst.2.1, forall2_append hst.2.2 ?_⟩
                refine List.Forall₂.cons ?_ List.Forall₂.nil
                refine ⟨recPerm_fieldsOfItem hbep, rfl, rfl, topNodup_fieldsOfItem hben, ?_⟩
                show (getKey cfg (getObjectSignature fs)).isSome = true
                rw [hg]
                rfl
            · rw [ha1, ha2]
              exact hst
        | num n => exact hst
        | bool b => exact hst
        | null => exact hst
        | arr a => exact hst
        | obj o => exact hst

theorem afterFold_congr {cfg : SelectedKeyConfig} {bm1 bm2 am1 am2 : EntryMap}
    (hbm : MapRel cfg bm1 bm2) (ham : MapRel cfg am1 am2) :
    ∀ {l1 l2 : List JsonValue}, List.Forall₂ recPerm l1 l2 →
    (∀ v ∈ l1, topNodup v = true) →
    (∀ v ∈ l1, ∀ fs, jsFields v = some fs →
      (getKey cfg (getObjectSignature fs)).isSome = true) →
    ∀ {st1 st2 : DiffLists}, DiffRel cfg st1 st2 →
    DiffRel cfg (l1.foldl (afterStep cfg bm1 am1) st1) (l2.foldl (afterStep cfg bm2 am2) st2) := by
  intro l1 l2 hf
  induction hf with
  | nil =>
    intro _ _ st1 st2 h
    exact h
  | cons hxy hrest ih =>
    intro hn hk st1 st2 h
    rw [List.foldl_cons, List.foldl_cons]
    exact ih (fun v hv => hn v (List.mem_cons_of_mem _ hv))
      (fun v hv => hk v (List.mem_cons_of_mem _ hv))
      (afterStep_congr hbm ham h hxy (hn _ (List.mem_cons_self _ _))
        (hk _ (List.mem_cons_self _ _)))

theorem beforeFold_congr {cfg : SelectedKeyConfig} {bm1 bm2 am1 am2 : EntryMap}
    {aD1 aD2 : List JsonValue}
    (hbm : MapRel cfg bm1 bm2) (ham : MapRel cfg am1 am2) :
    ∀ {l1 l2 : List JsonValue}, List.Forall₂ recPerm l1 l2 →
    (∀ v ∈ l1, topNodup v = true) →
    (∀ v ∈ l1, ∀ fs, jsFields v = some fs →
      (getKey cfg (getObjectSignature fs)).isSome = true) →
    ∀ {st1 st2 : DiffLists}, DiffRel cfg st1 st2 →
    DiffRel cfg (l1.foldl (beforeStep cfg bm1 am1 aD1) st1)
      (l2.foldl (beforeStep cfg bm2 am2 aD2) st2) := by
  intro l1 l2 hf
  induction hf with
  | nil =>
    intro _ _ st1 st2 h
    exact h
  | cons hxy hrest ih =>
    intro hn hk st1 st2 h
    rw [List.foldl_cons, List.foldl_cons]
    exact ih (fun v hv => hn v (List.mem_cons_of_mem _ hv))
      (fun v hv => hk v (List.mem_cons_of_mem _ hv))
      (beforeStep_congr hbm ham h hxy (hn _ (List.mem_cons_self _ _))
        (hk _ (List.mem_cons_self _ _)))

theorem preLists_congr {cfg : SelectedKeyConfig} {b1 b2 a1 a2 : List JsonValue}
    (hb : List.Forall₂ recPerm b1 b2) (ha : List.Forall₂ recPerm a1 a2)
    (hbn : ∀ v ∈ b1, topNodup v = true) (han : ∀ v ∈ a1, topNodup v = true)
    (hbk : ∀ v ∈ b1, ∀ fs, jsFields v = some fs →
      (getKey cfg (getObjectSignature fs)).isSome = true)
    (hak : ∀ v ∈ a1, ∀ fs, jsFields v = some fs →
      (getKey cfg (getObjectSignature fs)).isSome = true) :
    DiffRel cfg (preLists b1 a1 cfg) (preLists b2 a2 cfg) := by
  unfold preLists
  exact beforeFold_congr (buildSideMap_congr hb hbn) (buildSideMap_congr ha han)
    hb hbn hbk
    (afterFold_congr (buildSideMap_congr hb hbn) (buildSideMap_congr ha han)
      ha han hak ⟨List.Forall₂.nil, List.Forall₂.nil, List.Forall₂.nil⟩)

theorem simrel_id_eq {cfg : SelectedKeyConfig} {e1 e2 : SimpleEntry} (h : SimRel cfg e1 e2) :
    makeEntryId cfg e1 = makeEntryId cfg e2 :=
  makeEntryId_congr h.1 h.2.1 h.2.2.1 h.2.2.2.1 h.2.2.2.2

theorem replaceOrAppendById_congr {cfg : SelectedKeyConfig} {acc1 acc2 : List SimpleEntry}
    {e1 e2 : SimpleEntry} (hacc : List.Forall₂ (SimRel cfg) acc1 acc2)
    (he : SimRel cfg e1 e2) :
    List.Forall₂ (SimRel cfg) (replaceOrAppendById (makeEntryId cfg) acc1 e1)
      (replaceOrAppendById (makeEntryId cfg) acc2 e2) := by
  have hide : makeEntryId cfg e2 = makeEntryId cfg e1 := (simrel_id_eq he).symm
  unfold replaceOrAppendById
  rw [hide]
  have hany : acc2.any (fun x => makeEntryId cfg x = makeEntryId cfg e1)
      = acc1.any (fun x => makeEntryId cfg x = makeEntryId cfg e1) := by
    induction hacc with
    | nil => rfl
    | cons hp hrest ih =>
      rw [List.any_cons, List.any_cons, ih]
      congr 1
      rw [simrel_id_eq hp]
  rw [hany]
  by_cases hc : acc1.any (fun x => makeEntryId cfg x = makeEntryId cfg e1) = true
  · rw [if_pos hc, if_pos hc]
    clear hany hc
    induction hacc with
    | nil => exact List.Forall₂.nil
    | @cons x1 x2 t1 t2 hp hrest ih =>
      rw [List.map_cons, List.map_cons]
      refine List.Forall₂.cons ?_ ih
      rw [← simrel_id_eq hp]
      by_cases hx : makeEntryId cfg x1 = makeEntryId cfg e1
      · rw [if_pos hx, if_pos hx]
        exact he
      · rw [if_neg hx, if_neg hx]
        exact hp
  · rw [if_neg hc, if_neg hc]
    exact forall2_append hacc (List.Forall₂.cons he List.Forall₂.nil)

theorem dedupEntries_congr {cfg : SelectedKeyConfig} {l1 l2 : List SimpleEntry}
    (h : List.Forall₂ (SimRel cfg) l1 l2) :
    List.Forall₂ (SimRel cfg) (dedupEntries (makeEntryId cfg) l1)
      (dedupEntries (makeEntryId cfg) l2) := by
  unfold dedupEntries
  have H : ∀ {m1 m2 : List SimpleEntry}, List.Forall₂ (SimRel cfg) m1 m2 →
      ∀ {acc1 acc2 : List SimpleEntry}, List.Forall₂ (SimRel cfg) acc1 acc2 →
      List.Forall₂ (SimRel cfg) (m1.foldl (replaceOrAppendById (makeEntryId cfg)) acc1)
        (m2.foldl (replaceOrAppendById (makeEntryId cfg)) acc2) := by
    intro m1 m2 hm
    induction hm with
    | nil =>
      intro acc1 acc2 hacc
      exact hacc
    | cons hp hrest ih =>
      intro acc1 acc2 hacc
      rw [List.foldl_cons, List.foldl_cons]
      exact ih (replaceOrAppendById_congr hacc hp)
  exact H h List.Forall₂.nil

/-- C9 (amended): the comparison is insensitive to the order in which the
input records list their fields, provided every record is a well-formed
keyed record (unique top-level field names and a truthy key selection for
its signature): two runs on pointwise field-permuted inputs produce
new/modified/deleted lists related pointwise by field permutation with
equal signatures, key fields and key values, and ChangeSets equal up to
the iteration order of the key union. Determinism for literally fixed
inputs holds by definition; for unkeyed records the claim fails because
the deduplication id serializes the entry with JSON.stringify, which
depends on field order. -/
theorem compareJsons_order_insensitive {b1 b2 a1 a2 : List JsonValue}
    {cfg : SelectedKeyConfig} {r1 r2 : ComparisonResult}
    (hb : List.Forall₂ recPerm b1 b2) (ha : List.Forall₂ recPerm a1 a2)
    (hbn : ∀ v ∈ b1, topNodup v = true) (han : ∀ v ∈ a1, topNodup v = true)
    (hbk : ∀ v ∈ b1, ∀ fs, jsFields v = some fs →
      (getKey cfg (getObjectSignature fs)).isSome = true)
    (hak : ∀ v ∈ a1, ∀ fs, jsFields v = some fs →
      (getKey cfg (getObjectSignature fs)).isSome = true)
    (h1 : compareJsons b1 a1 cfg = Except.ok r1)
    (h2 : compareJsons b2 a2 cfg = Except.ok r2) :
    List.Forall₂ entryRel r1.newEntries r2.newEntries
    ∧ List.Forall₂ modRel r1.modifiedEntries r2.modifiedEntries
    ∧ List.Forall₂ entryRel r1.deletedEntries r2.deletedEntries := by
  obtain ⟨hn1, hm1, hd1, -⟩ := compareJsons_ok_elim h1
  obtain ⟨hn2, hm2, hd2, -⟩ := compareJsons_ok_elim h2
  have hpre := preLists_congr hb ha hbn han hbk hak
  refine ⟨?_, ?_, ?_⟩
  · rw [hn1, hn2]
    exact (dedupEntries_congr hpre.1).imp (fun a b h => ⟨h.1, h.2.1, h.2.2.1⟩)
  · rw [hm1, hm2]
    exact hpre.2.1
  · rw [hd1, hd2]
    exact (dedupEntries_congr hpre.2.2).imp (fun a b h => ⟨h.1, h.2.1, h.2.2.1⟩)

/-- Witness for the amended C9: two runs whose single before and after
records list id and z in opposite orders produce pointwise related
results (here, one modified entry each with the same key value and the
same ChangeSet). -/
theorem compareJsons_order_insensitive_witness :
    List.Forall₂ entryRel c9wResult1.newEntries c9wResult2.newEntries
    ∧ List.Forall₂ modRel c9wResult1.modifiedEntries c9wResult2.modifiedEntries
    ∧ List.Forall₂ entryRel c9wResult1.deletedEntries c9wResult2.deletedEntries :=
  @compareJsons_order_insensitive c9wBefore1 c9wBefore2 c9wAfter1 c9wAfter2
    c9wCfg c9wResult1 c9wResult2
    (List.Forall₂.cons (Or.inr ⟨[("id", .str "1"), ("z", .num 1)],
      [("z", .num 1), ("id", .str "1")], rfl, rfl, List.Perm.swap _ _ _⟩) List.Forall₂.nil)
    (List.Forall₂.cons (Or.inr ⟨[("id", .str "1"), ("z", .num 2)],
      [("z", .num 2), ("id", .str "1")], rfl, rfl, List.Perm.swap _ _ _⟩) List.Forall₂.nil)
    (by decide) (by decide)
    (by
      intro v hv fs hf
      simp only [c9wBefore1, List.mem_singleton] at hv
      subst hv
      injection hf with hf
      subst hf
      decide)
    (by
      intro v hv fs hf
      simp only [c9wAfter1, List.mem_singleton] at hv
      subst hv
      injection hf with hf
      subst hf
      decide)
    (by decide) (by decide)

/-- Counterexample to C9 as stated: two after collections whose records
are pairwise deeply equal (the first record lists its fields in different
orders) and an empty before collection with no key selections give
different newEntries memberships: in the first run the two records
receive the same JSON.stringify deduplication id (the objectSignature
field of both is clobbered by the spread), so only one survives, while in
the second run the permuted first record serializes differently and both
survive. -/
theorem compareJsons_order_sensitive_cx :
    compareJsons c9Before c9After1 c9Cfg = Except.ok c9Result1
    ∧ compareJsons c9Before c9After2 c9Cfg = Except.ok c9Result2
    ∧ (c9After1.zip c9After2).all (fun p => isEqual p.1 p.2) = true
    ∧ c9After1.length = c9After2.length
    ∧ ((⟨[("a", JsonValue.num 1), ("objectSignature", JsonValue.str "X")],
        "a,objectSignature", none⟩ : SimpleEntry) ∈ c9Result2.newEntries)
    ∧ (∀ e ∈ c9Result1.newEntries,
        fieldsEqual e.fields
          [("a", JsonValue.num 1), ("objectSignature", JsonValue.str "X")] = false) := by
  decide
